import Mathlib

/-!
Rian-Assistant: session store, message bus, web tools, calculator and agent
loop.

A shallow embedding of `pkg/session/manager.go`, `pkg/bus/bus.go`, the fetch
cache, the extraction limit and `extractText` of `pkg/tools/web.go` and the
parser of `pkg/tools/calculator.go`, and a model of the agent loop
(`pkg/agent/loop.go`, which is not among the sources at hand) after the
specification, followed by the properties proved about them.

Conventions of the embedding

* Go strings are Lean `String`s; slices are `List`s (a nil slice and an empty
  slice are both `[]`, the code only ever looks at `len`).
* `time.Time` is an instant counted in nanoseconds (`Int`), `time.Duration`
  is a number of nanoseconds; `time.Now()` is passed to every operation that
  reads the clock.
* A Go map `map[string]*Session` is a function `String → Option Session`.
* A panic is the `Except.error` branch of a result.
* The calculator computes on `float64`: its arithmetic is a parameter
  (`tools.Arith`), and the state of its parser is the input from the current
  position on.
-/

/-! ## Part 1: definitions -/

namespace providers

/-- Modelled from the spec: `providers.FunctionCall` is declared outside the
sources at hand; the fields are the ones the sources write (`Name`,
`Arguments`, the arguments being the JSON text). -/
structure FunctionCall where
  Name : String
  Arguments : String
deriving DecidableEq

/-- Modelled from the spec: `providers.ToolCall` ({id, name, argumentsJSON}
in the data model); the fields are the ones the sources write. `Function` is
a pointer in Go, hence optional; `Typ` is the Go field `Type`. -/
structure ToolCall where
  ID : String
  Typ : String
  Name : String
  Function : Option FunctionCall
deriving DecidableEq

/-- Modelled from the spec: `providers.Message`, a conversation turn
{role, content, toolCalls[], toolCallID}. -/
structure Message where
  Role : String
  Content : String
  ToolCalls : List ToolCall
  ToolCallID : String
deriving DecidableEq

end providers

namespace session

open providers

/-- The test of the loop in `sanitizeMessages` that drops the tail:
`last.Role == "assistant" && len(last.ToolCalls) > 0`. -/
def orphanTail (m : Message) : Bool :=
  decide (m.Role = "assistant") && decide (0 < m.ToolCalls.length)

/-- The `for` loop of `sanitizeMessages`, run on the message list read from
its tail (the head of `rev` is `msgs[len(msgs)-1]`); dropping the head is
`msgs = msgs[:len(msgs)-1]`. -/
def sanitizeLoop : List Message → List Message
  | [] => []
  | last :: rest =>
    if last.Role = "tool" then last :: rest
    else if orphanTail last then sanitizeLoop rest
    else last :: rest

/-- `sanitizeMessages(msgs)`: the loop walks `msgs` from its last element;
the final copy into a fresh backing array does not change the elements. -/
def sanitizeMessages (msgs : List Message) : List Message :=
  (sanitizeLoop msgs.reverse).reverse

/-- The struct `Session`. -/
structure Session where
  Key : String
  Messages : List Message
  Summary : String
  Created : Int
  Updated : Int
deriving DecidableEq

/-- The struct `SessionManager` (the lock `mu` guards every access and has no
state of its own in a sequential run). -/
structure SessionManager where
  sessions : String → Option Session
  storage : String
  ttl : Int

/-- The Go statement `sm.sessions[key] = s`. -/
def SessionManager.put (sm : SessionManager) (key : String) (s : Session) : SessionManager :=
  { sm with sessions := fun k => if k = key then some s else sm.sessions k }

/-- The Go statement `delete(sm.sessions, key)`. -/
def SessionManager.delete (sm : SessionManager) (key : String) : SessionManager :=
  { sm with sessions := fun k => if k = key then none else sm.sessions k }

/-- Smallest `time.Duration` (an int64). -/
def minDuration : Int := -(2 ^ 63)

/-- Largest `time.Duration` (an int64). -/
def maxDuration : Int := 2 ^ 63 - 1

/-- `time.Since(t)` read at the instant `now`: `now.Sub(t)`, which saturates
at the ends of the int64 range. -/
def since (now t : Int) : Int :=
  if now - t < minDuration then minDuration
  else if maxDuration < now - t then maxDuration
  else now - t

/-- `7 * 24 * time.Hour`, in nanoseconds. -/
def defaultTTL : Int := 7 * 24 * 3600 * 1000000000

/-- The test `time.Since(s.Updated) > sm.ttl` of `evictExpired`. -/
def expired (ttl now : Int) (s : Session) : Bool := decide (ttl < since now s.Updated)

/-- `SessionManager.evictExpired`: one pass over the table. -/
def evictExpired (sm : SessionManager) (now : Int) : SessionManager :=
  if sm.ttl ≤ 0 then sm
  else { sm with sessions := fun k =>
          match sm.sessions k with
          | none => none
          | some s => if expired sm.ttl now s then none else some s }

/-- `SessionManager.GetOrCreate`. -/
def GetOrCreate (sm : SessionManager) (now : Int) (key : String) : Session × SessionManager :=
  match sm.sessions key with
  | some s => (s, sm)
  | none =>
    let s : Session := { Key := key, Messages := [], Summary := "", Created := now, Updated := now }
    (s, sm.put key s)

/-- `SessionManager.AddFullMessage`. A session created here has the zero
`Updated` until the last statement sets it. -/
def AddFullMessage (sm : SessionManager) (now : Int) (sessionKey : String) (msg : Message) :
    SessionManager :=
  let s : Session :=
    match sm.sessions sessionKey with
    | some s => s
    | none => { Key := sessionKey, Messages := [], Summary := "", Created := now, Updated := 0 }
  sm.put sessionKey { s with Messages := s.Messages ++ [msg], Updated := now }

/-- `SessionManager.AddMessage`. -/
def AddMessage (sm : SessionManager) (now : Int) (sessionKey role content : String) :
    SessionManager :=
  AddFullMessage sm now sessionKey { Role := role, Content := content, ToolCalls := [], ToolCallID := "" }

/-- `SessionManager.GetHistory`, as the sequence of values it returns. -/
def GetHistory (sm : SessionManager) (key : String) : List Message :=
  match sm.sessions key with
  | none => []
  | some s => s.Messages

/-- `SessionManager.GetSummary`. -/
def GetSummary (sm : SessionManager) (key : String) : String :=
  match sm.sessions key with
  | none => ""
  | some s => s.Summary

/-- `SessionManager.SetSummary`. -/
def SetSummary (sm : SessionManager) (now : Int) (key summary : String) : SessionManager :=
  match sm.sessions key with
  | none => sm
  | some s => sm.put key { s with Summary := summary, Updated := now }

/-- `SessionManager.TruncateHistory`; `keepLast` is a Go `int`. -/
def TruncateHistory (sm : SessionManager) (now : Int) (key : String) (keepLast : Int) :
    SessionManager :=
  match sm.sessions key with
  | none => sm
  | some s =>
    if keepLast ≤ 0 then sm.put key { s with Messages := [], Updated := now }
    else if (s.Messages.length : Int) ≤ keepLast then sm
    else sm.put key { s with Messages := s.Messages.drop (s.Messages.length - keepLast.toNat),
                             Updated := now }

/-- `SessionManager.SetHistory`. -/
def SetHistory (sm : SessionManager) (now : Int) (key : String) (history : List Message) :
    SessionManager :=
  match sm.sessions key with
  | none => sm
  | some s => sm.put key { s with Messages := history, Updated := now }

/-- `sanitizeFilename`: `strings.ReplaceAll(key, ":", "_")`. -/
def sanitizeFilename (key : String) : String :=
  ⟨key.data.map (fun c => if c = ':' then '_' else c)⟩

/-! ### The standard-library path functions `Save` and `loadSessions` call
(Unix flavour: the separator is `/`, there are no volume names). -/

/-- Cut a path at every `/`, as the loop of `strings.Cut(p, "/")` does. -/
def splitSlash : List Char → List (List Char)
  | [] => [[]]
  | c :: cs =>
    if c = '/' then [] :: splitSlash cs
    else match splitSlash cs with
      | p :: ps => (c :: p) :: ps
      | [] => [[c]]

/-- The element loop of `filepath.Clean` on a path that is not rooted: `ups`
counts the leading `..` elements already written, `out` holds the elements
written after them, last one first. -/
def cleanLoop : List (List Char) → Nat → List (List Char) → Nat × List (List Char)
  | [], ups, out => (ups, out)
  | part :: parts, ups, out =>
    if part = [] ∨ part = ['.'] then cleanLoop parts ups out
    else if part = ['.', '.'] then
      match out with
      | _ :: out1 => cleanLoop parts ups out1
      | [] => cleanLoop parts (ups + 1) []
    else cleanLoop parts ups (part :: out)

/-- `filepath.Clean` on a path that is not rooted. -/
def Clean (path : List Char) : List Char :=
  if path = [] then ['.']
  else
    let r := cleanLoop (splitSlash path) 0 []
    let elems := List.replicate r.1 ['.', '.'] ++ r.2.reverse
    if elems = [] then ['.'] else List.intercalate ['/'] elems

/-- `filepath.IsLocal` (`unixIsLocal`). -/
def IsLocal (path : String) : Bool :=
  if path.data.head? = some '/' ∨ path = "" then false
  else
    let hasDots := (splitSlash path.data).any (fun part => part = ['.'] ∨ part = ['.', '.'])
    let p := if hasDots then Clean path.data else path.data
    if p = ['.', '.'] ∨ ['.', '.', '/'].isPrefixOf p then false else true

/-- `strings.ContainsAny(s, chars)`. -/
def ContainsAny (s chars : String) : Bool := s.data.any (fun c => chars.data.contains c)

/-- The loop of `filepath.Ext`, on the path read from its end; `acc` is what
has been passed so far. -/
def extLoop : List Char → List Char → List Char
  | [], _ => []
  | c :: rest, acc =>
    if c = '/' then []
    else if c = '.' then '.' :: acc
    else extLoop rest (c :: acc)

/-- `filepath.Ext`. -/
def Ext (path : String) : String := ⟨extLoop path.data.reverse []⟩

/-! ### The storage root -/

/-- An entry of the storage root: a directory, or a file and its bytes. -/
inductive Node (D : Type) where
  | dir : Node D
  | file (data : D) : Node D

/-- The storage root `sm.storage`: its entries by name, no name twice. -/
abbrev Dir (D : Type) := List (String × Node D)

/-- The order of file names in a directory listing: byte by byte, which on
UTF-8 text is character by character. -/
def nameLE : List Char → List Char → Bool
  | [], _ => true
  | _ :: _, [] => false
  | a :: as, b :: bs =>
    if a.toNat < b.toNat then true
    else if b.toNat < a.toNat then false
    else nameLE as bs

/-- `os.ReadDir`: the entries in file-name order. -/
def ReadDir {D : Type} (d : Dir D) : List (String × Node D) :=
  d.insertionSort (fun a b => nameLE a.1.data b.1.data = true)

/-- `os.Remove` of one entry. -/
def Dir.remove {D : Type} (d : Dir D) (name : String) : Dir D :=
  d.filter (fun e => e.1 ≠ name)

/-- The file `name` after a write (or a rename onto it): `data`. -/
def Dir.write {D : Type} (d : Dir D) (name : String) (data : D) : Dir D :=
  (name, Node.file data) :: d.remove name

/-- The encoding of a session file: `json.Marshal` and `json.Unmarshal` at
type `Session`, over file contents of type `D`. Both can fail. -/
structure Codec (D : Type) where
  marshal : Session → Option D
  unmarshal : D → Option Session

/-- The errors `Save` returns: `os.ErrInvalid`, the error of `json.Marshal`,
the error of a file operation. -/
inductive SaveError where
  | invalid
  | marshal
  | io
deriving DecidableEq

/-- The key check of `Save`, true when the key is refused:
`filename == "." || !filepath.IsLocal(filename) || strings.ContainsAny(filename, "/\\")`. -/
def refused (filename : String) : Bool :=
  decide (filename = ".") || !IsLocal filename || ContainsAny filename "/\\"

/-- `SessionManager.Save`: the error returned (`none` is Go's `nil`) and the
storage root afterwards. The temporary file `session-*.tmp` is created,
written and renamed onto `filename + ".json"`; these file operations are
taken to succeed, except a rename onto a directory, and the temporary file
is gone when `Save` returns. -/
def Save {D : Type} (codec : Codec D) (sm : SessionManager) (d : Dir D) (key : String) :
    Option SaveError × Dir D :=
  if sm.storage = "" then (none, d)
  else
    let filename := sanitizeFilename key
    if refused filename then (some SaveError.invalid, d)
    else
      match sm.sessions key with
      | none => (none, d)
      | some stored =>
        let snapshot : Session :=
          { Key := stored.Key, Messages := stored.Messages, Summary := stored.Summary,
            Created := stored.Created, Updated := stored.Updated }
        match codec.marshal snapshot with
        | none => (some SaveError.marshal, d)
        | some data =>
          match d.lookup (filename ++ ".json") with
          | some Node.dir => (some SaveError.io, d)
          | _ => (none, d.write (filename ++ ".json") data)

/-- The body of the `for` loop of `loadSessions` over the entries that
`os.ReadDir` returned; the clock reads `now` throughout. -/
def loadLoop {D : Type} (codec : Codec D) (now : Int) :
    List (String × Node D) → SessionManager → Dir D → SessionManager × Dir D
  | [], sm, d => (sm, d)
  | (_, Node.dir) :: files, sm, d => loadLoop codec now files sm d
  | (name, Node.file data) :: files, sm, d =>
    if Ext name ≠ ".json" then loadLoop codec now files sm d
    else
      match codec.unmarshal data with
      | none => loadLoop codec now files sm d
      | some s =>
        if 0 < sm.ttl ∧ sm.ttl < since now s.Updated then
          loadLoop codec now files sm (d.remove name)
        else
          loadLoop codec now files
            (sm.put s.Key { s with Messages := sanitizeMessages s.Messages }) d

/-- `SessionManager.loadSessions`. -/
def loadSessions {D : Type} (codec : Codec D) (sm : SessionManager) (d : Dir D) (now : Int) :
    SessionManager × Dir D :=
  loadLoop codec now (ReadDir d) sm d

/-- `NewSessionManager(storage)` on the storage root `d`, read at `now`. -/
def NewSessionManager {D : Type} (codec : Codec D) (storage : String) (d : Dir D) (now : Int) :
    SessionManager × Dir D :=
  let sm : SessionManager := { sessions := fun _ => none, storage := storage, ttl := defaultTTL }
  if storage ≠ "" then loadSessions codec sm d now else (sm, d)

/-- A codec that loses nothing: the file holds the record itself. -/
def recordCodec : Codec Session := { marshal := fun s => some s, unmarshal := fun s => some s }

/-! ### Sample data of the worked examples -/

/-- A user turn. -/
def userHello : Message := { Role := "user", Content := "hello", ToolCalls := [], ToolCallID := "" }

/-- An assistant turn that requests a tool and has no result yet. -/
def assistantCall : Message :=
  { Role := "assistant", Content := "",
    ToolCalls := [{ ID := "1", Typ := "function", Name := "web_search", Function := none }],
    ToolCallID := "" }

/-- A session interrupted between the tool request and its result. -/
def crashedSession : Session :=
  { Key := "telegram:1", Messages := [userHello, assistantCall], Summary := "s",
    Created := 0, Updated := 0 }

/-- A session file that holds the key of `colonManager` under another file
name. -/
def foreignSession : Session :=
  { Key := "telegram:123456", Messages := [], Summary := "other", Created := 0, Updated := 0 }

/-- A storage root holding the file of `crashedSession`. -/
def crashedDir : Dir Session := [("telegram_1.json", Node.file crashedSession)]

/-- The manager of `TestSave_WithColonInKey`, before `Save`. -/
def colonManager : SessionManager :=
  AddMessage (GetOrCreate (NewSessionManager recordCodec "sessions" [] 0).1 0 "telegram:123456").2
    0 "telegram:123456" "user" "hello"

/-- A manager whose session ends with a tool request that has no result. -/
def crashedManager : SessionManager :=
  AddFullMessage (AddMessage (NewSessionManager recordCodec "sessions" [] 0).1 0 "telegram:1"
    "user" "hello") 0 "telegram:1" assistantCall

/-- The manager of `colonManager` once its session has a summary. -/
def summaryManager : SessionManager := SetSummary colonManager 0 "telegram:123456" "earlier talk"

/-- A manager holding one session under `a:b` and another under `a_b`. -/
def twinManager : SessionManager :=
  AddMessage (AddMessage (NewSessionManager recordCodec "sessions" [] 0).1 0 "a:b" "user" "first")
    0 "a_b" "user" "second"

/-- An assistant turn that requests two tools. -/
def assistantTwoCalls : Message :=
  { Role := "assistant", Content := "",
    ToolCalls := [{ ID := "1", Typ := "function", Name := "web_search", Function := none },
                  { ID := "2", Typ := "function", Name := "web_fetch", Function := none }],
    ToolCallID := "" }

/-- The result of the tool call `1`. -/
def toolResultOne : Message :=
  { Role := "tool", Content := "Result for X", ToolCalls := [], ToolCallID := "1" }

/-! ### Slices and their backing arrays

`GetHistory` hands its caller a slice. Whether the caller can reach the stored
session through it depends on the backing arrays the slice and its elements
point to, so the slices are modelled with their arrays here: a
`providers.Message` lies in the array of a message slice with its strings as
values and with its field `ToolCalls` as a slice header, which points into an
array of tool calls. -/

/-- A Go slice header: its backing array, the position of its first element
in that array, its length and its capacity. -/
structure Slice where
  arr : Nat
  off : Nat
  len : Nat
  cap : Nat
deriving DecidableEq

/-- The backing arrays of one element type allocated so far; the array at
address `a` is the element at position `a`. -/
abbrev Heap (α : Type) := List (List α)

/-- The backing array at address `a`. -/
def Heap.array {α : Type} (h : Heap α) (a : Nat) : List α := (h[a]?).getD []

/-- The elements of a slice. -/
def Heap.read {α : Type} (h : Heap α) (s : Slice) : List α :=
  ((h.array s.arr).drop s.off).take s.len

/-- Store `vals` in the array at address `a`, from position `pos` on. -/
def Heap.writeAt {α : Type} (h : Heap α) (a pos : Nat) (vals : List α) : Heap α :=
  h.set a ((h.array a).take pos ++ vals ++ (h.array a).drop (pos + vals.length))

/-- A `providers.Message` as it lies in memory: `ToolCalls` is the header of
a slice of type `[]providers.ToolCall`. The pointer `Function` of a tool call
is held as a value inside the tool call. -/
structure MessageCell where
  Role : String
  Content : String
  ToolCalls : Slice
  ToolCallID : String
deriving DecidableEq

/-- The Go value `providers.Message{}`; its `ToolCalls` is the nil slice. -/
def zeroCell : MessageCell :=
  { Role := "", Content := "", ToolCalls := { arr := 0, off := 0, len := 0, cap := 0 },
    ToolCallID := "" }

/-- The memory of the program: the backing arrays of the message slices and
those of the tool-call slices. -/
structure Memory where
  messages : Heap MessageCell
  toolCalls : Heap ToolCall

/-- The message a cell stands for: its tool calls are read from memory. -/
def Memory.message (mem : Memory) (c : MessageCell) : Message :=
  { Role := c.Role, Content := c.Content, ToolCalls := mem.toolCalls.read c.ToolCalls,
    ToolCallID := c.ToolCallID }

/-- The messages of a slice of type `[]providers.Message`. -/
def Memory.read (mem : Memory) (s : Slice) : List Message :=
  (mem.messages.read s).map mem.message

/-- The Go expression `make([]providers.Message, n)`: a new array of `n` zero
messages and the slice over it. -/
def makeSlice (mem : Memory) (n : Nat) : Memory × Slice :=
  ({ mem with messages := mem.messages ++ [List.replicate n zeroCell] },
   { arr := mem.messages.length, off := 0, len := n, cap := n })

/-- The Go statement `copy(dst, src)` on message slices: as many elements as
the shorter of the two slices holds. An element is copied as it lies in
memory, its `ToolCalls` header included: the copy is shallow. -/
def copySlice (mem : Memory) (dst src : Slice) : Memory :=
  { mem with
    messages := mem.messages.writeAt dst.arr dst.off ((mem.messages.read src).take dst.len) }

/-- The struct `Session` with its field `Messages` as a slice header. -/
structure StoredSession where
  Key : String
  Messages : Slice
  Summary : String
  Created : Int
  Updated : Int

/-- The struct `SessionManager` over sessions whose messages are slices. -/
structure Store where
  sessions : String → Option StoredSession
  storage : String
  ttl : Int

/-- The manager a store amounts to once every slice is read from memory. -/
def Store.value (st : Store) (mem : Memory) : SessionManager :=
  { sessions := fun k =>
      match st.sessions k with
      | none => none
      | some s => some { Key := s.Key, Messages := mem.read s.Messages, Summary := s.Summary,
                         Created := s.Created, Updated := s.Updated }
    storage := st.storage
    ttl := st.ttl }

/-- `SessionManager.GetHistory` on slices: the memory after the call and the
slice returned. The store is only read. For an unknown key the result is the
empty slice `[]providers.Message{}`. -/
def GetHistorySlice (mem : Memory) (st : Store) (key : String) : Memory × Slice :=
  match st.sessions key with
  | none => makeSlice mem 0
  | some s =>
    let r := makeSlice mem s.Messages.len
    (copySlice r.1 r.2 s.Messages, r.2)

/-- What a caller can do with a slice `history` it holds. On the list itself:
`history[i] = m` (also `history[i].Content = x`, which stores a changed
element), `history = append(history, m)`, `history = history[lo:hi]`, where
the message `m` comes with the header of its tool-call slice, and the
allocation of a new array of tool calls (`[]providers.ToolCall{...}`) for
such a message. Through an element: `history[i].ToolCalls[j] = tc`. -/
inductive SliceOp where
  | assign (i : Nat) (m : MessageCell)
  | append (m : MessageCell)
  | reslice (lo hi : Nat)
  | newToolCalls (tcs : List ToolCall)
  | setToolCall (i j : Nat) (tc : ToolCall)

/-- The operations on the list itself: all but the write through the
`ToolCalls` of an element. -/
def SliceOp.onList : SliceOp → Bool
  | SliceOp.setToolCall _ _ _ => false
  | _ => true

/-- The capacity of the array `append` allocates when the slice is full: the
runtime picks one that is large enough, here twice the old one and at least
one more. -/
def growCap (cap : Nat) : Nat := max (2 * cap) (cap + 1)

/-- One operation of the caller on the slice `p.2` in the memory `p.1`. An
index or a bound out of range panics and nothing is written. -/
def SliceOp.run : SliceOp → Memory × Slice → Memory × Slice
  | SliceOp.assign i m, (mem, s) =>
    if i < s.len then
      ({ mem with messages := mem.messages.writeAt s.arr (s.off + i) [m] }, s)
    else (mem, s)
  | SliceOp.append m, (mem, s) =>
    if s.len < s.cap then
      ({ mem with messages := mem.messages.writeAt s.arr (s.off + s.len) [m] },
       { s with len := s.len + 1 })
    else
      ({ mem with messages := mem.messages ++
          [mem.messages.read s ++ [m] ++ List.replicate (growCap s.cap - (s.len + 1)) zeroCell] },
       { arr := mem.messages.length, off := 0, len := s.len + 1, cap := growCap s.cap })
  | SliceOp.reslice lo hi, (mem, s) =>
    if lo ≤ hi ∧ hi ≤ s.cap then
      (mem, { arr := s.arr, off := s.off + lo, len := hi - lo, cap := s.cap - lo })
    else (mem, s)
  | SliceOp.newToolCalls tcs, (mem, s) =>
    ({ mem with toolCalls := mem.toolCalls ++ [tcs] }, s)
  | SliceOp.setToolCall i j tc, (mem, s) =>
    match (mem.messages.read s)[i]? with
    | none => (mem, s)
    | some c =>
      if j < c.ToolCalls.len then
        ({ mem with
           toolCalls := mem.toolCalls.writeAt c.ToolCalls.arr (c.ToolCalls.off + j) [tc] }, s)
      else (mem, s)

/-- A sequence of operations of the caller, in order. -/
def runOps (ops : List SliceOp) (p : Memory × Slice) : Memory × Slice :=
  ops.foldl (fun q op => op.run q) p

/-- The slices of a store lie within arrays that are allocated, and so do the
tool-call slices of their messages that are not empty. -/
def Store.WellFormed (st : Store) (mem : Memory) : Prop :=
  ∀ k s, st.sessions k = some s →
    s.Messages.arr < mem.messages.length ∧
    s.Messages.off + s.Messages.len ≤ (mem.messages.array s.Messages.arr).length ∧
    ∀ c ∈ mem.messages.read s.Messages,
      c.ToolCalls.len = 0 ∨ c.ToolCalls.arr < mem.toolCalls.length

/-- A memory with the array of `colonManager`, and room behind its one
message. -/
def sampleMemory : Memory :=
  { messages := [[{ Role := "user", Content := "hello",
                    ToolCalls := { arr := 0, off := 0, len := 0, cap := 0 }, ToolCallID := "" },
                  zeroCell]],
    toolCalls := [] }

/-- The store of `colonManager` over `sampleMemory`. -/
def sampleStore : Store :=
  { sessions := fun k =>
      if k = "telegram:123456" then
        some { Key := k, Messages := { arr := 0, off := 0, len := 1, cap := 2 }, Summary := "",
               Created := 0, Updated := 0 }
      else none
    storage := "sessions"
    ttl := defaultTTL }

/-- A memory that holds the message `assistantCall`: its one tool call lies
in the array of tool calls at address 0. -/
def callMemory : Memory :=
  { messages := [[{ Role := "assistant", Content := "",
                    ToolCalls := { arr := 0, off := 0, len := 1, cap := 1 }, ToolCallID := "" }]],
    toolCalls := [assistantCall.ToolCalls] }

/-- A store whose session `telegram:1` holds the message of `callMemory`. -/
def callStore : Store :=
  { sessions := fun k =>
      if k = "telegram:1" then
        some { Key := k, Messages := { arr := 0, off := 0, len := 1, cap := 1 }, Summary := "",
               Created := 0, Updated := 0 }
      else none
    storage := "sessions"
    ttl := defaultTTL }

end session

namespace bus

/-- Modelled from the spec: `InboundMessage` is declared outside the sources
at hand: {channel, senderID, chatID, content, sessionKey, metadata}. -/
structure InboundMessage where
  Channel : String
  SenderID : String
  ChatID : String
  Content : String
  SessionKey : String
  Metadata : List (String × String)
deriving DecidableEq

/-- Modelled from the spec: `OutboundMessage` is declared outside the sources
at hand: {channel, chatID, content}. -/
structure OutboundMessage where
  Channel : String
  ChatID : String
  Content : String
deriving DecidableEq

/-- The Go value `InboundMessage{}`. -/
def InboundMessage.zero : InboundMessage :=
  { Channel := "", SenderID := "", ChatID := "", Content := "", SessionKey := "", Metadata := [] }

/-- The Go value `OutboundMessage{}`. -/
def OutboundMessage.zero : OutboundMessage := { Channel := "", ChatID := "", Content := "" }

/-- A buffered Go channel: the values it holds, oldest first, its capacity,
and whether `close` was called on it. -/
structure Chan (α : Type) where
  buf : List α
  cap : Nat
  closed : Bool
deriving DecidableEq

/-- The Go expression `make(chan T, n)`. -/
def Chan.make {α : Type} (n : Nat) : Chan α := { buf := [], cap := n, closed := false }

/-- The statement `select { case ch <- v: default: }`: a send on a closed
channel panics, a send on a full one is not ready and `default` runs. -/
def Chan.trySend {α : Type} (c : Chan α) (v : α) : Except String (Chan α) :=
  if c.closed then Except.error "send on closed channel"
  else if c.buf.length < c.cap then Except.ok { c with buf := c.buf ++ [v] }
  else Except.ok c

/-- The statement `close(ch)`: closing a closed channel panics. -/
def Chan.close {α : Type} (c : Chan α) : Except String (Chan α) :=
  if c.closed then Except.error "close of closed channel"
  else Except.ok { c with closed := true }

/-- Whether the case `<-ch` of a `select` can proceed: a value is buffered,
or the channel is closed. -/
def Chan.recvReady {α : Type} (c : Chan α) : Bool := !c.buf.isEmpty || c.closed

/-- The receive `<-ch` when it can proceed: the oldest buffered value, or the
zero value of the element type from a closed and drained channel. -/
def Chan.recv {α : Type} (zero : α) (c : Chan α) : α × Chan α :=
  match c.buf with
  | v :: rest => (v, { c with buf := rest })
  | [] => (zero, c)

/-- The struct `MessageBus`; `H` is the type `MessageHandler`, declared
outside the sources at hand. -/
structure MessageBus (H : Type) where
  inbound : Chan InboundMessage
  outbound : Chan OutboundMessage
  handlers : String → Option H
  closed : Bool

/-- `NewMessageBus`. -/
def NewMessageBus {H : Type} : MessageBus H :=
  { inbound := Chan.make 100, outbound := Chan.make 100, handlers := fun _ => none,
    closed := false }

/-- `MessageBus.PublishInbound`. -/
def PublishInbound {H : Type} (mb : MessageBus H) (msg : InboundMessage) :
    Except String (MessageBus H) :=
  if mb.closed then Except.ok mb
  else
    match mb.inbound.trySend msg with
    | Except.error e => Except.error e
    | Except.ok c => Except.ok { mb with inbound := c }

/-- `MessageBus.PublishOutbound`. -/
def PublishOutbound {H : Type} (mb : MessageBus H) (msg : OutboundMessage) :
    Except String (MessageBus H) :=
  if mb.closed then Except.ok mb
  else
    match mb.outbound.trySend msg with
    | Except.error e => Except.error e
    | Except.ok c => Except.ok { mb with outbound := c }

/-- `MessageBus.ConsumeInbound(ctx)`. `ctxDone` says whether `ctx.Done()` is
closed when the `select` runs, `pickDone` is the choice of the runtime when
both cases can proceed (true: the `ctx.Done()` case). The result is `none`
while neither case can proceed (the call blocks), else the pair returned and
the bus afterwards. -/
def ConsumeInbound {H : Type} (mb : MessageBus H) (ctxDone pickDone : Bool) :
    Option ((InboundMessage × Bool) × MessageBus H) :=
  if mb.inbound.recvReady && !(ctxDone && pickDone) then
    let r := mb.inbound.recv InboundMessage.zero
    some ((r.1, true), { mb with inbound := r.2 })
  else if ctxDone then some ((InboundMessage.zero, false), mb)
  else none

/-- `MessageBus.SubscribeOutbound(ctx)`, with the arguments of
`ConsumeInbound`. -/
def SubscribeOutbound {H : Type} (mb : MessageBus H) (ctxDone pickDone : Bool) :
    Option ((OutboundMessage × Bool) × MessageBus H) :=
  if mb.outbound.recvReady && !(ctxDone && pickDone) then
    let r := mb.outbound.recv OutboundMessage.zero
    some ((r.1, true), { mb with outbound := r.2 })
  else if ctxDone then some ((OutboundMessage.zero, false), mb)
  else none

/-- `MessageBus.RegisterHandler`. -/
def RegisterHandler {H : Type} (mb : MessageBus H) (channel : String) (handler : H) :
    MessageBus H :=
  { mb with handlers := fun c => if c = channel then some handler else mb.handlers c }

/-- `MessageBus.GetHandler`. -/
def GetHandler {H : Type} (mb : MessageBus H) (channel : String) : Option H :=
  mb.handlers channel

/-- `MessageBus.Close`. -/
def Close {H : Type} (mb : MessageBus H) : Except String (MessageBus H) :=
  if mb.closed then Except.ok mb
  else
    match mb.inbound.close with
    | Except.error e => Except.error e
    | Except.ok i =>
      match mb.outbound.close with
      | Except.error e => Except.error e
      | Except.ok o => Except.ok { mb with closed := true, inbound := i, outbound := o }

/-- The bus states a program can reach: from `NewMessageBus`, by the methods
of `MessageBus`. -/
inductive Reachable {H : Type} : MessageBus H → Prop where
  | new : Reachable NewMessageBus
  | publishInbound {mb mb1 : MessageBus H} (msg : InboundMessage) :
      Reachable mb → PublishInbound mb msg = Except.ok mb1 → Reachable mb1
  | publishOutbound {mb mb1 : MessageBus H} (msg : OutboundMessage) :
      Reachable mb → PublishOutbound mb msg = Except.ok mb1 → Reachable mb1
  | consumeInbound {mb mb1 : MessageBus H} (ctxDone pickDone : Bool) (r : InboundMessage × Bool) :
      Reachable mb → ConsumeInbound mb ctxDone pickDone = some (r, mb1) → Reachable mb1
  | subscribeOutbound {mb mb1 : MessageBus H} (ctxDone pickDone : Bool)
      (r : OutboundMessage × Bool) :
      Reachable mb → SubscribeOutbound mb ctxDone pickDone = some (r, mb1) → Reachable mb1
  | registerHandler {mb : MessageBus H} (channel : String) (handler : H) :
      Reachable mb → Reachable (RegisterHandler mb channel handler)
  | close {mb mb1 : MessageBus H} :
      Reachable mb → Close mb = Except.ok mb1 → Reachable mb1

/-- Publish the messages of a list on the inbound queue, one call of
`PublishInbound` after the other. -/
def publishInboundAll {H : Type} : MessageBus H → List InboundMessage → Except String (MessageBus H)
  | mb, [] => Except.ok mb
  | mb, m :: ms =>
    match PublishInbound mb m with
    | Except.error e => Except.error e
    | Except.ok mb1 => publishInboundAll mb1 ms

/-- Publish the messages of a list on the outbound queue, one call of
`PublishOutbound` after the other. -/
def publishOutboundAll {H : Type} :
    MessageBus H → List OutboundMessage → Except String (MessageBus H)
  | mb, [] => Except.ok mb
  | mb, m :: ms =>
    match PublishOutbound mb m with
    | Except.error e => Except.error e
    | Except.ok mb1 => publishOutboundAll mb1 ms

/-- The results of `n` successive calls of `ConsumeInbound` under a context
that is not cancelled, and the bus afterwards; `none` when a call blocks. -/
def consumeInboundN {H : Type} :
    Nat → MessageBus H → Option (List (InboundMessage × Bool) × MessageBus H)
  | 0, mb => some ([], mb)
  | n + 1, mb =>
    match ConsumeInbound mb false false with
    | none => none
    | some (r, mb1) =>
      match consumeInboundN n mb1 with
      | none => none
      | some (rs, mb2) => some (r :: rs, mb2)

/-- The results of `n` successive calls of `SubscribeOutbound` under a
context that is not cancelled, and the bus afterwards; `none` when a call
blocks. -/
def subscribeOutboundN {H : Type} :
    Nat → MessageBus H → Option (List (OutboundMessage × Bool) × MessageBus H)
  | 0, mb => some ([], mb)
  | n + 1, mb =>
    match SubscribeOutbound mb false false with
    | none => none
    | some (r, mb1) =>
      match subscribeOutboundN n mb1 with
      | none => none
      | some (rs, mb2) => some (r :: rs, mb2)

/-- What every reachable bus state satisfies: both channels were made with
capacity 100, they are closed exactly when the flag `closed` is set, and
neither holds more than 100 messages. -/
def Inv {H : Type} (mb : MessageBus H) : Prop :=
  mb.inbound.cap = 100 ∧ mb.outbound.cap = 100 ∧
  mb.inbound.closed = mb.closed ∧ mb.outbound.closed = mb.closed ∧
  mb.inbound.buf.length ≤ 100 ∧ mb.outbound.buf.length ≤ 100

/-! ### Sample data of the worked examples -/

/-- An inbound message, as `test_phase1.go` publishes one. -/
def helloIn : InboundMessage :=
  { Channel := "telegram", SenderID := "test_user", ChatID := "12345", Content := "hello",
    SessionKey := "", Metadata := [] }

/-- A second inbound message. -/
def byeIn : InboundMessage :=
  { Channel := "telegram", SenderID := "test_user", ChatID := "12345", Content := "bye",
    SessionKey := "", Metadata := [] }

/-- An outbound message. -/
def helloOut : OutboundMessage := { Channel := "telegram", ChatID := "12345", Content := "hi" }

/-- The bus after `NewMessageBus()` and `Close()`. -/
def closedBus : MessageBus Unit :=
  { inbound := { buf := [], cap := 100, closed := true },
    outbound := { buf := [], cap := 100, closed := true },
    handlers := fun _ => none, closed := true }

end bus

namespace tools

/-- The constant `fetchCacheMaxSize`. -/
def fetchCacheMaxSize : Nat := 64

/-- The struct `fetchCacheEntry`; `atTime` is the Go field `at`. -/
structure fetchCacheEntry where
  result : String
  atTime : Int
deriving DecidableEq

/-- A Go map `map[string]fetchCacheEntry`: its entries, no key twice. -/
abbrev EntryMap := List (String × fetchCacheEntry)

/-- The Go statement `delete(m, key)`. -/
def EntryMap.delete (m : EntryMap) (key : String) : EntryMap := m.filter (fun e => e.1 ≠ key)

/-- The Go statement `m[key] = e`. -/
def EntryMap.assign (m : EntryMap) (key : String) (e : fetchCacheEntry) : EntryMap :=
  (key, e) :: m.delete key

/-- The struct `fetchCache` (the lock `mu` has no state of its own in a
sequential run). -/
structure fetchCache where
  keys : List String
  data : EntryMap
  ttl : Int
deriving DecidableEq

/-- `newFetchCache(ttl)`. -/
def newFetchCache (ttl : Int) : fetchCache := { keys := [], data := [], ttl := ttl }

/-- `fetchCache.get(key)`, the clock reading `now`: the pair returned and the
cache afterwards. -/
def fetchCache.get (c : fetchCache) (now : Int) (key : String) : (String × Bool) × fetchCache :=
  match c.data.lookup key with
  | none => (("", false), c)
  | some e =>
    if 0 < c.ttl ∧ c.ttl < session.since now e.atTime then
      (("", false), { c with data := c.data.delete key })
    else ((e.result, true), c)

/-- `fetchCache.set(key, value)`, the clock reading `now`. -/
def fetchCache.set (c : fetchCache) (now : Int) (key value : String) : fetchCache :=
  let c1 : fetchCache :=
    match c.data.lookup key with
    | some _ => c
    | none =>
      let c2 : fetchCache :=
        if fetchCacheMaxSize ≤ c.keys.length then
          match c.keys with
          | evict :: rest => { c with keys := rest, data := c.data.delete evict }
          | [] => c
        else c
      { c2 with keys := c2.keys ++ [key] }
  { c1 with data := c1.data.assign key { result := value, atTime := now } }

/-- A call on the cache: `get(key)` or `set(key, value)`, with the reading of
the clock during the call. -/
inductive CacheOp where
  | get (now : Int) (key : String)
  | set (now : Int) (key value : String)

/-- The cache after one call. -/
def CacheOp.run (c : fetchCache) : CacheOp → fetchCache
  | CacheOp.get now key => (c.get now key).2
  | CacheOp.set now key value => c.set now key value

/-- The cache after a sequence of calls, in order. -/
def runCache (ops : List CacheOp) (c : fetchCache) : fetchCache :=
  ops.foldl CacheOp.run c

/-- What every cache reached from `newFetchCache` satisfies: the ring holds
at most `fetchCacheMaxSize` keys, the map has no key twice, and every key of
the map is in the ring. -/
def fetchCache.Inv (c : fetchCache) : Prop :=
  c.keys.length ≤ fetchCacheMaxSize ∧ (c.data.map (fun e => e.1)).Nodup ∧
  ∀ k ∈ c.data.map (fun e => e.1), k ∈ c.keys

/-! ### Sample data of the worked examples on the cache -/

/-- The keys `b`, `bb`, `bbb`, ..., `n` of them. -/
def fillerKeys : Nat → List String
  | 0 => []
  | n + 1 => fillerKeys n ++ [String.mk (List.replicate (n + 1) 'b')]

/-- A cache with a TTL of 10 in which `a` was stored at time 0, found expired
by a `get` at time 100, then 62 other keys were stored at time 101 and `a`
was stored again at time 200. -/
def staleRing : fetchCache :=
  runCache ([CacheOp.set 0 "a" "old", CacheOp.get 100 "a"]
      ++ (fillerKeys 62).map (fun k => CacheOp.set 101 k "page")
      ++ [CacheOp.set 200 "a" "new"])
    (newFetchCache 10)

/-! ### `WebFetchTool`: the extraction limit -/

/-- The struct `WebFetchTool`. -/
structure WebFetchTool where
  maxChars : Int
  jinaReaderEnabled : Bool
deriving DecidableEq

/-- `NewWebFetchTool(maxChars)`. -/
def NewWebFetchTool (maxChars : Int) : WebFetchTool :=
  { maxChars := if maxChars ≤ 0 then 50000 else maxChars, jinaReaderEnabled := true }

/-- The entry `"minimum": 100.0` that `WebFetchTool.Parameters` declares for
the argument `maxChars`. -/
def maxCharsMinimum : ℚ := 100

/-- The Go conversion `int(mc)` of a `float64` that has a value within the
range of `int`: the fraction is dropped. -/
def intOfFloat (mc : ℚ) : Int := Int.tdiv mc.num mc.den

/-- The limit `WebFetchTool.Execute` works with, the local `maxChars` once the
argument was looked at; `arg` is `args["maxChars"]` when it is there and is a
number, its value being within the range of `int`. -/
def WebFetchTool.limit (t : WebFetchTool) (arg : Option ℚ) : Int :=
  match arg with
  | some mc => if 100 < intOfFloat mc then intOfFloat mc else t.maxChars
  | none => t.maxChars

/-! ### `WebFetchTool.extractText` -/

/-- `unicode.IsSpace`. -/
def isSpace (c : Char) : Bool :=
  c = '\t' || c = '\n' || c = '\x0b' || c = '\x0c' || c = '\r' || c = ' ' ||
  c = '\u0085' || c = '\u00a0' || c = '\u1680' ||
  (decide (0x2000 ≤ c.toNat) && decide (c.toNat ≤ 0x200a)) ||
  c = '\u2028' || c = '\u2029' || c = '\u202f' || c = '\u205f' || c = '\u3000'

/-- `strings.TrimSpace`. -/
def trimSpace (l : List Char) : List Char := (l.dropWhile isSpace).rdropWhile isSpace

/-- The rest of a text after the first occurrence of `pat`, if there is one. -/
def afterFirst (pat : List Char) : List Char → Option (List Char)
  | [] => if pat = [] then some [] else none
  | c :: s => if pat.isPrefixOf (c :: s) then some ((c :: s).drop pat.length)
              else afterFirst pat s

/-- The replacement by nothing of every match of `opening[\s\S]*?closing`:
a match starts at the leftmost `opening` and runs to the first `closing`
behind it; without a `closing` behind it nothing matches any more. The first
argument bounds the number of steps. -/
def removeSpans (opening closing : List Char) : Nat → List Char → List Char
  | 0, s => s
  | _ + 1, [] => []
  | fuel + 1, c :: s =>
    if opening.isPrefixOf (c :: s) then
      match afterFirst closing ((c :: s).drop opening.length) with
      | some rest => removeSpans opening closing fuel rest
      | none => c :: s
    else c :: removeSpans opening closing fuel s

/-- The replacement by nothing of every match of `<[^>]+>`: a `<`, at least
one character other than `>`, and the first `>` behind them. The first
argument bounds the number of steps. -/
def removeTags : Nat → List Char → List Char
  | 0, s => s
  | _ + 1, [] => []
  | fuel + 1, c :: s =>
    if c = '<' then
      match s with
      | d :: s1 =>
        if d = '>' then c :: removeTags fuel s
        else
          match afterFirst ['>'] s1 with
          | some rest => removeTags fuel rest
          | none => c :: s
      | [] => [c]
    else c :: removeTags fuel s

/-- The class `[^\S\n]`: white space of the regular expressions (`\t`, `\n`,
`\f`, `\r` and the space) other than `\n`. -/
def isBlank (c : Char) : Bool := c = '\t' || c = '\x0c' || c = '\r' || c = ' '

/-- The replacement of every match of `[^\S\n]+` by one space. -/
def collapseBlanks : List Char → List Char
  | [] => []
  | c :: s =>
    if isBlank c then
      match s with
      | d :: _ => if isBlank d then collapseBlanks s else ' ' :: collapseBlanks s
      | [] => [' ']
    else c :: collapseBlanks s

/-- The number of `\n` a text starts with. -/
def leadingNewlines (s : List Char) : Nat := (s.takeWhile (fun c => c = '\n')).length

/-- The replacement of every match of `\n{3,}` by two `\n`: of a run of
three or more, all but the last two are dropped. -/
def collapseNewlines : List Char → List Char
  | [] => []
  | c :: s => if c = '\n' ∧ 2 ≤ leadingNewlines s then collapseNewlines s
              else c :: collapseNewlines s

/-- `strings.Split(s, "\n")`. -/
def splitNewline : List Char → List (List Char)
  | [] => [[]]
  | c :: s =>
    if c = '\n' then [] :: splitNewline s
    else match splitNewline s with
      | l :: ls => (c :: l) :: ls
      | [] => [[c]]

/-- The loop of `extractText` over the lines: each line trimmed, the empty
ones left out. -/
def cleanLines (lines : List (List Char)) : List (List Char) :=
  (lines.map trimSpace).filter (fun l => l ≠ [])

/-- `WebFetchTool.extractText`. -/
def extractText (htmlContent : String) : String :=
  let r1 := removeSpans "<script".data "</script>".data (htmlContent.data.length + 1)
    htmlContent.data
  let r2 := removeSpans "<style".data "</style>".data (r1.length + 1) r1
  let r3 := removeTags (r2.length + 1) r2
  let r4 := collapseNewlines (collapseBlanks (trimSpace r3))
  ⟨List.intercalate ['\n'] (cleanLines (splitNewline r4))⟩

end tools

namespace agent

open providers

/-- Modelled from the spec: the weight of one character in the token estimate
of `AgentLoop.estimateTokens` (`pkg/agent/loop.go`, not among the sources at
hand), counted in quarters of a token: an ASCII character weighs 0.25 token,
any other character 1.5 tokens. -/
def charQuarters (c : Char) : Nat := if c.toNat < 128 then 1 else 6

/-- Modelled from the spec: the weight of a text in quarters of a token, the
sum of the weights of its characters. -/
def textQuarters (s : String) : Nat := (s.data.map charQuarters).sum

/-- Modelled from the spec: the weight of the argument text of a tool call in
quarters of a token (the arguments are the field `Function.Arguments`, as in
`TestAgentLoop_EstimateTokens_ToolCallArgs`). -/
def toolCallQuarters (tc : ToolCall) : Nat :=
  match tc.Function with
  | some f => textQuarters f.Arguments
  | none => 0

/-- Modelled from the spec: what one message adds to the estimate, in
quarters of a token: the fixed overhead of 4 tokens, its content and the
arguments of its tool calls. -/
def messageQuarters (m : Message) : Nat :=
  16 + textQuarters m.Content + (m.ToolCalls.map toolCallQuarters).sum

/-- Modelled from the spec: `AgentLoop.estimateTokens` (`pkg/agent/loop.go`,
not among the sources at hand): the contributions of all messages are added
up and the total is then truncated to an integer. Every contribution is a
multiple of 0.25, so the floating-point total is exact and its truncation is
the division of the number of quarters by 4. -/
def estimateTokens (messages : List Message) : Nat :=
  (messages.map messageQuarters).sum / 4

/-- The number of ASCII characters of a text. -/
def asciiCount (s : String) : Nat := (s.data.filter (fun c => c.toNat < 128)).length

/-- The number of characters of a text that are not ASCII. -/
def wideCount (s : String) : Nat := (s.data.filter (fun c => ¬ c.toNat < 128)).length

/-- Modelled from the spec: `providers.ToolDefinition`, declared outside the
sources at hand; of the list offered to the backend only the names matter
here. -/
structure ToolDefinition where
  Name : String
deriving DecidableEq

/-- Modelled from the spec: `providers.LLMResponse`, the answer of the model
backend `(responseText, toolCalls[])`. -/
structure LLMResponse where
  Content : String
  ToolCalls : List ToolCall
deriving DecidableEq

/-- Modelled from the spec: the two kinds of failure of a backend call the
loop tells apart: one recognizable as "context/token limit exceeded", and any
other. -/
inductive ChatError where
  | contextOverflow
  | other
deriving DecidableEq

/-- Modelled from the spec: the outcome of `chat(messages, toolDefinitions,
model, options)`. -/
inductive ChatOutcome where
  | ok (resp : LLMResponse)
  | failed (e : ChatError)
deriving DecidableEq

/-- Modelled from the spec: the model backend capability `chat`; `σ` is the
state the backend keeps between calls (the mock providers of `loop_test.go`
count their calls). -/
abbrev Provider (σ : Type) := σ → List Message → List ToolDefinition → ChatOutcome × σ

/-- Modelled from the spec: `tools.ToolResult` {forLLM, forUser, isError,
visibility}, `Silent` being the visibility "silent". -/
structure ToolResult where
  ForLLM : String
  ForUser : String
  IsError : Bool
  Silent : Bool
deriving DecidableEq

/-- Modelled from the spec: one backend call as the loop made it: the tool
definitions it offered and what came back. -/
structure CallRecord where
  toolDefs : List ToolDefinition
  outcome : ChatOutcome
deriving DecidableEq

/-- Modelled from the spec: what a turn of `AgentLoop` (`pkg/agent/loop.go`,
not among the sources at hand) depends on: the iteration budget
`MaxToolIterations`, the tool definitions of the registry, the system prompt,
the optional memory context, the backend, the execution of a tool call by the
registry, the prompt-injection signatures, and the compression pass, of which
the spec fixes only that it drops roughly the middle half of the messages
and keeps the earliest and the most recent (`DropsMiddle`). -/
structure Loop (σ : Type) where
  MaxToolIterations : Nat
  toolDefs : List ToolDefinition
  systemPrompt : String
  memoryContext : Option String
  chat : Provider σ
  execute : ToolCall → ToolResult
  isInjection : String → Bool
  compress : List Message → List Message

/-- Modelled from the spec: what the spec fixes of the compression pass,
"dropping roughly the middle half of the session's message list (preserving
the earliest messages for system continuity and the most recent for immediate
relevance)": the pass removes one run `m` of consecutive messages; whatever it
removes lies between the earliest and the most recent message, which stay;
and it removes at least half of the messages, rounded down, or all that lie
between the first and the last message if these are fewer. -/
def DropsMiddle (compress : List Message → List Message) : Prop :=
  ∀ l, ∃ a m b, l = a ++ m ++ b ∧ compress l = a ++ b ∧ (m ≠ [] → a ≠ [] ∧ b ≠ []) ∧
    min (l.length / 2) (l.length - 2) ≤ m.length

/-- Modelled from the spec: the state of a turn in progress: the backend, the
calls made so far, the session store, the messages of this turn (held locally
until the turn completes) and the result of the most recent tool execution. -/
structure TurnState (σ : Type) where
  provider : σ
  calls : List CallRecord
  sm : session.SessionManager
  pending : List Message
  lastTool : Option ToolResult

/-- Modelled from the spec: the state Compose: system prompt, optional memory
context, session history, then the messages of the turn, which start with the
new user turn. -/
def compose {σ : Type} (al : Loop σ) (history pending : List Message) : List Message :=
  [{ Role := "system", Content := al.systemPrompt, ToolCalls := [], ToolCallID := "" }]
    ++ (match al.memoryContext with
        | some ctx => [{ Role := "system", Content := ctx, ToolCalls := [], ToolCallID := "" }]
        | none => [])
    ++ history ++ pending

/-- Modelled from the spec: the state Call-Model with the context-overflow
retry: a call that fails with a context-overflow error is followed by one
compression pass on the messages of the session and one retry of the same
call; any other failure, and a failure of the retry, ends the turn. -/
def callModel {σ : Type} (al : Loop σ) (now : Int) (key : String) (defs : List ToolDefinition)
    (st : TurnState σ) : ChatOutcome × TurnState σ :=
  let r := al.chat st.provider (compose al (session.GetHistory st.sm key) st.pending) defs
  let st1 : TurnState σ :=
    { st with provider := r.2, calls := st.calls ++ [{ toolDefs := defs, outcome := r.1 }] }
  match r.1 with
  | ChatOutcome.failed ChatError.contextOverflow =>
    let sm2 := session.SetHistory st1.sm now key (al.compress (session.GetHistory st1.sm key))
    let r2 := al.chat st1.provider (compose al (session.GetHistory sm2 key) st1.pending) defs
    (r2.1, { st1 with provider := r2.2, sm := sm2,
                      calls := st1.calls ++ [{ toolDefs := defs, outcome := r2.1 }] })
  | out => (out, st1)

/-- Modelled from the spec: the assistant message of a backend answer. -/
def assistantMessage (resp : LLMResponse) : Message :=
  { Role := "assistant", Content := resp.Content, ToolCalls := resp.ToolCalls, ToolCallID := "" }

/-- Modelled from the spec: the tool-role message that carries the result of
a tool call under the id of the call. -/
def toolMessage (tc : ToolCall) (r : ToolResult) : Message :=
  { Role := "tool", Content := r.ForLLM, ToolCalls := [], ToolCallID := tc.ID }

/-- Modelled from the spec: the state Synthesis: one more backend call with
an empty list of tool definitions, whose answer is the reply of the turn
whatever it contains. -/
def synthesis {σ : Type} (al : Loop σ) (now : Int) (key : String) (st : TurnState σ) :
    Except ChatError String × TurnState σ :=
  match callModel al now key [] st with
  | (ChatOutcome.ok resp, st1) =>
    (Except.ok resp.Content,
     { st1 with pending := st1.pending ++
        [{ Role := "assistant", Content := resp.Content, ToolCalls := [], ToolCallID := "" }] })
  | (ChatOutcome.failed e, st1) => (Except.error e, st1)

/-- Modelled from the spec: the state Respond: the reply is the content of
the answer, unless the most recent tool execution of the turn produced a
user-facing result, whose `forUser` text is then the reply. -/
def respond {σ : Type} (resp : LLMResponse) (st : TurnState σ) : String × TurnState σ :=
  ((match st.lastTool with
    | some r => if r.Silent then resp.Content else r.ForUser
    | none => resp.Content),
   { st with pending := st.pending ++ [assistantMessage resp] })

/-- Modelled from the spec: the state Execute-Tools: every requested tool
call is executed and its result appended as a tool-role message behind the
assistant message that requested it. -/
def executeTools {σ : Type} (al : Loop σ) (resp : LLMResponse) (st : TurnState σ) : TurnState σ :=
  { st with
    pending := st.pending ++ [assistantMessage resp]
      ++ resp.ToolCalls.map (fun tc => toolMessage tc (al.execute tc)),
    lastTool := (resp.ToolCalls.map al.execute).getLast? }

/-- Modelled from the spec: the loop Call-Model / Execute-Tools; `left` is
the number of iterations the budget still allows after the one that starts.
When the tools of an iteration are executed and the counter has reached the
budget, the turn goes to Synthesis. -/
def runLoop {σ : Type} (al : Loop σ) (now : Int) (key : String) :
    Nat → TurnState σ → Except ChatError String × TurnState σ
  | 0, st =>
    match callModel al now key al.toolDefs st with
    | (ChatOutcome.failed e, st1) => (Except.error e, st1)
    | (ChatOutcome.ok resp, st1) =>
      if resp.ToolCalls = [] then
        (Except.ok (respond resp st1).1, (respond resp st1).2)
      else synthesis al now key (executeTools al resp st1)
  | left + 1, st =>
    match callModel al now key al.toolDefs st with
    | (ChatOutcome.failed e, st1) => (Except.error e, st1)
    | (ChatOutcome.ok resp, st1) =>
      if resp.ToolCalls = [] then
        (Except.ok (respond resp st1).1, (respond resp st1).2)
      else runLoop al now key left (executeTools al resp st1)

/-- Modelled from the spec: the canned denial of a request that matches a
prompt-injection signature, as `TestAgentLoop_PromptInjection` expects it. -/
def injectionDenial : String :=
  "I cannot process requests that attempt to override my core instructions."

/-- Modelled from the spec: what a turn leaves behind: the reply or the
failure, the backend calls made in order, the session store and the
backend afterwards. -/
structure TurnResult (σ : Type) where
  reply : Except ChatError String
  calls : List CallRecord
  sm : session.SessionManager
  provider : σ

/-- Modelled from the spec: the session writes of a completed turn, one
`AddFullMessage` for each message of the turn in order. -/
def commit (sm : session.SessionManager) (now : Int) (key : String) :
    List Message → session.SessionManager
  | [] => sm
  | m :: ms => commit (session.AddFullMessage sm now key m) now key ms

/-- Modelled from the spec: one turn, `AgentLoop.processMessage`
(`pkg/agent/loop.go`, not among the sources at hand), for the user text
`content` on the session `key`: Receive (a request matching an injection
signature is denied without a backend call), Compose, then the loop. The
messages of the turn are written to the session when the turn completes and
not at all when it fails; the publication of the reply on the bus is left
out. -/
def processMessage {σ : Type} (al : Loop σ) (now : Int) (sm : session.SessionManager)
    (provider : σ) (key content : String) : TurnResult σ :=
  if al.isInjection content then
    { reply := Except.ok injectionDenial, calls := [], sm := sm, provider := provider }
  else
    let st0 : TurnState σ :=
      { provider := provider, calls := [], sm := sm,
        pending := [{ Role := "user", Content := content, ToolCalls := [], ToolCallID := "" }],
        lastTool := none }
    let r := runLoop al now key (al.MaxToolIterations - 1) st0
    match r.1 with
    | Except.ok reply =>
      { reply := Except.ok reply, calls := r.2.calls,
        sm := commit r.2.sm now key r.2.pending, provider := r.2.provider }
    | Except.error e =>
      { reply := Except.error e, calls := r.2.calls, sm := r.2.sm, provider := r.2.provider }

/-! ### The mock providers of `loop_test.go` and sample data -/

/-- The provider `alwaysToolCallProvider`: its state is `callsWithTools`; the
call id is left without its number. -/
def alwaysToolCallProvider (synthesisResponse : String) : Provider Nat :=
  fun callsWithTools _ toolDefs =>
    if toolDefs.length = 0 then
      (ChatOutcome.ok { Content := synthesisResponse, ToolCalls := [] }, callsWithTools)
    else
      (ChatOutcome.ok { Content := "", ToolCalls :=
        [{ ID := "call", Typ := "function", Name := "web_search",
           Function := some { Name := "web_search",
                              Arguments := "\x7b\"query\":\"gold price\",\"count\":5\x7d" } }] },
       callsWithTools + 1)

/-- The provider `failFirstMockProvider`: its state is `currentCall`; the
failure is a context-overflow error. -/
def failFirstMockProvider (failures : Nat) (successResp : String) : Provider Nat :=
  fun currentCall _ _ =>
    if currentCall + 1 ≤ failures then (ChatOutcome.failed ChatError.contextOverflow, currentCall + 1)
    else (ChatOutcome.ok { Content := successResp, ToolCalls := [] }, currentCall + 1)

/-- A compression pass: of `n` messages the middle `min(n/2, n-2)` are
dropped, so that the first and the last message stay; of the messages kept,
the larger half is the earliest ones. -/
def dropMiddle (l : List Message) : List Message :=
  l.take ((l.length - min (l.length / 2) (l.length - 2) + 1) / 2)
    ++ l.drop ((l.length - min (l.length / 2) (l.length - 2) + 1) / 2
        + min (l.length / 2) (l.length - 2))

/-- A tool execution whose result is silent. -/
def silentTool (_ : ToolCall) : ToolResult :=
  { ForLLM := "result", ForUser := "", IsError := false, Silent := true }

/-- The loop of `TestAgentLoop_GracefulDegradationAtIterLimit`, with the
budget `K`. -/
def degradationLoop (K : Nat) : Loop Nat :=
  { MaxToolIterations := K, toolDefs := [{ Name := "web_search" }], systemPrompt := "system",
    memoryContext := none,
    chat := alwaysToolCallProvider "Based on my research, gold is trading around $2,900/oz.",
    execute := silentTool, isInjection := fun _ => false, compress := dropMiddle }

/-- The loop of `TestAgentLoop_ContextExhaustionRetry`. -/
def retryLoop : Loop Nat :=
  { MaxToolIterations := 10, toolDefs := [{ Name := "web_search" }], systemPrompt := "system",
    memoryContext := none, chat := failFirstMockProvider 1 "Recovered from context error",
    execute := silentTool, isInjection := fun _ => false, compress := dropMiddle }

/-- The history `TestAgentLoop_ContextExhaustionRetry` means to inject. -/
def oldHistory : List Message :=
  [{ Role := "system", Content := "System prompt", ToolCalls := [], ToolCallID := "" },
   { Role := "user", Content := "Old message 1", ToolCalls := [], ToolCallID := "" },
   { Role := "assistant", Content := "Old response 1", ToolCalls := [], ToolCallID := "" },
   { Role := "user", Content := "Old message 2", ToolCalls := [], ToolCallID := "" },
   { Role := "assistant", Content := "Old response 2", ToolCalls := [], ToolCallID := "" },
   { Role := "user", Content := "Trigger message", ToolCalls := [], ToolCallID := "" }]

/-- A manager whose session `test-session-context` holds `oldHistory`. -/
def fullManager : session.SessionManager :=
  session.SetHistory
    (session.GetOrCreate (session.NewSessionManager session.recordCodec "" [] 0).1 0
      "test-session-context").2 0 "test-session-context" oldHistory

/-- A message whose content has two ASCII characters. -/
def shortMessage : Message := { Role := "user", Content := "ab", ToolCalls := [], ToolCallID := "" }

end agent

namespace tools

/-! ### The calculator (`pkg/tools/calculator.go`) -/

/-- The `float64` arithmetic, the functions of `math`, `strconv.ParseFloat`,
`strconv.FormatFloat` and the tables of `unicode` that the calculator calls,
over a type `F` of values. The theorems hold for every such arithmetic, the
one of Go among them. -/
structure Arith (F : Type) where
  /-- `x + y` -/
  add : F → F → F
  /-- `x - y` -/
  sub : F → F → F
  /-- `x * y` -/
  mul : F → F → F
  /-- `x / y` -/
  div : F → F → F
  /-- `math.Mod(x, y)` -/
  mod : F → F → F
  /-- `math.Pow(x, y)` -/
  pow : F → F → F
  /-- `-x` -/
  neg : F → F
  /-- `x == 0` -/
  isZero : F → Bool
  /-- `x < 0` -/
  isNeg : F → Bool
  /-- `x <= 0` -/
  notPos : F → Bool
  sqrt : F → F
  abs : F → F
  floor : F → F
  ceil : F → F
  round : F → F
  sin : F → F
  cos : F → F
  tan : F → F
  log : F → F
  log2 : F → F
  log10 : F → F
  exp : F → F
  /-- `math.Pi` -/
  pi : F
  /-- `math.E` -/
  e : F
  /-- The literal `1.6180339887498948482` -/
  phi : F
  /-- `strconv.ParseFloat(num, 64)`, `none` when it returns an error -/
  parseFloat : List Char → Option F
  /-- `unicode.IsLetter` -/
  isLetter : Char → Bool
  /-- `unicode.IsDigit` -/
  isDigit : Char → Bool
  /-- `unicode.ToLower`, which `strings.ToLower` applies to every rune -/
  toLower : Char → Char
  /-- `math.Trunc` -/
  trunc : F → F
  /-- `x == y` -/
  eq : F → F → Bool
  /-- `math.IsInf(x, 0)` -/
  isInf : F → Bool
  /-- The conversion `int64(x)` -/
  toInt64 : F → Int
  /-- `strconv.FormatFloat(x, 'f', -1, 64)` -/
  formatFloat : F → String

/-- The errors of the calculator, one constructor for each `fmt.Errorf`, and
`outOfFuel` for a run of the model that is cut off by its call budget (no run
of `evalExpr` ends this way: `evalExpr_fuel`). -/
inductive CalcError where
  /-- "unexpected character %q at position %d" -/
  | trailing (rest : List Char) (pos : Nat)
  /-- "division by zero" -/
  | divisionByZero
  /-- "modulo by zero" -/
  | moduloByZero
  /-- "unexpected end of expression" -/
  | unexpectedEnd
  /-- "expected closing ')'" -/
  | expectedClosing
  /-- "unexpected character %q" -/
  | unexpectedChar (ch : Char)
  /-- "invalid number %q" -/
  | invalidNumber (num : List Char)
  /-- "unknown identifier %q (did you mean a function? add parentheses)" -/
  | unknownIdentifier (name : List Char)
  /-- "expected ')' after function argument for %q" -/
  | expectedClosingAfter (name : List Char)
  /-- "sqrt of negative number" -/
  | sqrtNegative
  /-- "log of non-positive number" -/
  | logNonPositive
  /-- "log2 of non-positive number" -/
  | log2NonPositive
  /-- "log10 of non-positive number" -/
  | log10NonPositive
  /-- "unknown function %q" -/
  | unknownFunction (name : List Char)
  | outOfFuel
deriving DecidableEq

/-- What a method of the parser returns: the value and the input from the new
position `p.pos` on, or the error. The parser state is `p.input[p.pos:]`. -/
abbrev Step (F : Type) := Except CalcError (F × List Char)

/-- `parser.skipSpaces`. -/
def skipSpaces (s : List Char) : List Char := s.dropWhile isSpace

/-- The loop of `parser.parseNumber`: the text scanned and the input after
it. A sign is scanned together with the `e` or `E` before it. -/
def scanNumber {F : Type} (E : Arith F) : List Char → List Char × List Char
  | [] => ([], [])
  | [c] => if E.isDigit c = true ∨ c = '.' ∨ c = 'e' ∨ c = 'E' then ([c], []) else ([], [c])
  | c :: d :: s =>
    if E.isDigit c = true ∨ c = '.' ∨ c = 'e' ∨ c = 'E' then
      if (c = 'e' ∨ c = 'E') ∧ (d = '+' ∨ d = '-') then
        (c :: d :: (scanNumber E s).1, (scanNumber E s).2)
      else (c :: (scanNumber E (d :: s)).1, (scanNumber E (d :: s)).2)
    else ([], c :: d :: s)

/-- `parser.parseNumber`. -/
def parseNumber {F : Type} (E : Arith F) (s : List Char) : Step F :=
  match E.parseFloat (scanNumber E s).1 with
  | some v => .ok (v, (scanNumber E s).2)
  | none => .error (.invalidNumber (scanNumber E s).1)

/-- The characters of a name: the test of the loop of `parseNamedToken`. -/
def nameChar {F : Type} (E : Arith F) (c : Char) : Bool :=
  E.isLetter c || E.isDigit c || c = '_'

/-- The first `switch name` of `parseNamedToken`: the constants. -/
def constant {F : Type} (E : Arith F) (name : List Char) : Option F :=
  if name = "pi".data then some E.pi
  else if name = "e".data then some E.e
  else if name = "phi".data then some E.phi
  else none

/-- The second `switch name` of `parseNamedToken`: the functions. -/
def callFunction {F : Type} (E : Arith F) (name : List Char) (arg : F) : Except CalcError F :=
  if name = "sqrt".data then
    if E.isNeg arg = true then .error .sqrtNegative else .ok (E.sqrt arg)
  else if name = "abs".data then .ok (E.abs arg)
  else if name = "floor".data then .ok (E.floor arg)
  else if name = "ceil".data then .ok (E.ceil arg)
  else if name = "round".data then .ok (E.round arg)
  else if name = "sin".data then .ok (E.sin arg)
  else if name = "cos".data then .ok (E.cos arg)
  else if name = "tan".data then .ok (E.tan arg)
  else if name = "log".data ∨ name = "ln".data then
    if E.notPos arg = true then .error .logNonPositive else .ok (E.log arg)
  else if name = "log2".data then
    if E.notPos arg = true then .error .log2NonPositive else .ok (E.log2 arg)
  else if name = "log10".data then
    if E.notPos arg = true then .error .log10NonPositive else .ok (E.log10 arg)
  else if name = "exp".data then .ok (E.exp arg)
  else .error (.unknownFunction name)

/-- `parser.parseNamedToken`; `expr` is `p.parseExpr`. -/
def parseNamedToken {F : Type} (E : Arith F) (expr : List Char → Step F) (s : List Char) :
    Step F :=
  let name := (s.takeWhile (nameChar E)).map E.toLower
  match constant E name with
  | some v => .ok (v, s.dropWhile (nameChar E))
  | none =>
    match skipSpaces (s.dropWhile (nameChar E)) with
    | [] => .error (.unknownIdentifier name)
    | c :: r1 =>
      if c = '(' then
        match expr r1 with
        | .error e => .error e
        | .ok (arg, r2) =>
          match skipSpaces r2 with
          | [] => .error (.expectedClosingAfter name)
          | d :: r3 =>
            if d = ')' then
              match callFunction E name arg with
              | .error e => .error e
              | .ok v => .ok (v, r3)
            else .error (.expectedClosingAfter name)
      else .error (.unknownIdentifier name)

/-- `parser.parsePrimary`; `expr` is `p.parseExpr`. -/
def parsePrimary {F : Type} (E : Arith F) (expr : List Char → Step F) (s : List Char) :
    Step F :=
  match skipSpaces s with
  | [] => .error .unexpectedEnd
  | ch :: rest =>
    if ch = '(' then
      match expr rest with
      | .error e => .error e
      | .ok (v, r) =>
        match skipSpaces r with
        | [] => .error .expectedClosing
        | d :: r1 => if d = ')' then .ok (v, r1) else .error .expectedClosing
    else if E.isLetter ch = true then parseNamedToken E expr (ch :: rest)
    else if E.isDigit ch = true ∨ ch = '.' then parseNumber E (ch :: rest)
    else .error (.unexpectedChar ch)

/-- `parser.parseUnary`, with a budget of nested calls. `p.peek()` is the
match on `skipSpaces s`: it leaves the position after the white space. -/
def parseUnary {F : Type} (E : Arith F) (expr : List Char → Step F) :
    Nat → List Char → Step F
  | 0, _ => .error .outOfFuel
  | fuel + 1, s =>
    match skipSpaces s with
    | [] => parsePrimary E expr []
    | ch :: rest =>
      if ch = '-' then
        match parseUnary E expr fuel rest with
        | .error e => .error e
        | .ok (v, r) => .ok (E.neg v, r)
      else if ch = '+' then parseUnary E expr fuel rest
      else parsePrimary E expr (ch :: rest)

/-- `parser.parsePower`, with a budget of nested calls. -/
def parsePower {F : Type} (E : Arith F) (expr : List Char → Step F) :
    Nat → List Char → Step F
  | 0, _ => .error .outOfFuel
  | fuel + 1, s =>
    match parseUnary E expr fuel s with
    | .error e => .error e
    | .ok (base, r) =>
      match skipSpaces r with
      | [] => .ok (base, [])
      | ch :: rest =>
        if ch = '^' then
          match parsePower E expr fuel rest with
          | .error e => .error e
          | .ok (exp, r1) => .ok (E.pow base exp, r1)
        else .ok (base, ch :: rest)

/-- The loop of `parser.parseTerm`, with a budget of iterations; `power` is
`p.parsePower`. -/
def termLoop {F : Type} (E : Arith F) (power : List Char → Step F) :
    Nat → F → List Char → Step F
  | 0, _, _ => .error .outOfFuel
  | fuel + 1, left, s =>
    match skipSpaces s with
    | [] => .ok (left, [])
    | ch :: rest =>
      if ch = '*' ∨ ch = '/' ∨ ch = '%' then
        match power rest with
        | .error e => .error e
        | .ok (right, r) =>
          if ch = '*' then termLoop E power fuel (E.mul left right) r
          else if ch = '/' then
            if E.isZero right = true then .error .divisionByZero
            else termLoop E power fuel (E.div left right) r
          else
            if E.isZero right = true then .error .moduloByZero
            else termLoop E power fuel (E.mod left right) r
      else .ok (left, ch :: rest)

/-- `parser.parseTerm`. -/
def parseTerm {F : Type} (E : Arith F) (expr : List Char → Step F) (fuel : Nat)
    (s : List Char) : Step F :=
  match parsePower E expr fuel s with
  | .error e => .error e
  | .ok (left, r) => termLoop E (parsePower E expr fuel) fuel left r

/-- The loop of `parser.parseExpr`, with a budget of iterations; `term` is
`p.parseTerm`. -/
def exprLoop {F : Type} (E : Arith F) (term : List Char → Step F) :
    Nat → F → List Char → Step F
  | 0, _, _ => .error .outOfFuel
  | fuel + 1, left, s =>
    match skipSpaces s with
    | [] => .ok (left, [])
    | ch :: rest =>
      if ch = '+' ∨ ch = '-' then
        match term rest with
        | .error e => .error e
        | .ok (right, r) =>
          if ch = '+' then exprLoop E term fuel (E.add left right) r
          else exprLoop E term fuel (E.sub left right) r
      else .ok (left, ch :: rest)

/-- `parser.parseExpr`, with a budget of nested calls. -/
def parseExpr {F : Type} (E : Arith F) : Nat → List Char → Step F
  | 0, _ => .error .outOfFuel
  | fuel + 1, s =>
    match parseTerm E (fun t => parseExpr E fuel t) fuel s with
    | .error e => .error e
    | .ok (left, r) => exprLoop E (parseTerm E (fun t => parseExpr E fuel t) fuel) fuel left r

/-- `evalExpr`: the budget is the length of the input plus three, which every
run stays within (`evalExpr_fuel`). -/
def evalExpr {F : Type} (E : Arith F) (s : String) : Except CalcError F :=
  match parseExpr E (s.data.length + 3) s.data with
  | .error e => .error e
  | .ok (result, r) =>
    match skipSpaces r with
    | [] => .ok result
    | c :: r1 => .error (.trailing (c :: r1) (s.data.length - (c :: r1).length))

/-- `strconv.FormatInt(i, 10)`. -/
def FormatInt (i : Int) : String := toString i

/-- Modelled from the spec: `ErrorResult(message)`, the result with the text
for the model and `isError` set. -/
def ErrorResult (message : String) : agent.ToolResult :=
  { ForLLM := message, ForUser := "", IsError := true, Silent := false }

/-- `CalculatorTool.Execute`; `expression` is `args["expression"].(string)`,
`none` when the argument is missing or not a string. The text of an
evaluation error is not modelled beyond its first words. -/
def Execute {F : Type} (E : Arith F) (expression : Option String) : agent.ToolResult :=
  match expression with
  | none => ErrorResult "expression is required"
  | some expr =>
    if trimSpace expr.data = [] then ErrorResult "expression is required"
    else
      match evalExpr E ⟨trimSpace expr.data⟩ with
      | .error _ => ErrorResult "evaluation error: "
      | .ok result =>
        let formatted :=
          if E.eq result (E.trunc result) = true ∧ E.isInf result = false then
            FormatInt (E.toInt64 result)
          else E.formatFloat result
        { ForLLM := expr ++ " = " ++ formatted, ForUser := expr ++ " = " ++ formatted,
          IsError := false, Silent := false }

/-- The ASCII digits. -/
def asciiDigit (c : Char) : Bool := decide (48 ≤ c.toNat ∧ c.toNat ≤ 57)

/-- The ASCII letters. -/
def asciiLetter (c : Char) : Bool :=
  decide ((97 ≤ c.toNat ∧ c.toNat ≤ 122) ∨ (65 ≤ c.toNat ∧ c.toNat ≤ 90))

/-- The value of a text of ASCII digits. -/
def wholeValue (num : List Char) : Option Nat :=
  if num ≠ [] ∧ num.all asciiDigit = true then
    some (num.foldl (fun n d => 10 * n + (d.toNat - 48)) 0)
  else none

/-- The conversion `int64(x)` of a whole number on amd64: a value outside the
range of `int64` gives the smallest `int64`. -/
def wholeToInt64 (x : Int) : Int :=
  if -(2 : Int) ^ 63 ≤ x ∧ x < (2 : Int) ^ 63 then x else -(2 : Int) ^ 63

/-- A sample arithmetic for the worked examples: the whole numbers, on which
`float64` is exact up to `2 ^ 53` and on every power of two that occurs here,
with ASCII letters and digits. It reads numbers written with digits only,
divides with truncation, takes a power with a whole exponent `>= 0`, and
leaves at zero the constants and the functions other than `abs`, `floor`,
`ceil` and `round`; the examples use none of those values. -/
def wholeArith : Arith Int where
  add := fun x y => x + y
  sub := fun x y => x - y
  mul := fun x y => x * y
  div := fun x y => Int.tdiv x y
  mod := fun x y => Int.tmod x y
  pow := fun x y => x ^ y.toNat
  neg := fun x => -x
  isZero := fun x => decide (x = 0)
  isNeg := fun x => decide (x < 0)
  notPos := fun x => decide (x ≤ 0)
  sqrt := fun _ => 0
  abs := fun x => (x.natAbs : Int)
  floor := fun x => x
  ceil := fun x => x
  round := fun x => x
  sin := fun _ => 0
  cos := fun _ => 0
  tan := fun _ => 0
  log := fun _ => 0
  log2 := fun _ => 0
  log10 := fun _ => 0
  exp := fun _ => 0
  pi := 0
  e := 0
  phi := 0
  parseFloat := fun num => (wholeValue num).map Int.ofNat
  isLetter := asciiLetter
  isDigit := asciiDigit
  toLower := fun c => if 65 ≤ c.toNat ∧ c.toNat ≤ 90 then Char.ofNat (c.toNat + 32) else c
  trunc := fun x => x
  eq := fun x y => decide (x = y)
  isInf := fun _ => false
  toInt64 := wholeToInt64
  formatFloat := fun _ => ""

/-- The names of the second `switch name` of `parseNamedToken`. -/
def functionNames : List (List Char) :=
  ["sqrt".data, "abs".data, "floor".data, "ceil".data, "round".data, "sin".data, "cos".data,
   "tan".data, "log".data, "ln".data, "log2".data, "log10".data, "exp".data]

/-- The binary operators. -/
def binaryOperators : List Char := ['+', '-', '*', '/', '%', '^']

/-- The texts of expressions: every text that a method of the parser reads
with success is one (`parseExpr_reads`). -/
inductive Expression {F : Type} (E : Arith F) : List Char → Prop
  | number (num : List Char) (v : F) : num ≠ [] →
      (∀ c ∈ num, E.isDigit c = true ∨ c ∈ ['.', 'e', 'E', '+', '-']) →
      E.parseFloat num = some v → Expression E num
  | const (name : List Char) (v : F) : name ≠ [] → (∀ c ∈ name, nameChar E c = true) →
      constant E (name.map E.toLower) = some v → Expression E name
  | call (name sp inner : List Char) : name ≠ [] → (∀ c ∈ name, nameChar E c = true) →
      name.map E.toLower ∈ functionNames → (∀ c ∈ sp, isSpace c = true) →
      Expression E inner → Expression E (name ++ sp ++ '(' :: inner ++ [')'])
  | paren (inner : List Char) : Expression E inner → Expression E ('(' :: inner ++ [')'])
  | sign (c : Char) (x : List Char) : c = '-' ∨ c = '+' → Expression E x →
      Expression E (c :: x)
  | binary (x : List Char) (op : Char) (y : List Char) : op ∈ binaryOperators →
      Expression E x → Expression E y → Expression E (x ++ op :: y)
  | spaceBefore (c : Char) (x : List Char) : isSpace c = true → Expression E x →
      Expression E (c :: x)
  | spaceAfter (x : List Char) (c : Char) : isSpace c = true → Expression E x →
      Expression E (x ++ [c])

/-- A method of the parser reads expressions: when it returns a value, the
input is a text of `Expression` followed by the input it leaves. -/
def Reads {F : Type} (E : Arith F) (f : List Char → Step F) : Prop :=
  ∀ s v r, f s = .ok (v, r) → ∃ k, s = k ++ r ∧ Expression E k

/-- The facts of the Unicode tables and of `strconv.ParseFloat` that the
theorems on texts assume: a letter or a digit is neither white space nor one
of `( ) + - * / % ^`, neither `.` nor a digit is a letter, and `ParseFloat`
accepts no text that ends with a sign. -/
structure Arith.Regular {F : Type} (E : Arith F) : Prop where
  apart : ∀ c, E.isLetter c = true ∨ E.isDigit c = true →
    isSpace c = false ∧ c ∉ ['(', ')', '+', '-', '*', '/', '%', '^']
  dot_not_letter : E.isLetter '.' = false
  digit_not_letter : ∀ c, E.isDigit c = true → E.isLetter c = false
  no_sign_end : ∀ num v, E.parseFloat num = some v →
    num.getLast? ≠ some '+' ∧ num.getLast? ≠ some '-'

/-- The arithmetic of partial values over `E` in which no guard of the parser
fires: a division or a modulo by a right operand that is zero, `sqrt` of a
negative argument and a logarithm of an argument `<= 0` have no value
(`none`), and so has every operation on an operand without value. -/
def unguarded {F : Type} (E : Arith F) : Arith (Option F) where
  add := fun x y => x.bind fun a => y.map fun b => E.add a b
  sub := fun x y => x.bind fun a => y.map fun b => E.sub a b
  mul := fun x y => x.bind fun a => y.map fun b => E.mul a b
  div := fun x y => x.bind fun a => y.bind fun b =>
    if E.isZero b = true then none else some (E.div a b)
  mod := fun x y => x.bind fun a => y.bind fun b =>
    if E.isZero b = true then none else some (E.mod a b)
  pow := fun x y => x.bind fun a => y.map fun b => E.pow a b
  neg := fun x => x.map E.neg
  isZero := fun _ => false
  isNeg := fun _ => false
  notPos := fun _ => false
  sqrt := fun x => x.bind fun a => if E.isNeg a = true then none else some (E.sqrt a)
  abs := fun x => x.map E.abs
  floor := fun x => x.map E.floor
  ceil := fun x => x.map E.ceil
  round := fun x => x.map E.round
  sin := fun x => x.map E.sin
  cos := fun x => x.map E.cos
  tan := fun x => x.map E.tan
  log := fun x => x.bind fun a => if E.notPos a = true then none else some (E.log a)
  log2 := fun x => x.bind fun a => if E.notPos a = true then none else some (E.log2 a)
  log10 := fun x => x.bind fun a => if E.notPos a = true then none else some (E.log10 a)
  exp := fun x => x.map E.exp
  pi := some E.pi
  e := some E.e
  phi := some E.phi
  parseFloat := fun num => (E.parseFloat num).map some
  isLetter := E.isLetter
  isDigit := E.isDigit
  toLower := E.toLower
  trunc := fun x => x.map E.trunc
  eq := fun x y => decide (x.isSome = true ∧ y.isSome = true) &&
    (x.bind fun a => y.map fun b => E.eq a b).getD false
  isInf := fun x => (x.map E.isInf).getD false
  toInt64 := fun x => (x.map E.toInt64).getD 0
  formatFloat := fun x => (x.map E.formatFloat).getD ""

/-- The method `g` over the partial values follows the method `f`: where `f`
returns a value, `g` returns the same value and leaves the same input. -/
def Lifts {F : Type} (f : List Char → Step F) (g : List Char → Step (Option F)) : Prop :=
  ∀ s v r, f s = .ok (v, r) → g s = .ok (some v, r)

/-- A numeric literal of value `v`: a text that starts with a digit or `.`,
that the loop of `parseNumber` scans to its end, and that `ParseFloat`
accepts with the value `v`. -/
def IsLiteral {F : Type} (E : Arith F) (lit : List Char) (v : F) : Prop :=
  (∃ c cs, lit = c :: cs ∧ (E.isDigit c = true ∨ c = '.')) ∧
  scanNumber E lit = (lit, []) ∧ E.parseFloat lit = some v

/-- The input after a literal stops the scan of `parseNumber`: it is empty or
starts with a character that is neither a digit nor one of `. e E + -`. -/
def Stops {F : Type} (E : Arith F) (rest : List Char) : Prop :=
  rest = [] ∨ ∃ t r, rest = t :: r ∧ E.isDigit t = false ∧ t ∉ ['.', 'e', 'E', '+', '-']

end tools

/-! ## Part 2: theorems -/

namespace session

open providers

theorem sanitizeLoop_head (rev : List Message) :
    ∀ m ∈ (sanitizeLoop rev).head?, orphanTail m = false := by
  induction rev with
  | nil => simp [sanitizeLoop]
  | cons last rest ih =>
    unfold sanitizeLoop
    by_cases h1 : last.Role = "tool"
    · simp [h1, orphanTail]
    · by_cases h2 : orphanTail last = true
      · simpa [h1, h2] using ih
      · simp [h1, h2]

theorem orphanTail_eq_false (m : Message) :
    orphanTail m = false ↔ ¬ (m.Role = "assistant" ∧ 0 < m.ToolCalls.length) := by
  simp [orphanTail]

theorem sanitizeLoop_fixed (rev : List Message)
    (h : ∀ m ∈ rev.head?, orphanTail m = false) : sanitizeLoop rev = rev := by
  cases rev with
  | nil => rfl
  | cons last rest =>
    have h1 : orphanTail last = false := h last (by simp)
    simp [sanitizeLoop, h1]

theorem sanitizeMessages_getLast (msgs : List Message) :
    ∀ m ∈ (sanitizeMessages msgs).getLast?, orphanTail m = false := by
  intro m hm
  rw [sanitizeMessages, List.getLast?_reverse] at hm
  exact sanitizeLoop_head _ m hm

theorem sanitizeMessages_fixed (msgs : List Message)
    (h : ∀ m ∈ msgs.getLast?, orphanTail m = false) : sanitizeMessages msgs = msgs := by
  unfold sanitizeMessages
  rw [sanitizeLoop_fixed, List.reverse_reverse]
  simpa [List.head?_reverse] using h

/-- What `loadLoop` stores in the table passed `sanitizeMessages`. -/
theorem loadLoop_sessions {D : Type} (codec : Codec D) (now : Int) (Q : Session → Prop)
    (hq : ∀ s : Session, Q { s with Messages := sanitizeMessages s.Messages })
    (files : List (String × Node D)) :
    ∀ (sm : SessionManager) (d : Dir D), (∀ k s, sm.sessions k = some s → Q s) →
      ∀ k s, (loadLoop codec now files sm d).1.sessions k = some s → Q s := by
  induction files with
  | nil => intro sm d h k s hk; exact h k s hk
  | cons e files ih =>
    intro sm d h
    obtain ⟨name, node⟩ := e
    cases node with
    | dir => simpa [loadLoop] using ih sm d h
    | file data =>
      unfold loadLoop
      split_ifs with hext
      · exact ih sm d h
      · cases hu : codec.unmarshal data with
        | none => simpa using ih sm d h
        | some s0 =>
          simp only []
          split_ifs with hexp
          · exact ih sm _ h
          · apply ih
            intro k s hk
            simp only [SessionManager.put] at hk
            split_ifs at hk with hkk
            · cases hk; exact hq s0
            · exact h k s hk

/-- C1: for every message list the result of `sanitizeMessages` is empty or
has a last message that is not an assistant message carrying tool calls, and
every session a fresh manager holds after loading its storage root has such a
message sequence. -/
theorem load_has_no_orphan_tail (msgs : List Message) {D : Type} (codec : Codec D)
    (storage : String) (d : Dir D) (now : Int) (key : String) (s : Session) :
    (∀ m ∈ (sanitizeMessages msgs).getLast?,
        ¬ (m.Role = "assistant" ∧ 0 < m.ToolCalls.length)) ∧
    ((NewSessionManager codec storage d now).1.sessions key = some s →
      ∀ m ∈ s.Messages.getLast?, ¬ (m.Role = "assistant" ∧ 0 < m.ToolCalls.length)) := by
  constructor
  · intro m hm
    exact (orphanTail_eq_false m).1 (sanitizeMessages_getLast msgs m hm)
  · intro h m hm
    unfold NewSessionManager at h
    by_cases hst : storage = ""
    · simp [hst] at h
    · simp only [ne_eq, hst, not_false_eq_true, if_true, loadSessions] at h
      have key_fact := loadLoop_sessions codec now
        (fun s => ∀ m ∈ s.Messages.getLast?, ¬ (m.Role = "assistant" ∧ 0 < m.ToolCalls.length))
        (fun s0 m hm => (orphanTail_eq_false m).1 (sanitizeMessages_getLast s0.Messages m hm))
        (ReadDir d) _ d (by intro k s hk; simp at hk) key s h
      exact key_fact m hm

/-- C1, on the storage root `crashedDir`: the session loaded has lost its
orphaned tool request. -/
theorem load_has_no_orphan_tail_witness :
    (NewSessionManager recordCodec "sessions" crashedDir 0).1.sessions "telegram:1"
        = some { crashedSession with Messages := [userHello] } ∧
      ∀ m ∈ ([userHello] : List Message).getLast?,
        ¬ (m.Role = "assistant" ∧ 0 < m.ToolCalls.length) :=
  ⟨by decide,
   (load_has_no_orphan_tail [] recordCodec "sessions" crashedDir 0 "telegram:1"
      { crashedSession with Messages := [userHello] }).2 (by decide)⟩

theorem Ext_json (f : String) : Ext (f ++ ".json") = ".json" := by
  have : (f ++ ".json").data = f.data ++ ['.', 'j', 's', 'o', 'n'] := rfl
  simp [Ext, this, extLoop]

theorem mem_ReadDir {D : Type} (d : Dir D) (e : String × Node D) : e ∈ ReadDir d ↔ e ∈ d :=
  (List.perm_insertionSort _ d).mem_iff

theorem loadLoop_ttl {D : Type} (codec : Codec D) (now : Int) (files : List (String × Node D)) :
    ∀ (sm : SessionManager) (d : Dir D), (loadLoop codec now files sm d).1.ttl = sm.ttl := by
  induction files with
  | nil => intro sm d; rfl
  | cons e files ih =>
    intro sm d
    obtain ⟨name, node⟩ := e
    cases node with
    | dir => simpa [loadLoop] using ih sm d
    | file data =>
      unfold loadLoop
      split_ifs with hext
      · exact ih sm d
      · cases hu : codec.unmarshal data with
        | none => simpa using ih sm d
        | some s0 =>
          simp only []
          split_ifs with hexp
          · exact ih sm _
          · rw [ih]; rfl

/-- The entry of `key` after `loadLoop`, when one file at most holds it. -/
theorem loadLoop_key {D : Type} (codec : Codec D) (now : Int) (key target : String) (data : D)
    (s : Session) (hext : Ext target = ".json") (hdec : codec.unmarshal data = some s)
    (hk : s.Key = key) (files : List (String × Node D)) :
    ∀ (sm : SessionManager) (d : Dir D),
      ¬ (0 < sm.ttl ∧ sm.ttl < since now s.Updated) →
      (∀ name x s1, (name, Node.file x) ∈ files → codec.unmarshal x = some s1 →
          s1.Key = key → name = target ∧ x = data) →
      ((target, Node.file data) ∈ files →
          (loadLoop codec now files sm d).1.sessions key
            = some { s with Messages := sanitizeMessages s.Messages }) ∧
      ((target, Node.file data) ∉ files →
          (loadLoop codec now files sm d).1.sessions key = sm.sessions key) := by
  subst hk
  induction files with
  | nil => intro sm d _ _; simp [loadLoop]
  | cons e files ih =>
    intro sm d hfresh hone
    have hone1 : ∀ name x s1, (name, Node.file x) ∈ files → codec.unmarshal x = some s1 →
        s1.Key = s.Key → name = target ∧ x = data :=
      fun name x s1 hm => hone name x s1 (List.mem_cons_of_mem _ hm)
    obtain ⟨name, node⟩ := e
    cases node with
    | dir =>
      have := ih sm d hfresh hone1
      simpa [loadLoop] using this
    | file x =>
      have hrest := ih sm d hfresh hone1
      unfold loadLoop
      split_ifs with hext1
      · have hne : (target, Node.file data) ≠ (name, Node.file x) := by
          intro h; cases h; exact hext1 hext
        simpa [hne] using hrest
      · cases hu : codec.unmarshal x with
        | none =>
          have hne : (target, Node.file data) ≠ (name, Node.file x) := by
            intro h; cases h; rw [hdec] at hu; cases hu
          simpa [hne] using hrest
        | some s1 =>
          simp only []
          by_cases hkey : s1.Key = s.Key
          · obtain ⟨hn, hx⟩ := hone name x s1 (List.mem_cons_self _ _) hu hkey
            subst hn; subst hx
            rw [hdec] at hu; cases hu
            rw [if_neg hfresh]
            have hfresh1 : ¬ (0 < (sm.put s.Key { s with Messages := sanitizeMessages s.Messages }).ttl ∧
                (sm.put s.Key { s with Messages := sanitizeMessages s.Messages }).ttl
                  < since now s.Updated) := hfresh
            have h2 := ih (sm.put s.Key { s with Messages := sanitizeMessages s.Messages }) d
              hfresh1 hone1
            constructor
            · intro _
              by_cases hin : (name, Node.file x) ∈ files
              · exact h2.1 hin
              · rw [h2.2 hin]; simp [SessionManager.put]
            · intro hnot; simp at hnot
          · have hne : (target, Node.file data) ≠ (name, Node.file x) := by
              intro h; cases h; rw [hdec] at hu; cases hu; exact hkey rfl
            split_ifs with hexp
            · have := ih sm (d.remove name) hfresh hone1
              simpa [hne] using this
            · have h2 := ih (sm.put s1.Key { s1 with Messages := sanitizeMessages s1.Messages }) d
                hfresh hone1
              have hsame : (sm.put s1.Key { s1 with Messages := sanitizeMessages s1.Messages }).sessions s.Key
                  = sm.sessions s.Key := by
                simp [SessionManager.put, Ne.symm hkey]
              rw [hsame] at h2
              simpa [hne] using h2

theorem refused_of_separator (key : String)
    (h : ∃ c ∈ key.data, c = '/' ∨ c = '\\') : refused (sanitizeFilename key) = true := by
  obtain ⟨c, hc, hsep⟩ := h
  have hany : ContainsAny (sanitizeFilename key) "/\\" = true := by
    simp only [ContainsAny, sanitizeFilename, List.any_eq_true, List.mem_map]
    refine ⟨c, ⟨c, hc, ?_⟩, ?_⟩
    · rcases hsep with h | h <;> subst h <;> decide
    · rcases hsep with h | h <;> subst h <;> decide
  simp [refused, hany]

theorem Save_accepted {D : Type} (codec : Codec D) (sm : SessionManager) (d : Dir D)
    (key : String) (s : Session) (hst : sm.storage ≠ "") (hs : sm.sessions key = some s)
    (hsave : (Save codec sm d key).1 = none) :
    ∃ data, codec.marshal s = some data ∧
      (Save codec sm d key).2 = d.write (sanitizeFilename key ++ ".json") data := by
  unfold Save at hsave ⊢
  rw [if_neg hst] at hsave ⊢
  by_cases hr : refused (sanitizeFilename key) = true
  · simp [hr] at hsave
  · simp only [hr, hs] at hsave ⊢
    cases hm : codec.marshal s with
    | none => simp [hm] at hsave
    | some data =>
      refine ⟨data, rfl, ?_⟩
      simp only [hm] at hsave ⊢
      cases hl : List.lookup (sanitizeFilename key ++ ".json") d with
      | none => simp
      | some node =>
        cases node with
        | dir => simp [hl] at hsave
        | file x => simp

/-- C2, amended: when `Save(key)` returns no error for a session held under
`key`, a fresh manager that loads the storage root before the TTL has passed,
from a root where no other file holds the key, has under `key` a session with
the same key and summary, whose messages are `sanitizeMessages` of the saved
ones: the saved sequence itself unless it ends with an assistant message
carrying tool calls. -/
theorem save_then_load {D : Type} (codec : Codec D) (sm : SessionManager) (d : Dir D)
    (key : String) (s : Session) (now : Int)
    (hst : sm.storage ≠ "") (hs : sm.sessions key = some s) (hkey : s.Key = key)
    (hsave : (Save codec sm d key).1 = none)
    (hcodec : ∀ data, codec.marshal s = some data → codec.unmarshal data = some s)
    (hfresh : since now s.Updated ≤ defaultTTL)
    (hother : ∀ name x s1, (name, Node.file x) ∈ d → name ≠ sanitizeFilename key ++ ".json" →
        codec.unmarshal x = some s1 → s1.Key ≠ key) :
    ∃ s1, (NewSessionManager codec sm.storage (Save codec sm d key).2 now).1.sessions key = some s1 ∧
      s1.Key = key ∧ s1.Summary = s.Summary ∧
      s1.Messages = sanitizeMessages s.Messages ∧
      ((∀ m ∈ s.Messages.getLast?, ¬ (m.Role = "assistant" ∧ 0 < m.ToolCalls.length)) →
        s1.Messages = s.Messages) := by
  obtain ⟨data, hm, hd⟩ := Save_accepted codec sm d key s hst hs hsave
  have hdec := hcodec data hm
  refine ⟨{ s with Messages := sanitizeMessages s.Messages }, ?_, hkey, rfl, rfl, ?_⟩
  · rw [hd]
    unfold NewSessionManager
    simp only [ne_eq, hst, not_false_eq_true, if_true, loadSessions]
    refine (loadLoop_key codec now key (sanitizeFilename key ++ ".json") data s
      (Ext_json _) hdec hkey _ _ _ ?_ ?_).1 ?_
    · intro h
      exact absurd h.2 (not_lt.mpr hfresh)
    · intro name x s1 hmem hu hk1
      rw [mem_ReadDir] at hmem
      simp only [Dir.write, Dir.remove, List.mem_cons, List.mem_filter] at hmem
      rcases hmem with h | ⟨h, hne⟩
      · cases h; exact ⟨rfl, rfl⟩
      · exact absurd hk1 (hother name x s1 h (by simpa using hne) hu)
    · rw [mem_ReadDir]
      simp [Dir.write]
  · intro h
    exact sanitizeMessages_fixed _ (fun m hm => (orphanTail_eq_false m).2 (h m hm))

/-- C2, on the session of `TestSave_WithColonInKey`: saved under
`telegram:123456` and loaded again. -/
theorem save_then_load_witness :
    ∃ s1, (NewSessionManager recordCodec colonManager.storage
        (Save recordCodec colonManager [] "telegram:123456").2 0).1.sessions "telegram:123456"
          = some s1 ∧
      s1.Key = "telegram:123456" ∧ s1.Summary = "" ∧
      s1.Messages = sanitizeMessages [userHello] ∧
      ((∀ m ∈ ([userHello] : List Message).getLast?,
          ¬ (m.Role = "assistant" ∧ 0 < m.ToolCalls.length)) → s1.Messages = [userHello]) :=
  save_then_load recordCodec colonManager [] "telegram:123456"
    { Key := "telegram:123456", Messages := [userHello], Summary := "", Created := 0,
      Updated := 0 } 0
    (by decide) (by decide) rfl (by decide) (by intro x h; cases h; rfl) (by decide)
    (fun _ _ _ h => absurd h (List.not_mem_nil _))

/-- C2 as stated fails: a session that ends with an assistant message
carrying a tool call is saved without error and comes back one message
shorter; a session loaded after the TTL has passed does not come back; and
a file later in the listing that holds the same key replaces the session. -/
theorem save_then_load_counterexample :
    (Save recordCodec crashedManager [] "telegram:1").1 = none ∧
    GetHistory crashedManager "telegram:1" = [userHello, assistantCall] ∧
    GetHistory (NewSessionManager recordCodec "sessions"
      (Save recordCodec crashedManager [] "telegram:1").2 0).1 "telegram:1" = [userHello] ∧
    (Save recordCodec colonManager [] "telegram:123456").1 = none ∧
    GetHistory colonManager "telegram:123456" = [userHello] ∧
    GetHistory (NewSessionManager recordCodec "sessions"
      (Save recordCodec colonManager [] "telegram:123456").2 (defaultTTL + 1)).1
        "telegram:123456" = [] ∧
    (Save recordCodec colonManager [("zzz.json", Node.file foreignSession)]
      "telegram:123456").1 = none ∧
    GetHistory (NewSessionManager recordCodec "sessions"
      (Save recordCodec colonManager [("zzz.json", Node.file foreignSession)]
        "telegram:123456").2 0).1 "telegram:123456" = [] := by
  decide

/-- C3, amended: on a manager with a storage root, `Save` of a key that is
empty, `.`, `..` or contains `/` or `\` returns the validation error and
leaves the storage root as it was, whatever the table holds; on a manager
without a storage root `Save` returns no error and writes nothing. -/
theorem Save_rejects_bad_key {D : Type} (codec : Codec D) (sm : SessionManager) (d : Dir D)
    (key : String)
    (hbad : key = "" ∨ key = "." ∨ key = ".." ∨ ∃ c ∈ key.data, c = '/' ∨ c = '\\') :
    (sm.storage ≠ "" → Save codec sm d key = (some SaveError.invalid, d)) ∧
    (sm.storage = "" → Save codec sm d key = (none, d)) := by
  constructor
  · intro hst
    have hr : refused (sanitizeFilename key) = true := by
      rcases hbad with h | h | h | h
      · subst h; decide
      · subst h; decide
      · subst h; decide
      · exact refused_of_separator key h
    simp [Save, hst, hr]
  · intro hst
    simp [Save, hst]

/-- C3, on the keys of `TestSave_RejectsPathTraversal`: the key `foo/bar`
on a manager with a storage root. -/
theorem Save_rejects_bad_key_witness :
    Save recordCodec colonManager [] "foo/bar" = (some SaveError.invalid, []) :=
  (Save_rejects_bad_key recordCodec colonManager [] "foo/bar"
    (Or.inr (Or.inr (Or.inr ⟨'/', by decide, Or.inl rfl⟩)))).1 (by decide)

/-- C3 as stated fails: a manager without a storage root returns no error
for the key `..`. -/
theorem Save_rejects_bad_key_counterexample :
    (NewSessionManager recordCodec "" [] 0).1.storage = "" ∧
    (Save recordCodec (GetOrCreate (NewSessionManager recordCodec "" [] 0).1 0 "..").2 [] "..").1
      = none := by
  decide

/-- C8: after `AddFullMessage(key, m)` the history of `key` is its history
before the call followed by `m` (the empty history for an unknown key, for
which a session is created), the history and summary of every other key are
as before, and `AddMessage(key, role, content)` is `AddFullMessage` of the
message {role, content} without tool calls and without tool-call id. -/
theorem AddFullMessage_appends (sm : SessionManager) (now : Int) (key : String) (m : Message) :
    GetHistory (AddFullMessage sm now key m) key = GetHistory sm key ++ [m] ∧
    (∃ s, (AddFullMessage sm now key m).sessions key = some s ∧ s.Key =
      (match sm.sessions key with | some s0 => s0.Key | none => key)) ∧
    (sm.sessions key = none → GetHistory sm key = []) ∧
    (∀ k, k ≠ key →
      (AddFullMessage sm now key m).sessions k = sm.sessions k ∧
      GetHistory (AddFullMessage sm now key m) k = GetHistory sm k ∧
      GetSummary (AddFullMessage sm now key m) k = GetSummary sm k) ∧
    (∀ role content, AddMessage sm now key role content =
      AddFullMessage sm now key
        { Role := role, Content := content, ToolCalls := [], ToolCallID := "" }) := by
  refine ⟨?_, ?_, ?_, ?_, ?_⟩
  · cases h : sm.sessions key <;> simp [GetHistory, AddFullMessage, SessionManager.put, h]
  · cases h : sm.sessions key <;> simp [AddFullMessage, SessionManager.put, h]
  · intro h; simp [GetHistory, h]
  · intro k hk
    have h1 : (AddFullMessage sm now key m).sessions k = sm.sessions k := by
      simp [AddFullMessage, SessionManager.put, hk]
    exact ⟨h1, by simp [GetHistory, h1], by simp [GetSummary, h1]⟩
  · intro role content; rfl

/-- C8, on the manager of `TestSave_WithColonInKey`: a message added under
another key leaves the first session alone. -/
theorem AddFullMessage_appends_witness :
    (AddFullMessage colonManager 1 "telegram:1" assistantCall).sessions "telegram:123456"
        = colonManager.sessions "telegram:123456" ∧
      GetHistory (AddFullMessage colonManager 1 "telegram:1" assistantCall) "telegram:123456"
        = GetHistory colonManager "telegram:123456" ∧
      GetSummary (AddFullMessage colonManager 1 "telegram:1" assistantCall) "telegram:123456"
        = GetSummary colonManager "telegram:123456" :=
  (AddFullMessage_appends colonManager 1 "telegram:1" assistantCall).2.2.2.1
    "telegram:123456" (by decide)

/-- `SetHistory` as the code has it: for a key that has a session,
`GetHistory(key)` after `SetHistory(key, msgs)` returns exactly `msgs`; for a
key without a session `SetHistory` changes nothing, no session is created and
`GetHistory(key)` returns the empty list. -/
theorem SetHistory_then_GetHistory (sm : SessionManager) (now : Int) (key : String)
    (msgs : List Message) :
    ((∃ s, sm.sessions key = some s) → GetHistory (SetHistory sm now key msgs) key = msgs) ∧
    (sm.sessions key = none →
      SetHistory sm now key msgs = sm ∧ GetHistory (SetHistory sm now key msgs) key = []) := by
  constructor
  · rintro ⟨s, hs⟩
    simp [GetHistory, SetHistory, SessionManager.put, hs]
  · intro hs
    simp [GetHistory, SetHistory, hs]

/-- C10 fails on the code: on a new manager, as in
`TestAgentLoop_ContextExhaustionRetry`, the key has no session; `SetHistory`
with the six messages of the test stores nothing and creates no session, and
`GetHistory` then returns the empty list, not the six messages. -/
theorem SetHistory_unknown_key_stores_nothing :
    (NewSessionManager recordCodec "sessions" [] 0).1.sessions "test-session-context" = none ∧
    (SetHistory (NewSessionManager recordCodec "sessions" [] 0).1 0 "test-session-context"
      agent.oldHistory).sessions "test-session-context" = none ∧
    GetHistory (SetHistory (NewSessionManager recordCodec "sessions" [] 0).1 0
      "test-session-context" agent.oldHistory) "test-session-context" = [] ∧
    agent.oldHistory.length = 6 := by
  decide

theorem Heap.array_writeAt_ne {α : Type} (h : Heap α) (a b pos : Nat) (vals : List α)
    (hne : b ≠ a) : (h.writeAt b pos vals).array a = h.array a := by
  simp [Heap.array, Heap.writeAt, List.getElem?_set, hne]

theorem Heap.array_append_lt {α : Type} (h : Heap α) (x : List α) (a : Nat)
    (ha : a < h.length) : Heap.array (h ++ [x]) a = h.array a := by
  simp [Heap.array, List.getElem?_append_left ha]

theorem Heap.array_append_length {α : Type} (h : Heap α) (x : List α) :
    Heap.array (h ++ [x]) h.length = x := by
  simp [Heap.array]

theorem Heap.array_writeAt_self {α : Type} (h : Heap α) (a pos : Nat) (vals : List α)
    (ha : a < h.length) :
    (h.writeAt a pos vals).array a
      = (h.array a).take pos ++ vals ++ (h.array a).drop (pos + vals.length) := by
  simp [Heap.array, Heap.writeAt, List.getElem?_set, ha]

theorem Heap.length_writeAt {α : Type} (h : Heap α) (a pos : Nat) (vals : List α) :
    (h.writeAt a pos vals).length = h.length := by
  simp [Heap.writeAt]

/-- An operation on the list itself leaves the first `n` arrays of messages
and the arrays of tool calls allocated in `mem` as they are in `mem`. -/
theorem SliceOp.run_frozen (mem : Memory) (n : Nat) (op : SliceOp) (p : Memory × Slice)
    (hop : op.onList = true)
    (hlen : n ≤ p.1.messages.length) (harr : n ≤ p.2.arr)
    (hsame : ∀ a, a < n → p.1.messages.array a = mem.messages.array a)
    (hclen : mem.toolCalls.length ≤ p.1.toolCalls.length)
    (hcalls : ∀ a, a < mem.toolCalls.length → p.1.toolCalls.array a = mem.toolCalls.array a) :
    n ≤ (op.run p).1.messages.length ∧ n ≤ (op.run p).2.arr ∧
      (∀ a, a < n → (op.run p).1.messages.array a = mem.messages.array a) ∧
      mem.toolCalls.length ≤ (op.run p).1.toolCalls.length ∧
      ∀ a, a < mem.toolCalls.length →
        (op.run p).1.toolCalls.array a = mem.toolCalls.array a := by
  obtain ⟨m1, s⟩ := p
  simp only at hlen harr hsame hclen hcalls
  cases op with
  | assign i m =>
    simp only [SliceOp.run]
    split_ifs
    · refine ⟨by simpa [Heap.length_writeAt] using hlen, harr, fun a ha => ?_, hclen, hcalls⟩
      simp only
      rw [Heap.array_writeAt_ne _ _ _ _ _ (by omega)]
      exact hsame a ha
    · exact ⟨hlen, harr, hsame, hclen, hcalls⟩
  | append m =>
    simp only [SliceOp.run]
    split_ifs
    · refine ⟨by simpa [Heap.length_writeAt] using hlen, harr, fun a ha => ?_, hclen, hcalls⟩
      simp only
      rw [Heap.array_writeAt_ne _ _ _ _ _ (by omega)]
      exact hsame a ha
    · refine ⟨by simp only [List.length_append, List.length_singleton]; omega, hlen,
        fun a ha => ?_, hclen, hcalls⟩
      simp only
      rw [Heap.array_append_lt _ _ _ (by omega)]
      exact hsame a ha
  | reslice lo hi =>
    simp only [SliceOp.run]
    split_ifs
    · exact ⟨hlen, harr, hsame, hclen, hcalls⟩
    · exact ⟨hlen, harr, hsame, hclen, hcalls⟩
  | newToolCalls tcs =>
    simp only [SliceOp.run]
    refine ⟨hlen, harr, hsame, by simp only [List.length_append, List.length_singleton]; omega,
      fun a ha => ?_⟩
    rw [Heap.array_append_lt _ _ _ (by omega)]
    exact hcalls a ha
  | setToolCall i j tc => simp [SliceOp.onList] at hop

theorem runOps_frozen (mem : Memory) (n : Nat) (ops : List SliceOp)
    (hops : ∀ op ∈ ops, op.onList = true) :
    ∀ p : Memory × Slice, n ≤ p.1.messages.length → n ≤ p.2.arr →
      (∀ a, a < n → p.1.messages.array a = mem.messages.array a) →
      mem.toolCalls.length ≤ p.1.toolCalls.length →
      (∀ a, a < mem.toolCalls.length → p.1.toolCalls.array a = mem.toolCalls.array a) →
      n ≤ (runOps ops p).1.messages.length ∧
      (∀ a, a < n → (runOps ops p).1.messages.array a = mem.messages.array a) ∧
      mem.toolCalls.length ≤ (runOps ops p).1.toolCalls.length ∧
      ∀ a, a < mem.toolCalls.length →
        (runOps ops p).1.toolCalls.array a = mem.toolCalls.array a := by
  induction ops with
  | nil => intro p hlen _ hsame hclen hcalls; exact ⟨hlen, hsame, hclen, hcalls⟩
  | cons op ops ih =>
    intro p hlen harr hsame hclen hcalls
    obtain ⟨h1, h2, h3, h4, h5⟩ :=
      SliceOp.run_frozen mem n op p (hops op (by simp)) hlen harr hsame hclen hcalls
    exact ih (fun o ho => hops o (by simp [ho])) (op.run p) h1 h2 h3 h4 h5

theorem Memory.read_congr (st : Store) (mem mem1 : Memory) (hwf : st.WellFormed mem)
    (hsame : ∀ a, a < mem.messages.length → mem1.messages.array a = mem.messages.array a)
    (hcalls : ∀ a, a < mem.toolCalls.length → mem1.toolCalls.array a = mem.toolCalls.array a)
    (k : String) (s : StoredSession) (hs : st.sessions k = some s) :
    mem1.read s.Messages = mem.read s.Messages := by
  obtain ⟨h1, _, h3⟩ := hwf k s hs
  have hcells : mem1.messages.read s.Messages = mem.messages.read s.Messages := by
    simp [Heap.read, hsame _ h1]
  unfold Memory.read
  rw [hcells]
  apply List.map_congr_left
  intro c hc
  unfold Memory.message
  congr 1
  rcases h3 c hc with h0 | hlt
  · simp [Heap.read, h0]
  · simp [Heap.read, hcalls _ hlt]

theorem Store.value_congr (st : Store) (mem mem1 : Memory) (hwf : st.WellFormed mem)
    (hsame : ∀ a, a < mem.messages.length → mem1.messages.array a = mem.messages.array a)
    (hcalls : ∀ a, a < mem.toolCalls.length → mem1.toolCalls.array a = mem.toolCalls.array a) :
    st.value mem1 = st.value mem := by
  unfold Store.value
  congr 1
  funext k
  cases hs : st.sessions k with
  | none => rfl
  | some s =>
    simp only
    rw [Memory.read_congr st mem mem1 hwf hsame hcalls k s hs]

theorem GetHistorySlice_frozen (mem : Memory) (st : Store) (key : String) :
    mem.messages.length ≤ (GetHistorySlice mem st key).1.messages.length ∧
    mem.messages.length ≤ (GetHistorySlice mem st key).2.arr ∧
    (∀ a, a < mem.messages.length →
      (GetHistorySlice mem st key).1.messages.array a = mem.messages.array a) ∧
    (GetHistorySlice mem st key).1.toolCalls = mem.toolCalls := by
  unfold GetHistorySlice
  cases hs : st.sessions key with
  | none =>
    simp only [makeSlice]
    exact ⟨by simp, le_refl _, fun a ha => Heap.array_append_lt _ _ _ ha, trivial⟩
  | some s =>
    simp only [makeSlice, copySlice]
    refine ⟨by simp [Heap.length_writeAt], le_refl _, fun a ha => ?_, trivial⟩
    rw [Heap.array_writeAt_ne _ _ _ _ _ (by omega)]
    exact Heap.array_append_lt _ _ _ ha

theorem Heap.read_fresh_copy {α : Type} (h : Heap α) (zero : α) (vals : List α) (n : Nat)
    (hn : vals.length = n) :
    Heap.read ((h ++ [List.replicate n zero]).writeAt h.length 0 vals)
      { arr := h.length, off := 0, len := n, cap := n } = vals := by
  subst hn
  unfold Heap.read
  simp only []
  rw [Heap.array_writeAt_self _ _ _ _ (by simp), Heap.array_append_length]
  simp

theorem GetHistory_value (mem : Memory) (st : Store) (key : String) :
    GetHistory (st.value mem) key =
      match st.sessions key with
      | none => []
      | some s => mem.read s.Messages := by
  unfold GetHistory Store.value
  cases hs : st.sessions key <;> simp [hs]

/-- The elements of the slice `GetHistory` returns are the stored elements as
they lie in memory, with the headers of their tool-call slices. -/
theorem GetHistorySlice_cells (mem : Memory) (st : Store) (key : String)
    (hwf : st.WellFormed mem) :
    (GetHistorySlice mem st key).1.messages.read (GetHistorySlice mem st key).2
      = match st.sessions key with
        | none => []
        | some s => mem.messages.read s.Messages := by
  unfold GetHistorySlice
  cases hs : st.sessions key with
  | none => simp [makeSlice, Heap.read]
  | some s =>
    obtain ⟨h1, h2, _⟩ := hwf key s hs
    have hsrc : Heap.read (mem.messages ++ [List.replicate s.Messages.len zeroCell]) s.Messages
        = mem.messages.read s.Messages := by
      simp [Heap.read, Heap.array_append_lt _ _ _ h1]
    have hlen : (mem.messages.read s.Messages).length = s.Messages.len := by
      simp only [Heap.read, List.length_take, List.length_drop]
      omega
    simp only [makeSlice, copySlice, hsrc]
    rw [List.take_of_length_le (le_of_eq hlen)]
    exact Heap.read_fresh_copy mem.messages zeroCell _ _ hlen

theorem GetHistorySlice_read (mem : Memory) (st : Store) (key : String)
    (hwf : st.WellFormed mem) :
    (GetHistorySlice mem st key).1.read (GetHistorySlice mem st key).2
      = GetHistory (st.value mem) key := by
  rw [GetHistory_value]
  unfold Memory.read
  rw [GetHistorySlice_cells mem st key hwf]
  have hcalls := (GetHistorySlice_frozen mem st key).2.2.2
  cases hs : st.sessions key with
  | none => simp
  | some s =>
    simp only
    apply List.map_congr_left
    intro c _
    unfold Memory.message
    rw [hcalls]

theorem Store.WellFormed.mono (st : Store) (mem mem1 : Memory) (hwf : st.WellFormed mem)
    (hlen : mem.messages.length ≤ mem1.messages.length)
    (hsame : ∀ a, a < mem.messages.length → mem1.messages.array a = mem.messages.array a)
    (hclen : mem.toolCalls.length ≤ mem1.toolCalls.length) :
    st.WellFormed mem1 := by
  intro k s hs
  obtain ⟨h2, h3, h4⟩ := hwf k s hs
  have hcells : mem1.messages.read s.Messages = mem.messages.read s.Messages := by
    simp [Heap.read, hsame _ h2]
  refine ⟨by omega, by rw [hsame _ h2]; exact h3, ?_⟩
  intro c hc
  rw [hcells] at hc
  rcases h4 c hc with h0 | hlt
  · exact Or.inl h0
  · exact Or.inr (by omega)

/-- The model tells a shared array from a copy: an assignment through the
stored slice itself does change the stored session. -/
theorem assign_through_stored_slice :
    GetHistory (sampleStore.value sampleMemory) "telegram:123456" = [userHello] ∧
    GetHistory (sampleStore.value
      (runOps [SliceOp.assign 0 { Role := "assistant", Content := "changed",
                                  ToolCalls := { arr := 0, off := 0, len := 0, cap := 0 },
                                  ToolCallID := "" }]
        (sampleMemory, { arr := 0, off := 0, len := 1, cap := 2 })).1) "telegram:123456"
      = [{ Role := "assistant", Content := "changed", ToolCalls := [], ToolCallID := "" }] := by
  decide

theorem setToolCall_written (mem : Memory) (st : Store) (key : String) (hwf : st.WellFormed mem)
    (s : StoredSession) (i j : Nat) (c : MessageCell) (tc : ToolCall)
    (hs : st.sessions key = some s) (hc : (mem.messages.read s.Messages)[i]? = some c)
    (hj : j < c.ToolCalls.len) (harr : c.ToolCalls.arr < mem.toolCalls.length)
    (hbound : c.ToolCalls.off + c.ToolCalls.len ≤ (mem.toolCalls.array c.ToolCalls.arr).length) :
    ((GetHistory (st.value (runOps [SliceOp.setToolCall i j tc]
        (GetHistorySlice mem st key)).1) key)[i]?).bind (fun m => m.ToolCalls[j]?)
      = some tc := by
  obtain ⟨g1, g2, g3, g4⟩ := GetHistorySlice_frozen mem st key
  have hcells := GetHistorySlice_cells mem st key hwf
  rw [hs] at hcells
  simp only at hcells
  obtain ⟨w1, w2, _⟩ := hwf key s hs
  have hstored : (GetHistorySlice mem st key).1.messages.read s.Messages
      = mem.messages.read s.Messages := by
    simp [Heap.read, g3 _ w1]
  rw [GetHistory_value, hs]
  simp only [runOps, List.foldl_cons, List.foldl_nil, SliceOp.run, hcells, hc, hj, if_true,
    Memory.read, hstored, g4]
  rw [List.getElem?_map, hc]
  simp only [Option.map_some', Option.some_bind, Memory.message, Heap.read]
  rw [Heap.array_writeAt_self _ _ _ _ harr]
  rw [List.getElem?_take_of_lt hj, List.getElem?_drop]
  have hlen : (List.take (c.ToolCalls.off + j) (mem.toolCalls.array c.ToolCalls.arr)).length
      = c.ToolCalls.off + j := by
    rw [List.length_take]; omega
  rw [List.append_assoc, List.getElem?_append_right (by rw [hlen])]
  simp [hlen]

/-- C9 as stated fails: `GetHistory` copies the messages with `copy`, and the
copy of a message has the `ToolCalls` slice of the stored message, over the
same array. After `h := GetHistory("telegram:1")` the statement
`h[0].ToolCalls[0].ID = "mutated"` changes the stored session: a later
`GetHistory("telegram:1")` returns the tool call with the new id. -/
theorem GetHistory_shares_toolCalls :
    GetHistory (callStore.value callMemory) "telegram:1" = [assistantCall] ∧
    (GetHistorySlice callMemory callStore "telegram:1").1.read
      (GetHistorySlice callMemory callStore "telegram:1").2 = [assistantCall] ∧
    GetHistory (callStore.value
      (runOps [SliceOp.setToolCall 0 0
          { ID := "mutated", Typ := "function", Name := "web_search", Function := none }]
        (GetHistorySlice callMemory callStore "telegram:1")).1) "telegram:1"
      = [{ Role := "assistant", Content := "",
           ToolCalls := [{ ID := "mutated", Typ := "function", Name := "web_search",
                           Function := none }],
           ToolCallID := "" }] ∧
    GetHistory (callStore.value
      (runOps [SliceOp.setToolCall 0 0
          { ID := "mutated", Typ := "function", Name := "web_search", Function := none }]
        (GetHistorySlice callMemory callStore "telegram:1")).1) "telegram:1"
      ≠ GetHistory (callStore.value callMemory) "telegram:1" := by
  decide

/-- C9, amended: `GetHistory(key)` returns the messages of the session in
their order, the empty list for an unknown key, and leaves the table of
sessions as it was (no session is created). The slice returned has a backing
array of its own, so whatever the caller then does to the list (assign an
element, append, reslice, with messages over tool-call arrays old or new) the
stored sessions are as before and a later `GetHistory(key)` returns the same
messages. The copy is shallow: the elements returned are the stored elements
with the headers of their tool-call slices, and a write to tool call `j` of
element `i` through the returned slice is a write to the stored message. -/
theorem GetHistory_isolated (mem : Memory) (st : Store) (key : String) (ops : List SliceOp)
    (hwf : st.WellFormed mem) (hops : ∀ op ∈ ops, op.onList = true) :
    (GetHistorySlice mem st key).1.read (GetHistorySlice mem st key).2
      = GetHistory (st.value mem) key ∧
    (st.sessions key = none → GetHistory (st.value mem) key = []) ∧
    (∀ s, (st.value mem).sessions key = some s → GetHistory (st.value mem) key = s.Messages) ∧
    st.value (GetHistorySlice mem st key).1 = st.value mem ∧
    st.value (runOps ops (GetHistorySlice mem st key)).1 = st.value mem ∧
    (GetHistorySlice (runOps ops (GetHistorySlice mem st key)).1 st key).1.read
        (GetHistorySlice (runOps ops (GetHistorySlice mem st key)).1 st key).2
      = GetHistory (st.value mem) key ∧
    (GetHistorySlice mem st key).1.messages.read (GetHistorySlice mem st key).2
      = (match st.sessions key with
         | none => []
         | some s => mem.messages.read s.Messages) ∧
    (∀ (s : StoredSession) (i j : Nat) (c : MessageCell) (tc : ToolCall),
      st.sessions key = some s → (mem.messages.read s.Messages)[i]? = some c →
      j < c.ToolCalls.len → c.ToolCalls.arr < mem.toolCalls.length →
      c.ToolCalls.off + c.ToolCalls.len ≤ (mem.toolCalls.array c.ToolCalls.arr).length →
      ((GetHistory (st.value (runOps [SliceOp.setToolCall i j tc]
          (GetHistorySlice mem st key)).1) key)[i]?).bind (fun m => m.ToolCalls[j]?)
        = some tc) := by
  obtain ⟨g1, g2, g3, g4⟩ := GetHistorySlice_frozen mem st key
  obtain ⟨r1, r2, r3, r4⟩ := runOps_frozen mem mem.messages.length ops hops
    (GetHistorySlice mem st key) g1 g2 g3 (by rw [g4]) (fun a _ => by rw [g4])
  have hval := Store.value_congr st mem _ hwf r2 r4
  refine ⟨GetHistorySlice_read mem st key hwf, ?_, ?_,
    Store.value_congr st mem _ hwf g3 (fun a _ => by rw [g4]), hval, ?_,
    GetHistorySlice_cells mem st key hwf,
    fun s i j c tc hs hc hj harr hb =>
      setToolCall_written mem st key hwf s i j c tc hs hc hj harr hb⟩
  · intro hs
    rw [GetHistory_value, hs]
  · intro s hs
    simp [GetHistory, hs]
  · rw [GetHistorySlice_read _ st key (Store.WellFormed.mono st mem _ hwf r1 r2 r3), hval]

/-- C9, on the store of `colonManager`: the caller overwrites the message it
got with a message that has a tool call of its own, appends one and reslices;
the stored session is as before. -/
theorem GetHistory_isolated_witness :
    sampleStore.value (runOps
        [SliceOp.newToolCalls assistantCall.ToolCalls,
         SliceOp.assign 0 { Role := "assistant", Content := "",
                            ToolCalls := { arr := 0, off := 0, len := 1, cap := 1 },
                            ToolCallID := "" },
         SliceOp.append zeroCell, SliceOp.reslice 1 2]
        (GetHistorySlice sampleMemory sampleStore "telegram:123456")).1
      = sampleStore.value sampleMemory :=
  (GetHistory_isolated sampleMemory sampleStore "telegram:123456"
    [SliceOp.newToolCalls assistantCall.ToolCalls,
     SliceOp.assign 0 { Role := "assistant", Content := "",
                        ToolCalls := { arr := 0, off := 0, len := 1, cap := 1 },
                        ToolCallID := "" },
     SliceOp.append zeroCell, SliceOp.reslice 1 2]
    (by
      intro k s hs
      unfold sampleStore at hs
      simp only at hs
      split_ifs at hs
      cases hs
      show 0 < sampleMemory.messages.length ∧
        0 + 1 ≤ (sampleMemory.messages.array 0).length ∧
        ∀ c ∈ sampleMemory.messages.read { arr := 0, off := 0, len := 1, cap := 2 },
          c.ToolCalls.len = 0 ∨ c.ToolCalls.arr < sampleMemory.toolCalls.length
      decide)
    (by decide)).2.2.2.2.1

/-- C11, amended: `TruncateHistory(key, keepLast)` with `keepLast <= 0` on a
key that has a session empties the history of the session and keeps the
session in the table, with its key and its summary: `GetSummary(key)` returns
the summary the session had, and every other entry is as before. -/
theorem TruncateHistory_zero_keeps_session (sm : SessionManager) (now : Int) (key : String)
    (keepLast : Int) (s : Session) (hs : sm.sessions key = some s) (hk : keepLast ≤ 0) :
    (TruncateHistory sm now key keepLast).sessions key
      = some { s with Messages := [], Updated := now } ∧
    GetHistory (TruncateHistory sm now key keepLast) key = [] ∧
    GetSummary (TruncateHistory sm now key keepLast) key = s.Summary ∧
    ∀ k, k ≠ key → (TruncateHistory sm now key keepLast).sessions k = sm.sessions k := by
  have h1 : (TruncateHistory sm now key keepLast).sessions key
      = some { s with Messages := [], Updated := now } := by
    simp [TruncateHistory, hs, hk, SessionManager.put]
  refine ⟨h1, by simp [GetHistory, h1], by simp [GetSummary, h1], ?_⟩
  intro k hne
  simp [TruncateHistory, hs, hk, SessionManager.put, hne]

/-- C11, on `summaryManager`, truncated with `keepLast = 0`. -/
theorem TruncateHistory_zero_keeps_session_witness :
    GetSummary (TruncateHistory summaryManager 1 "telegram:123456" 0) "telegram:123456"
      = "earlier talk" :=
  (TruncateHistory_zero_keeps_session summaryManager 1 "telegram:123456" 0
    { Key := "telegram:123456", Messages := [userHello], Summary := "earlier talk",
      Created := 0, Updated := 0 } (by decide) (by decide)).2.2.1

/-- C11 as stated fails: after a truncation to zero length the table still
has the entry of the key, and `GetSummary` still returns its summary. -/
theorem TruncateHistory_zero_counterexample :
    summaryManager.sessions "telegram:123456" ≠ none ∧
    (TruncateHistory summaryManager 1 "telegram:123456" 0).sessions "telegram:123456" ≠ none ∧
    GetHistory (TruncateHistory summaryManager 1 "telegram:123456" 0) "telegram:123456" = [] ∧
    GetSummary (TruncateHistory summaryManager 1 "telegram:123456" 0) "telegram:123456" ≠ "" := by
  decide

theorem since_gt_iff (ttl now t : Int) (h1 : ttl < maxDuration) (h0 : 0 < ttl) :
    ttl < since now t ↔ ttl < now - t := by
  have hmin : minDuration = -9223372036854775808 := by norm_num [minDuration]
  have hmax : maxDuration = 9223372036854775807 := by norm_num [maxDuration]
  unfold since
  rw [hmax] at h1
  rw [hmin, hmax]
  split_ifs <;> constructor <;> intro h <;> omega

/-- C12: with `ttl > 0` the sweep `evictExpired` removes from the table the
sessions for which `time.Since(Updated) > ttl`, which for every `ttl` below
the largest duration are exactly those whose `Updated` lies more than `ttl`
before the current time, and leaves every other session, the storage root
and the TTL as they were; with `ttl <= 0` the sweep changes nothing. -/
theorem evictExpired_exact (sm : SessionManager) (now : Int) :
    (0 < sm.ttl → ∀ k, (evictExpired sm now).sessions k =
      match sm.sessions k with
      | none => none
      | some s => if sm.ttl < since now s.Updated then none else some s) ∧
    (0 < sm.ttl → sm.ttl < maxDuration → ∀ k, (evictExpired sm now).sessions k =
      match sm.sessions k with
      | none => none
      | some s => if sm.ttl < now - s.Updated then none else some s) ∧
    (sm.ttl ≤ 0 → evictExpired sm now = sm) ∧
    (evictExpired sm now).storage = sm.storage ∧ (evictExpired sm now).ttl = sm.ttl := by
  have hgen : 0 < sm.ttl → ∀ k, (evictExpired sm now).sessions k =
      match sm.sessions k with
      | none => none
      | some s => if sm.ttl < since now s.Updated then none else some s := by
    intro h k
    simp only [evictExpired, not_le.mpr h, if_false, expired]
    cases sm.sessions k <;> simp
  refine ⟨hgen, ?_, ?_, ?_, ?_⟩
  · intro h0 h1 k
    rw [hgen h0 k]
    cases sm.sessions k with
    | none => rfl
    | some s => simp only [since_gt_iff sm.ttl now s.Updated h1 h0]
  · intro h; simp [evictExpired, h]
  · unfold evictExpired; split_ifs <;> rfl
  · unfold evictExpired; split_ifs <;> rfl

/-- C12, on `colonManager`: a sweep one nanosecond after the TTL removes the
session, a sweep at the TTL keeps it. -/
theorem evictExpired_exact_witness :
    (evictExpired colonManager (defaultTTL + 1)).sessions "telegram:123456" = none ∧
    (evictExpired colonManager defaultTTL).sessions "telegram:123456"
      = colonManager.sessions "telegram:123456" :=
  ⟨by
    rw [(evictExpired_exact colonManager (defaultTTL + 1)).2.1 (by decide) (by decide)]
    decide,
   by
    rw [(evictExpired_exact colonManager defaultTTL).2.1 (by decide) (by decide)]
    decide⟩

theorem sanitizeFilename_data (key : String) :
    (sanitizeFilename key).data = key.data.map (fun c => if c = ':' then '_' else c) := rfl

theorem sanitizeFilename_fixed (key : String) (h : ':' ∉ key.data) :
    sanitizeFilename key = key := by
  have hmap : key.data.map (fun c => if c = ':' then '_' else c) = key.data := by
    conv_rhs => rw [← List.map_id key.data]
    apply List.map_congr_left
    intro c hc
    have : c ≠ ':' := fun e => h (e ▸ hc)
    simp [this]
  cases key with
  | mk data => simp only [sanitizeFilename] at hmap ⊢; rw [hmap]

theorem map_colon_injective (l1 l2 : List Char) (h1 : '_' ∉ l1) (h2 : '_' ∉ l2)
    (h : l1.map (fun c => if c = ':' then '_' else c) = l2.map (fun c => if c = ':' then '_' else c)) :
    l1 = l2 := by
  induction l1 generalizing l2 with
  | nil => cases l2 with
    | nil => rfl
    | cons b l2 => simp at h
  | cons a l1 ih =>
    cases l2 with
    | nil => simp at h
    | cons b l2 =>
      simp only [List.map_cons, List.cons.injEq] at h
      simp only [List.mem_cons, not_or] at h1 h2
      obtain ⟨hab, hrest⟩ := h
      have hl : l1 = l2 := ih l2 h1.2 h2.2 hrest
      have ha : a = b := by
        by_cases ha : a = ':' <;> by_cases hb : b = ':'
        · rw [ha, hb]
        · simp only [ha, hb, if_true, if_false] at hab; exact absurd hab h2.1
        · simp only [ha, hb, if_true, if_false] at hab; exact absurd hab.symm h1.1
        · simpa [ha, hb] using hab
      rw [ha, hl]

theorem append_json_inj (a b : String) : a ++ ".json" = b ++ ".json" ↔ a = b := by
  constructor
  · intro h
    have h1 : (a ++ ".json").data = (b ++ ".json").data := by rw [h]
    have h2 : a.data ++ ".json".data = b.data ++ ".json".data := h1
    have h3 := List.append_cancel_right h2
    cases a; cases b; simp_all
  · intro h; rw [h]

theorem lookup_remove_ne {D : Type} (d : Dir D) (n1 n2 : String) (hne : n1 ≠ n2) :
    List.lookup n1 (d.remove n2) = List.lookup n1 d := by
  induction d with
  | nil => rfl
  | cons e d ih =>
    obtain ⟨n, x⟩ := e
    unfold Dir.remove at ih ⊢
    by_cases hn : n = n2
    · subst hn
      have hb : (n1 == n) = false := by simpa using hne
      rw [List.filter_cons_of_neg (by simp)]
      simp only [List.lookup, hb]
      exact ih
    · rw [List.filter_cons_of_pos (by simpa using hn)]
      simp only [List.lookup]
      rw [ih]

theorem lookup_write_ne {D : Type} (d : Dir D) (n1 n2 : String) (data : D) (hne : n1 ≠ n2) :
    List.lookup n1 (d.write n2 data) = List.lookup n1 d := by
  have hbeq : (n1 == n2) = false := by simpa using hne
  simp only [Dir.write, List.lookup, hbeq]
  exact lookup_remove_ne d n1 n2 hne

/-- C17, amended: the file `Save` writes for a key is named
`sanitizeFilename(key) + ".json"`, and a `Save` of a key with another file
name leaves the file of the first key as it was. Two keys have the same file
name exactly when they are equal once every `:` is replaced by `_`; so two
distinct keys without `_`, or two distinct keys without `:`, have different
files, whereas keys that differ only by `:` against `_` share one file. -/
theorem Save_file_names {D : Type} (codec : Codec D) (sm : SessionManager) (d : Dir D)
    (k1 k2 : String) :
    (sanitizeFilename k1 ++ ".json" = sanitizeFilename k2 ++ ".json" ↔
      k1.data.map (fun c => if c = ':' then '_' else c)
        = k2.data.map (fun c => if c = ':' then '_' else c)) ∧
    ('_' ∉ k1.data → '_' ∉ k2.data → k1 ≠ k2 →
      sanitizeFilename k1 ++ ".json" ≠ sanitizeFilename k2 ++ ".json") ∧
    (':' ∉ k1.data → ':' ∉ k2.data → k1 ≠ k2 →
      sanitizeFilename k1 ++ ".json" ≠ sanitizeFilename k2 ++ ".json") ∧
    (sanitizeFilename k1 ++ ".json" ≠ sanitizeFilename k2 ++ ".json" →
      List.lookup (sanitizeFilename k1 ++ ".json") (Save codec sm d k2).2
        = List.lookup (sanitizeFilename k1 ++ ".json") d) ∧
    (∀ s, sm.storage ≠ "" → sm.sessions k2 = some s → (Save codec sm d k2).1 = none →
      ∃ data, (Save codec sm d k2).2 = d.write (sanitizeFilename k2 ++ ".json") data) := by
  have hiff : sanitizeFilename k1 ++ ".json" = sanitizeFilename k2 ++ ".json" ↔
      k1.data.map (fun c => if c = ':' then '_' else c)
        = k2.data.map (fun c => if c = ':' then '_' else c) := by
    rw [append_json_inj]
    constructor
    · intro h; rw [← sanitizeFilename_data, ← sanitizeFilename_data, h]
    · intro h; simp only [sanitizeFilename, h]
  refine ⟨hiff, ?_, ?_, ?_, ?_⟩
  · intro h1 h2 hne heq
    apply hne
    have := map_colon_injective _ _ h1 h2 (hiff.1 heq)
    cases k1; cases k2; simp_all
  · intro h1 h2 hne heq
    rw [append_json_inj, sanitizeFilename_fixed k1 h1, sanitizeFilename_fixed k2 h2] at heq
    exact hne heq
  · intro hne
    unfold Save
    by_cases hst : sm.storage = ""
    · simp [hst]
    · simp only [hst, if_false]
      by_cases hr : refused (sanitizeFilename k2) = true
      · simp [hr]
      · simp only [hr]
        cases sm.sessions k2 with
        | none => rfl
        | some stored =>
          simp only []
          cases codec.marshal _ with
          | none => rfl
          | some data =>
            simp only []
            cases hl : List.lookup (sanitizeFilename k2 ++ ".json") d with
            | none => exact lookup_write_ne d _ _ data hne
            | some node =>
              cases node with
              | dir => rfl
              | file x => exact lookup_write_ne d _ _ data hne
  · intro s hst hs hsave
    obtain ⟨data, _, h⟩ := Save_accepted codec sm d k2 s hst hs hsave
    exact ⟨data, h⟩

/-- C17, on the keys of `TestSanitizeFilename`: two keys without `_` have
different files. -/
theorem Save_file_names_witness :
    sanitizeFilename "telegram:123456" ++ ".json" ≠ sanitizeFilename "discord:987654321" ++ ".json" :=
  (Save_file_names recordCodec colonManager [] "telegram:123456" "discord:987654321").2.1
    (by decide) (by decide) (by decide)

/-- C17 as stated fails: `Save` accepts both `a:b` and `a_b`, writes both to
the file `a_b.json`, and after the second `Save` a fresh manager finds the
session of `a_b` only. -/
theorem Save_file_names_counterexample :
    (Save recordCodec twinManager [] "a:b").1 = none ∧
    (Save recordCodec twinManager (Save recordCodec twinManager [] "a:b").2 "a_b").1 = none ∧
    sanitizeFilename "a:b" ++ ".json" = "a_b.json" ∧
    sanitizeFilename "a_b" ++ ".json" = "a_b.json" ∧
    GetHistory twinManager "a:b"
      = [{ Role := "user", Content := "first", ToolCalls := [], ToolCallID := "" }] ∧
    (ReadDir (Save recordCodec twinManager
      (Save recordCodec twinManager [] "a:b").2 "a_b").2).map (fun e => e.1) = ["a_b.json"] ∧
    GetHistory (NewSessionManager recordCodec "sessions"
      (Save recordCodec twinManager (Save recordCodec twinManager [] "a:b").2 "a_b").2 0).1
        "a:b" = [] := by
  decide

/-- C18: `sanitizeFilename(key)` is as long as `key`, has `_` at every
position where `key` has `:` and the character of `key` at every other
position; it contains no `:`, and a key without `:` is returned as it is. -/
theorem sanitizeFilename_positions (key : String) :
    (sanitizeFilename key).length = key.length ∧
    (∀ (i : Nat) (c : Char), key.data[i]? = some c →
      (sanitizeFilename key).data[i]? = some (if c = ':' then '_' else c)) ∧
    ':' ∉ (sanitizeFilename key).data ∧
    (':' ∉ key.data → sanitizeFilename key = key) := by
  refine ⟨?_, ?_, ?_, sanitizeFilename_fixed key⟩
  · cases key with
    | mk data =>
      show (data.map (fun c => if c = ':' then '_' else c)).length = data.length
      exact List.length_map _ _
  · intro i c hc
    simp [sanitizeFilename, List.getElem?_map, hc]
  · simp only [sanitizeFilename, List.mem_map, not_exists, not_and]
    intro c _ h
    by_cases hc : c = ':'
    · simp [hc] at h
    · simp [hc] at h

/-- C18, on the keys of `TestSanitizeFilename`. -/
theorem sanitizeFilename_positions_witness :
    sanitizeFilename "no-colons-here" = "no-colons-here" ∧
    (sanitizeFilename "telegram:123456").data[8]? = some '_' :=
  ⟨(sanitizeFilename_positions "no-colons-here").2.2.2 (by decide),
   (sanitizeFilename_positions "telegram:123456").2.1 8 ':' (by decide)⟩

/-- C19 fails on the code: the last tool-call group requests the tools `1`
and `2` and only the result of `1` was recorded; the list ends with a tool
message, so `sanitizeMessages` returns it as it is, and the last assistant
message keeps the call `2`, for which no tool message exists. -/
theorem sanitizeMessages_keeps_partial_group :
    sanitizeMessages [userHello, assistantTwoCalls, toolResultOne]
      = [userHello, assistantTwoCalls, toolResultOne] ∧
    (∃ tc ∈ assistantTwoCalls.ToolCalls, tc.ID = "2") ∧
    ¬ ∃ m ∈ sanitizeMessages [userHello, assistantTwoCalls, toolResultOne],
        m.Role = "tool" ∧ m.ToolCallID = "2" := by
  decide

theorem sanitizeLoop_eq_dropWhile (rev : List Message) :
    sanitizeLoop rev = rev.dropWhile orphanTail := by
  induction rev with
  | nil => rfl
  | cons last rest ih =>
    unfold sanitizeLoop
    by_cases h1 : last.Role = "tool"
    · have h2 : orphanTail last = false := by simp [orphanTail, h1]
      simp [h1, List.dropWhile_cons, h2]
    · by_cases h2 : orphanTail last = true
      · simp [h1, h2, List.dropWhile_cons, ih]
      · simp [h1, h2, List.dropWhile_cons]

theorem sanitizeLoop_split (rev : List Message) :
    ∃ dropped, rev = dropped ++ sanitizeLoop rev ∧ ∀ m ∈ dropped, orphanTail m = true := by
  rw [sanitizeLoop_eq_dropWhile]
  refine ⟨rev.takeWhile orphanTail, (List.takeWhile_append_dropWhile _ _).symm, ?_⟩
  intro m hm
  exact List.mem_takeWhile_imp hm

/-- C26: `sanitizeMessages(msgs)` is `msgs` without its longest trailing run
of assistant messages that carry tool calls: `msgs` is the result followed by
messages that are all such assistant messages, and the result is empty or
has a last message that is not one; the kept messages are a prefix of
`msgs`, in their order. It returns `msgs` as it is when `msgs` is empty or
its last message is a tool message, a user message or an assistant message
without tool calls, and applying it twice is applying it once. -/
theorem sanitizeMessages_strips_tail (msgs : List Message) :
    sanitizeMessages msgs = msgs.rdropWhile orphanTail ∧
    (∃ dropped, msgs = sanitizeMessages msgs ++ dropped ∧
      (∀ m ∈ dropped, m.Role = "assistant" ∧ 0 < m.ToolCalls.length) ∧
      ∀ m ∈ (sanitizeMessages msgs).getLast?,
        ¬ (m.Role = "assistant" ∧ 0 < m.ToolCalls.length)) ∧
    (msgs = [] → sanitizeMessages msgs = []) ∧
    (∀ m ∈ msgs.getLast?,
      (m.Role = "tool" ∨ m.Role = "user" ∨ (m.Role = "assistant" ∧ m.ToolCalls.length = 0)) →
        sanitizeMessages msgs = msgs) ∧
    sanitizeMessages (sanitizeMessages msgs) = sanitizeMessages msgs := by
  refine ⟨?_, ?_, ?_, ?_, ?_⟩
  · simp [sanitizeMessages, sanitizeLoop_eq_dropWhile, List.rdropWhile]
  · obtain ⟨dropped, h1, h2⟩ := sanitizeLoop_split msgs.reverse
    refine ⟨dropped.reverse, ?_, ?_, ?_⟩
    · have := congrArg List.reverse h1
      simpa [sanitizeMessages] using this
    · intro m hm
      have := h2 m (List.mem_reverse.mp hm)
      simpa [orphanTail] using this
    · intro m hm
      exact (orphanTail_eq_false m).1 (sanitizeMessages_getLast msgs m hm)
  · intro h; subst h; rfl
  · intro m hm hrole
    apply sanitizeMessages_fixed
    intro m1 hm1
    have : m1 = m := by
      simp only [Option.mem_def] at hm hm1
      rw [hm] at hm1
      exact (Option.some.inj hm1).symm
    subst this
    rw [orphanTail_eq_false]
    rcases hrole with h | h | ⟨_, h⟩
    · intro hc; rw [h] at hc; exact absurd hc.1 (by decide)
    · intro hc; rw [h] at hc; exact absurd hc.1 (by decide)
    · intro hc; omega
  · exact sanitizeMessages_fixed _ (sanitizeMessages_getLast msgs)

/-- C26, on the case `Multiple orphaned tool calls at tail` of
`TestSanitizeMessages` and on a history that a tool result closes. -/
theorem sanitizeMessages_strips_tail_witness :
    sanitizeMessages [userHello, assistantCall, toolResultOne]
      = [userHello, assistantCall, toolResultOne] :=
  (sanitizeMessages_strips_tail [userHello, assistantCall, toolResultOne]).2.2.2.1
    toolResultOne (by decide) (Or.inl (by decide))

/-- C27: for a key that has a session of `n` messages, `TruncateHistory(key,
keepLast)` with `keepLast > 0` leaves the last `min(n, keepLast)` messages in
their order (the history as it was when `n <= keepLast`), and with
`keepLast <= 0` leaves the empty history; the summary of the session and
every other session are as before; for an unknown key the manager is as
before, and no session is created. -/
theorem TruncateHistory_keeps_last (sm : SessionManager) (now : Int) (key : String)
    (keepLast : Int) :
    (∀ s, sm.sessions key = some s → 0 < keepLast →
      GetHistory (TruncateHistory sm now key keepLast) key
        = s.Messages.drop (s.Messages.length - min s.Messages.length keepLast.toNat) ∧
      (GetHistory (TruncateHistory sm now key keepLast) key).length
        = min s.Messages.length keepLast.toNat ∧
      ((s.Messages.length : Int) ≤ keepLast →
        GetHistory (TruncateHistory sm now key keepLast) key = s.Messages)) ∧
    (∀ s, sm.sessions key = some s → keepLast ≤ 0 →
      GetHistory (TruncateHistory sm now key keepLast) key = []) ∧
    (∀ s, sm.sessions key = some s →
      GetSummary (TruncateHistory sm now key keepLast) key = s.Summary) ∧
    (∀ k, k ≠ key → (TruncateHistory sm now key keepLast).sessions k = sm.sessions k) ∧
    (sm.sessions key = none → TruncateHistory sm now key keepLast = sm) := by
  refine ⟨?_, ?_, ?_, ?_, ?_⟩
  · intro s hs hpos
    have hnot : ¬ keepLast ≤ 0 := by omega
    by_cases hle : (s.Messages.length : Int) ≤ keepLast
    · have hmin : min s.Messages.length keepLast.toNat = s.Messages.length := by omega
      have hh : GetHistory (TruncateHistory sm now key keepLast) key = s.Messages := by
        simp [GetHistory, TruncateHistory, hs, hnot, hle]
      rw [hh, hmin]
      simp
    · have hmin : min s.Messages.length keepLast.toNat = keepLast.toNat := by omega
      have hh : GetHistory (TruncateHistory sm now key keepLast) key
          = s.Messages.drop (s.Messages.length - keepLast.toNat) := by
        simp [GetHistory, TruncateHistory, hs, hnot, hle, SessionManager.put]
      rw [hh, hmin]
      refine ⟨rfl, ?_, fun h => absurd h hle⟩
      rw [List.length_drop]
      omega
  · intro s hs hk
    simp [GetHistory, TruncateHistory, hs, hk, SessionManager.put]
  · intro s hs
    unfold TruncateHistory
    simp only [hs]
    split_ifs <;> simp [GetSummary, hs, SessionManager.put]
  · intro k hne
    unfold TruncateHistory
    cases hs : sm.sessions key with
    | none => rfl
    | some s =>
      simp only []
      split_ifs <;> simp [SessionManager.put, hne]
  · intro hs
    simp [TruncateHistory, hs]

/-- C27, on `crashedManager`, whose session has two messages: keeping one
leaves the last one. -/
theorem TruncateHistory_keeps_last_witness :
    GetHistory (TruncateHistory crashedManager 1 "telegram:1" 1) "telegram:1"
      = [userHello, assistantCall].drop (2 - min 2 (1 : Int).toNat) :=
  ((TruncateHistory_keeps_last crashedManager 1 "telegram:1" 1).1
    { Key := "telegram:1", Messages := [userHello, assistantCall], Summary := "",
      Created := 0, Updated := 0 } (by decide) (by decide)).1

end session

namespace bus

theorem Reachable.inv {H : Type} {mb : MessageBus H} (hr : Reachable mb) : Inv mb := by
  induction hr with
  | new => simp [Inv, NewMessageBus, Chan.make]
  | @publishInbound mb mb1 msg _ hp ih =>
    obtain ⟨h1, h2, h3, h4, h5, h6⟩ := ih
    unfold PublishInbound Chan.trySend at hp
    by_cases hc : mb.closed = true
    · simp [hc] at hp; subst hp; exact ⟨h1, h2, h3, h4, h5, h6⟩
    · have hic : mb.inbound.closed = false := by rw [h3]; simpa using hc
      have hoc : mb.outbound.closed = false := by rw [h4]; simpa using hc
      simp only [hc, hic, Bool.false_eq_true, if_false] at hp
      by_cases hl : mb.inbound.buf.length < mb.inbound.cap
      · simp only [hl, if_true, Except.ok.injEq] at hp
        subst hp
        refine ⟨h1, h2, rfl, hoc, ?_, h6⟩
        simp only [List.length_append, List.length_singleton]
        omega
      · simp only [hl, if_false, Except.ok.injEq] at hp
        subst hp; exact ⟨h1, h2, hic, hoc, h5, h6⟩
  | @publishOutbound mb mb1 msg _ hp ih =>
    obtain ⟨h1, h2, h3, h4, h5, h6⟩ := ih
    unfold PublishOutbound Chan.trySend at hp
    by_cases hc : mb.closed = true
    · simp [hc] at hp; subst hp; exact ⟨h1, h2, h3, h4, h5, h6⟩
    · have hoc : mb.outbound.closed = false := by rw [h4]; simpa using hc
      have hic : mb.inbound.closed = false := by rw [h3]; simpa using hc
      simp only [hc, hoc, Bool.false_eq_true, if_false] at hp
      by_cases hl : mb.outbound.buf.length < mb.outbound.cap
      · simp only [hl, if_true, Except.ok.injEq] at hp
        subst hp
        refine ⟨h1, h2, hic, rfl, h5, ?_⟩
        simp only [List.length_append, List.length_singleton]
        omega
      · simp only [hl, if_false, Except.ok.injEq] at hp
        subst hp; exact ⟨h1, h2, hic, hoc, h5, h6⟩
  | @consumeInbound mb mb1 ctxDone pickDone r _ hp ih =>
    obtain ⟨h1, h2, h3, h4, h5, h6⟩ := ih
    unfold ConsumeInbound at hp
    split_ifs at hp with ha hb
    · simp only [Option.some.injEq, Prod.mk.injEq] at hp
      obtain ⟨_, hp⟩ := hp
      subst hp
      cases hbuf : mb.inbound.buf with
      | nil => simp [Inv, Chan.recv, hbuf, h1, h2, h3, h4, h6]
      | cons v rest =>
        rw [hbuf] at h5
        simp only [List.length_cons] at h5
        simp [Inv, Chan.recv, hbuf, h1, h2, h3, h4, h6]
        omega
    · simp only [Option.some.injEq, Prod.mk.injEq] at hp
      obtain ⟨_, hp⟩ := hp
      subst hp; exact ⟨h1, h2, h3, h4, h5, h6⟩
  | @subscribeOutbound mb mb1 ctxDone pickDone r _ hp ih =>
    obtain ⟨h1, h2, h3, h4, h5, h6⟩ := ih
    unfold SubscribeOutbound at hp
    split_ifs at hp with ha hb
    · simp only [Option.some.injEq, Prod.mk.injEq] at hp
      obtain ⟨_, hp⟩ := hp
      subst hp
      cases hbuf : mb.outbound.buf with
      | nil => simp [Inv, Chan.recv, hbuf, h1, h2, h3, h4, h5]
      | cons v rest =>
        rw [hbuf] at h6
        simp only [List.length_cons] at h6
        simp [Inv, Chan.recv, hbuf, h1, h2, h3, h4, h5]
        omega
    · simp only [Option.some.injEq, Prod.mk.injEq] at hp
      obtain ⟨_, hp⟩ := hp
      subst hp; exact ⟨h1, h2, h3, h4, h5, h6⟩
  | @registerHandler mb channel handler _ ih => exact ih
  | @close mb mb1 _ hp ih =>
    obtain ⟨h1, h2, h3, h4, h5, h6⟩ := ih
    unfold Close Chan.close at hp
    by_cases hc : mb.closed = true
    · simp [hc] at hp; subst hp; exact ⟨h1, h2, h3, h4, h5, h6⟩
    · have hic : mb.inbound.closed = false := by rw [h3]; simpa using hc
      have hoc : mb.outbound.closed = false := by rw [h4]; simpa using hc
      simp only [hc, hic, hoc, Bool.false_eq_true, if_false, Except.ok.injEq] at hp
      subst hp
      exact ⟨h1, h2, rfl, rfl, h5, h6⟩

theorem PublishInbound_open {H : Type} (mb : MessageBus H) (msg : InboundMessage)
    (hc : mb.closed = false) (hic : mb.inbound.closed = false) :
    PublishInbound mb msg =
      if mb.inbound.buf.length < mb.inbound.cap then
        Except.ok { mb with inbound := { mb.inbound with buf := mb.inbound.buf ++ [msg] } }
      else Except.ok mb := by
  unfold PublishInbound Chan.trySend
  simp only [hc, hic, Bool.false_eq_true, if_false]
  split_ifs <;> first | rfl | (cases mb; simp_all)

theorem PublishOutbound_open {H : Type} (mb : MessageBus H) (msg : OutboundMessage)
    (hc : mb.closed = false) (hoc : mb.outbound.closed = false) :
    PublishOutbound mb msg =
      if mb.outbound.buf.length < mb.outbound.cap then
        Except.ok { mb with outbound := { mb.outbound with buf := mb.outbound.buf ++ [msg] } }
      else Except.ok mb := by
  unfold PublishOutbound Chan.trySend
  simp only [hc, hoc, Bool.false_eq_true, if_false]
  split_ifs <;> first | rfl | (cases mb; simp_all)

theorem PublishInbound_closed {H : Type} (mb : MessageBus H) (msg : InboundMessage)
    (hc : mb.closed = true) : PublishInbound mb msg = Except.ok mb := by
  simp [PublishInbound, hc]

theorem PublishOutbound_closed {H : Type} (mb : MessageBus H) (msg : OutboundMessage)
    (hc : mb.closed = true) : PublishOutbound mb msg = Except.ok mb := by
  simp [PublishOutbound, hc]

/-- C4, amended: on every reachable bus that is not closed, `PublishInbound`
and `PublishOutbound` return, appending the message at the end of a queue
that holds fewer than 100 messages and leaving a queue that holds 100 as it
is; on a closed bus they return and leave the bus as it is; and each queue
of a reachable bus holds at most 100 messages. -/
theorem publish_bounded {H : Type} (mb : MessageBus H) (hr : Reachable mb)
    (im : InboundMessage) (om : OutboundMessage) :
    (mb.closed = false → mb.inbound.buf.length < 100 →
      PublishInbound mb im =
        Except.ok { mb with inbound := { mb.inbound with buf := mb.inbound.buf ++ [im] } }) ∧
    (mb.closed = false → mb.inbound.buf.length = 100 → PublishInbound mb im = Except.ok mb) ∧
    (mb.closed = false → mb.outbound.buf.length < 100 →
      PublishOutbound mb om =
        Except.ok { mb with outbound := { mb.outbound with buf := mb.outbound.buf ++ [om] } }) ∧
    (mb.closed = false → mb.outbound.buf.length = 100 → PublishOutbound mb om = Except.ok mb) ∧
    (mb.closed = true → PublishInbound mb im = Except.ok mb ∧ PublishOutbound mb om = Except.ok mb) ∧
    mb.inbound.buf.length ≤ 100 ∧ mb.outbound.buf.length ≤ 100 := by
  obtain ⟨h1, h2, h3, h4, h5, h6⟩ := hr.inv
  refine ⟨?_, ?_, ?_, ?_, ?_, h5, h6⟩
  · intro hc hl
    rw [PublishInbound_open mb im hc (by rw [h3, hc]), h1, if_pos hl]
  · intro hc hl
    rw [PublishInbound_open mb im hc (by rw [h3, hc]), h1, if_neg (by omega)]
  · intro hc hl
    rw [PublishOutbound_open mb om hc (by rw [h4, hc]), h2, if_pos hl]
  · intro hc hl
    rw [PublishOutbound_open mb om hc (by rw [h4, hc]), h2, if_neg (by omega)]
  · intro hc
    exact ⟨PublishInbound_closed mb im hc, PublishOutbound_closed mb om hc⟩

/-- C4, on the new bus: the first message published is the one queued. -/
theorem publish_bounded_witness :
    PublishInbound (NewMessageBus : MessageBus Unit) helloIn =
      Except.ok { (NewMessageBus : MessageBus Unit) with
        inbound := { (NewMessageBus : MessageBus Unit).inbound with buf := [] ++ [helloIn] } } :=
  (publish_bounded NewMessageBus Reachable.new helloIn helloOut).1 rfl (by decide)

/-- C4 as stated fails: on the bus closed right after its creation both
queues hold fewer than 100 messages, and a publish appends nothing. -/
theorem publish_bounded_counterexample :
    Close (NewMessageBus : MessageBus Unit) = Except.ok closedBus ∧
    closedBus.inbound.buf.length < 100 ∧
    PublishInbound closedBus helloIn = Except.ok closedBus ∧
    closedBus.inbound.buf ≠ closedBus.inbound.buf ++ [helloIn] ∧
    closedBus.outbound.buf.length < 100 ∧
    PublishOutbound closedBus helloOut = Except.ok closedBus ∧
    closedBus.outbound.buf ≠ closedBus.outbound.buf ++ [helloOut] :=
  ⟨rfl, by decide, rfl, by decide, by decide, rfl, by decide⟩

theorem publishInboundAll_open {H : Type} (ms : List InboundMessage) :
    ∀ mb : MessageBus H, mb.closed = false → mb.inbound.closed = false →
      mb.inbound.buf.length + ms.length ≤ mb.inbound.cap →
      publishInboundAll mb ms =
        Except.ok { mb with inbound := { mb.inbound with buf := mb.inbound.buf ++ ms } } := by
  induction ms with
  | nil => intro mb _ _ _; simp [publishInboundAll]
  | cons m ms ih =>
    intro mb hc hic hl
    simp only [List.length_cons] at hl
    unfold publishInboundAll
    rw [PublishInbound_open mb m hc hic, if_pos (by omega)]
    simp only []
    have h2 := ih { mb with inbound := { mb.inbound with buf := mb.inbound.buf ++ [m] } } hc hic
      (by simp only [List.length_append, List.length_singleton]; omega)
    rw [h2]
    simp

theorem publishOutboundAll_open {H : Type} (ms : List OutboundMessage) :
    ∀ mb : MessageBus H, mb.closed = false → mb.outbound.closed = false →
      mb.outbound.buf.length + ms.length ≤ mb.outbound.cap →
      publishOutboundAll mb ms =
        Except.ok { mb with outbound := { mb.outbound with buf := mb.outbound.buf ++ ms } } := by
  induction ms with
  | nil => intro mb _ _ _; simp [publishOutboundAll]
  | cons m ms ih =>
    intro mb hc hoc hl
    simp only [List.length_cons] at hl
    unfold publishOutboundAll
    rw [PublishOutbound_open mb m hc hoc, if_pos (by omega)]
    simp only []
    have h2 := ih { mb with outbound := { mb.outbound with buf := mb.outbound.buf ++ [m] } } hc hoc
      (by simp only [List.length_append, List.length_singleton]; omega)
    rw [h2]
    simp

theorem consumeInboundN_take {H : Type} (k : Nat) :
    ∀ mb : MessageBus H, k ≤ mb.inbound.buf.length →
      consumeInboundN k mb =
        some ((mb.inbound.buf.take k).map (fun m => (m, true)),
              { mb with inbound := { mb.inbound with buf := mb.inbound.buf.drop k } }) := by
  induction k with
  | zero => intro mb _; simp [consumeInboundN]
  | succ k ih =>
    intro mb hk
    cases hbuf : mb.inbound.buf with
    | nil => rw [hbuf] at hk; simp at hk
    | cons v rest =>
      rw [hbuf] at hk
      simp only [List.length_cons, Nat.add_le_add_iff_right] at hk
      unfold consumeInboundN
      simp only [ConsumeInbound, Chan.recvReady, Chan.recv, hbuf, List.isEmpty_cons,
        Bool.not_false, Bool.true_or, Bool.false_and, Bool.not_false, Bool.and_self, if_true]
      rw [ih _ (by simpa using hk)]
      simp

theorem subscribeOutboundN_take {H : Type} (k : Nat) :
    ∀ mb : MessageBus H, k ≤ mb.outbound.buf.length →
      subscribeOutboundN k mb =
        some ((mb.outbound.buf.take k).map (fun m => (m, true)),
              { mb with outbound := { mb.outbound with buf := mb.outbound.buf.drop k } }) := by
  induction k with
  | zero => intro mb _; simp [subscribeOutboundN]
  | succ k ih =>
    intro mb hk
    cases hbuf : mb.outbound.buf with
    | nil => rw [hbuf] at hk; simp at hk
    | cons v rest =>
      rw [hbuf] at hk
      simp only [List.length_cons, Nat.add_le_add_iff_right] at hk
      unfold subscribeOutboundN
      simp only [SubscribeOutbound, Chan.recvReady, Chan.recv, hbuf, List.isEmpty_cons,
        Bool.not_false, Bool.true_or, Bool.false_and, Bool.not_false, Bool.and_self, if_true]
      rw [ih _ (by simpa using hk)]
      simp

theorem PublishInbound_outbound {H : Type} (mb mb1 : MessageBus H) (m : InboundMessage)
    (h : PublishInbound mb m = Except.ok mb1) : mb1.outbound = mb.outbound := by
  unfold PublishInbound at h
  split_ifs at h
  · cases h; rfl
  · cases ht : mb.inbound.trySend m with
    | error e => simp [ht] at h
    | ok c => simp only [ht, Except.ok.injEq] at h; subst h; rfl

theorem PublishOutbound_inbound {H : Type} (mb mb1 : MessageBus H) (m : OutboundMessage)
    (h : PublishOutbound mb m = Except.ok mb1) : mb1.inbound = mb.inbound := by
  unfold PublishOutbound at h
  split_ifs at h
  · cases h; rfl
  · cases ht : mb.outbound.trySend m with
    | error e => simp [ht] at h
    | ok c => simp only [ht, Except.ok.injEq] at h; subst h; rfl

theorem ConsumeInbound_outbound {H : Type} (mb mb1 : MessageBus H) (c p : Bool)
    (r : InboundMessage × Bool) (h : ConsumeInbound mb c p = some (r, mb1)) :
    mb1.outbound = mb.outbound := by
  unfold ConsumeInbound at h
  split_ifs at h <;> (simp only [Option.some.injEq, Prod.mk.injEq] at h; obtain ⟨_, h⟩ := h; subst h; rfl)

theorem SubscribeOutbound_inbound {H : Type} (mb mb1 : MessageBus H) (c p : Bool)
    (r : OutboundMessage × Bool) (h : SubscribeOutbound mb c p = some (r, mb1)) :
    mb1.inbound = mb.inbound := by
  unfold SubscribeOutbound at h
  split_ifs at h <;> (simp only [Option.some.injEq, Prod.mk.injEq] at h; obtain ⟨_, h⟩ := h; subst h; rfl)

theorem ConsumeInbound_delivers_oldest {H : Type} (mb mb1 : MessageBus H) (c p : Bool)
    (m : InboundMessage) (hic : mb.inbound.closed = false)
    (h : ConsumeInbound mb c p = some ((m, true), mb1)) :
    mb.inbound.buf = m :: mb1.inbound.buf := by
  unfold ConsumeInbound at h
  split_ifs at h with h1 h2
  · cases hbuf : mb.inbound.buf with
    | nil => simp [Chan.recvReady, hbuf, hic] at h1
    | cons v rest =>
      simp only [Chan.recv, hbuf, Option.some.injEq, Prod.mk.injEq, and_true] at h
      obtain ⟨hv, hmb⟩ := h
      subst hv; subst hmb; rfl
  · simp at h

theorem SubscribeOutbound_delivers_oldest {H : Type} (mb mb1 : MessageBus H) (c p : Bool)
    (m : OutboundMessage) (hoc : mb.outbound.closed = false)
    (h : SubscribeOutbound mb c p = some ((m, true), mb1)) :
    mb.outbound.buf = m :: mb1.outbound.buf := by
  unfold SubscribeOutbound at h
  split_ifs at h with h1 h2
  · cases hbuf : mb.outbound.buf with
    | nil => simp [Chan.recvReady, hbuf, hoc] at h1
    | cons v rest =>
      simp only [Chan.recv, hbuf, Option.some.injEq, Prod.mk.injEq, and_true] at h
      obtain ⟨hv, hmb⟩ := h
      subst hv; subst hmb; rfl
  · simp at h

/-- C5: on a reachable bus that is not closed, messages published on a queue
within its capacity of 100 are queued behind those already there, and `k`
successive consume calls on that queue under a live context return the first
`k` queued messages in the order they were published, each with the flag
true; whatever the context, a consume call that delivers takes the oldest
queued message off its queue; publishing to or consuming from one queue
leaves the other queue as it was. -/
theorem fifo_per_queue {H : Type} (mb : MessageBus H) (hr : Reachable mb)
    (hopen : mb.closed = false) (ims : List InboundMessage) (oms : List OutboundMessage)
    (hin : mb.inbound.buf.length + ims.length ≤ 100)
    (hout : mb.outbound.buf.length + oms.length ≤ 100) (k j : Nat)
    (hk : k ≤ mb.inbound.buf.length + ims.length)
    (hj : j ≤ mb.outbound.buf.length + oms.length) :
    (publishInboundAll mb ims =
      Except.ok { mb with inbound := { mb.inbound with buf := mb.inbound.buf ++ ims } }) ∧
    (consumeInboundN k { mb with inbound := { mb.inbound with buf := mb.inbound.buf ++ ims } } =
      some (((mb.inbound.buf ++ ims).take k).map (fun m => (m, true)),
        { mb with inbound := { mb.inbound with buf := (mb.inbound.buf ++ ims).drop k } })) ∧
    (publishOutboundAll mb oms =
      Except.ok { mb with outbound := { mb.outbound with buf := mb.outbound.buf ++ oms } }) ∧
    (subscribeOutboundN j { mb with outbound := { mb.outbound with buf := mb.outbound.buf ++ oms } } =
      some (((mb.outbound.buf ++ oms).take j).map (fun m => (m, true)),
        { mb with outbound := { mb.outbound with buf := (mb.outbound.buf ++ oms).drop j } })) ∧
    (∀ c p m mb1, ConsumeInbound mb c p = some ((m, true), mb1) →
      mb.inbound.buf = m :: mb1.inbound.buf) ∧
    (∀ c p m mb1, SubscribeOutbound mb c p = some ((m, true), mb1) →
      mb.outbound.buf = m :: mb1.outbound.buf) ∧
    (∀ m mb1, PublishInbound mb m = Except.ok mb1 → mb1.outbound = mb.outbound) ∧
    (∀ c p r mb1, ConsumeInbound mb c p = some (r, mb1) → mb1.outbound = mb.outbound) ∧
    (∀ m mb1, PublishOutbound mb m = Except.ok mb1 → mb1.inbound = mb.inbound) ∧
    (∀ c p r mb1, SubscribeOutbound mb c p = some (r, mb1) → mb1.inbound = mb.inbound) := by
  obtain ⟨h1, h2, h3, h4, _, _⟩ := hr.inv
  refine ⟨?_, ?_, ?_, ?_, ?_, ?_, ?_, ?_, ?_, ?_⟩
  · exact publishInboundAll_open ims mb hopen (by rw [h3, hopen]) (by rw [h1]; exact hin)
  · exact consumeInboundN_take k _ (by simpa using hk)
  · exact publishOutboundAll_open oms mb hopen (by rw [h4, hopen]) (by rw [h2]; exact hout)
  · exact subscribeOutboundN_take j _ (by simpa using hj)
  · exact fun c p m mb1 h =>
      ConsumeInbound_delivers_oldest mb mb1 c p m (by rw [h3, hopen]) h
  · exact fun c p m mb1 h =>
      SubscribeOutbound_delivers_oldest mb mb1 c p m (by rw [h4, hopen]) h
  · exact fun m mb1 h => PublishInbound_outbound mb mb1 m h
  · exact fun c p r mb1 h => ConsumeInbound_outbound mb mb1 c p r h
  · exact fun m mb1 h => PublishOutbound_inbound mb mb1 m h
  · exact fun c p r mb1 h => SubscribeOutbound_inbound mb mb1 c p r h

/-- C5, on the new bus: two messages published, then consumed in the same
order. -/
theorem fifo_per_queue_witness :
    consumeInboundN 2 { (NewMessageBus : MessageBus Unit) with
        inbound := { (NewMessageBus : MessageBus Unit).inbound with
          buf := (NewMessageBus : MessageBus Unit).inbound.buf ++ [helloIn, byeIn] } } =
      some ((([] ++ [helloIn, byeIn]).take 2).map (fun m => (m, true)),
        { (NewMessageBus : MessageBus Unit) with
          inbound := { (NewMessageBus : MessageBus Unit).inbound with
            buf := ([] ++ [helloIn, byeIn]).drop 2 } }) :=
  (fifo_per_queue NewMessageBus Reachable.new rfl [helloIn, byeIn] [] (by decide) (by decide)
    2 0 (by decide) (by decide)).2.1

/-- C6: on every reachable bus `Close` returns, a second `Close` returns and
leaves the bus as the first one left it, and on the closed bus every
`PublishInbound` and `PublishOutbound` returns and leaves the bus, hence both
queues, as it was. -/
theorem close_idempotent {H : Type} (mb : MessageBus H) (hr : Reachable mb) :
    ∃ mb1, Close mb = Except.ok mb1 ∧ Close mb1 = Except.ok mb1 ∧ mb1.closed = true ∧
      (∀ im, PublishInbound mb1 im = Except.ok mb1) ∧
      (∀ om, PublishOutbound mb1 om = Except.ok mb1) := by
  obtain ⟨_, _, h3, h4, _, _⟩ := hr.inv
  by_cases hc : mb.closed = true
  · refine ⟨mb, ?_, ?_, hc, ?_, ?_⟩
    · simp [Close, hc]
    · simp [Close, hc]
    · exact fun im => PublishInbound_closed mb im hc
    · exact fun om => PublishOutbound_closed mb om hc
  · have hic : mb.inbound.closed = false := by rw [h3]; simpa using hc
    have hoc : mb.outbound.closed = false := by rw [h4]; simpa using hc
    refine ⟨{ mb with closed := true, inbound := { mb.inbound with closed := true },
                       outbound := { mb.outbound with closed := true } }, ?_, ?_, rfl, ?_, ?_⟩
    · simp [Close, Chan.close, hc, hic, hoc]
    · simp [Close]
    · exact fun im => PublishInbound_closed _ im rfl
    · exact fun om => PublishOutbound_closed _ om rfl

/-- C6, on the new bus. -/
theorem close_idempotent_witness :
    ∃ mb1, Close (NewMessageBus : MessageBus Unit) = Except.ok mb1 ∧
      Close mb1 = Except.ok mb1 ∧ mb1.closed = true ∧
      (∀ im, PublishInbound mb1 im = Except.ok mb1) ∧
      (∀ om, PublishOutbound mb1 om = Except.ok mb1) :=
  close_idempotent NewMessageBus Reachable.new

/-- C7 fails on the code: on the bus closed right after its creation nothing
was ever published, yet `ConsumeInbound` and `SubscribeOutbound` under a live
context return the zero message with the flag true, and leave the bus as it
was, so that every later call does the same. -/
theorem consume_on_closed_bus :
    Close (NewMessageBus : MessageBus Unit) = Except.ok closedBus ∧
    closedBus.inbound.buf = [] ∧ closedBus.outbound.buf = [] ∧
    ConsumeInbound closedBus false false = some ((InboundMessage.zero, true), closedBus) ∧
    SubscribeOutbound closedBus false false = some ((OutboundMessage.zero, true), closedBus) :=
  ⟨rfl, rfl, rfl, rfl, rfl⟩

end bus

namespace tools

theorem EntryMap.delete_keys_subset (m : EntryMap) (key : String) :
    ∀ k ∈ (m.delete key).map (fun e => e.1), k ∈ m.map (fun e => e.1) ∧ k ≠ key := by
  intro k hk
  simp only [EntryMap.delete, List.mem_map, List.mem_filter] at hk
  obtain ⟨e, ⟨he, hne⟩, rfl⟩ := hk
  exact ⟨List.mem_map_of_mem _ he, by simpa using hne⟩

theorem EntryMap.delete_nodup (m : EntryMap) (key : String)
    (h : (m.map (fun e => e.1)).Nodup) : ((m.delete key).map (fun e => e.1)).Nodup :=
  (List.filter_sublist _).map _ |>.nodup h

theorem EntryMap.assign_nodup (m : EntryMap) (key : String) (e : fetchCacheEntry)
    (h : (m.map (fun e => e.1)).Nodup) : ((m.assign key e).map (fun e => e.1)).Nodup := by
  simp only [EntryMap.assign, List.map_cons, List.nodup_cons]
  exact ⟨fun hk => (EntryMap.delete_keys_subset m key key hk).2 rfl,
    EntryMap.delete_nodup m key h⟩

theorem EntryMap.lookup_none_not_mem (m : EntryMap) (key : String)
    (h : m.lookup key = none) : key ∉ m.map (fun e => e.1) := by
  induction m with
  | nil => simp
  | cons e m ih =>
    obtain ⟨k, x⟩ := e
    simp only [List.lookup] at h
    cases hk : key == k with
    | true => simp [hk] at h
    | false =>
      simp only [hk] at h
      have hne : key ≠ k := by simpa using hk
      simp only [List.map_cons, List.mem_cons, not_or]
      exact ⟨hne, ih h⟩

theorem fetchCache.get_inv (c : fetchCache) (now : Int) (key : String) (h : c.Inv) :
    (c.get now key).2.Inv := by
  obtain ⟨h1, h2, h3⟩ := h
  unfold fetchCache.get
  cases c.data.lookup key with
  | none => exact ⟨h1, h2, h3⟩
  | some e =>
    simp only []
    split_ifs
    · exact ⟨h1, EntryMap.delete_nodup _ _ h2,
        fun k hk => h3 k (EntryMap.delete_keys_subset _ _ k hk).1⟩
    · exact ⟨h1, h2, h3⟩

theorem fetchCache.set_inv (c : fetchCache) (now : Int) (key value : String) (h : c.Inv) :
    (c.set now key value).Inv := by
  obtain ⟨h1, h2, h3⟩ := h
  unfold fetchCache.set
  cases hl : c.data.lookup key with
  | some e0 =>
    simp only []
    refine ⟨h1, EntryMap.assign_nodup _ _ _ h2, ?_⟩
    intro k hk
    simp only [EntryMap.assign, List.map_cons, List.mem_cons] at hk
    rcases hk with rfl | hk
    · apply h3
      by_contra hnot
      have : c.data.lookup k = none := by
        rw [List.lookup_eq_none_iff]
        intro p hp
        simp only [bne_iff_ne, ne_eq]
        intro hpk
        exact hnot (hpk ▸ List.mem_map_of_mem (fun e => e.1) hp)
      rw [this] at hl; cases hl
    · exact h3 k (EntryMap.delete_keys_subset _ _ k hk).1
  | none =>
    simp only []
    by_cases hfull : fetchCacheMaxSize ≤ c.keys.length
    · simp only [hfull, if_true]
      cases hk : c.keys with
      | nil => rw [hk] at hfull; simp [fetchCacheMaxSize] at hfull
      | cons evict rest =>
        simp only []
        rw [hk] at h1 h3
        simp only [List.length_cons] at h1
        refine ⟨by simp only [List.length_append, List.length_singleton]; omega,
          EntryMap.assign_nodup _ _ _ (EntryMap.delete_nodup _ _ h2), ?_⟩
        intro k hmem
        simp only [EntryMap.assign, List.map_cons, List.mem_cons] at hmem
        rcases hmem with rfl | hmem
        · simp
        · have h4 := (EntryMap.delete_keys_subset _ _ k hmem).1
          obtain ⟨h5, h6⟩ := EntryMap.delete_keys_subset _ _ k h4
          have := h3 k h5
          simp only [List.mem_cons] at this
          rcases this with rfl | this
          · exact absurd rfl h6
          · simp [this]
    · simp only [hfull, if_false]
      refine ⟨by simp only [List.length_append, List.length_singleton]; omega,
        EntryMap.assign_nodup _ _ _ h2, ?_⟩
      intro k hmem
      simp only [EntryMap.assign, List.map_cons, List.mem_cons] at hmem
      rcases hmem with rfl | hmem
      · simp
      · have := h3 k (EntryMap.delete_keys_subset _ _ k hmem).1
        simp [this]

theorem runCache_inv (ops : List CacheOp) : ∀ c : fetchCache, c.Inv → (runCache ops c).Inv := by
  induction ops with
  | nil => intro c h; exact h
  | cons op ops ih =>
    intro c h
    apply ih
    cases op with
    | get now key => exact fetchCache.get_inv c now key h
    | set now key value => exact fetchCache.set_inv c now key value h

theorem fetchCache.Inv.size_le (c : fetchCache) (h : c.Inv) :
    c.data.length ≤ fetchCacheMaxSize := by
  obtain ⟨h1, h2, h3⟩ := h
  have hsub : (c.data.map (fun e => e.1)).Subperm c.keys := h2.subperm h3
  have := hsub.length_le
  simp only [List.length_map] at this
  omega

/-- C20: after every sequence of `get` and `set` calls on a cache made by
`newFetchCache`, whatever the clock reads during them, the map of the cache
holds at most `fetchCacheMaxSize` = 64 entries, and so does its ring of
keys. -/
theorem fetchCache_bounded (ttl : Int) (ops : List CacheOp) :
    (runCache ops (newFetchCache ttl)).data.length ≤ 64 ∧
    (runCache ops (newFetchCache ttl)).keys.length ≤ 64 := by
  have hinv : (runCache ops (newFetchCache ttl)).Inv :=
    runCache_inv ops _ ⟨by simp [newFetchCache], by simp [newFetchCache],
      by simp [newFetchCache]⟩
  exact ⟨fetchCache.Inv.size_le _ hinv, hinv.1⟩

/-- C28 fails on the code: the argument `maxChars = 100` is the minimum the
parameter schema declares, and `Execute` keeps the configured limit, as it
does for every argument that `int` takes to 100; from 101 on the limit is the
argument. -/
theorem limit_at_minimum :
    maxCharsMinimum ≤ 100 ∧
    (NewWebFetchTool 50000).limit (some 100) = 50000 ∧
    (NewWebFetchTool 50000).limit (some 101) = 101 ∧
    (NewWebFetchTool 50000).limit none = 50000 := by
  refine ⟨by norm_num [maxCharsMinimum], ?_, ?_, ?_⟩ <;> rfl

set_option maxRecDepth 1000000 in
/-- C21 fails on the code: in `staleRing` the ring holds 64 keys, its first
one being the `a` of the entry that `get` deleted; the map holds 63 entries,
the oldest being `b` (time 101) and the newest `a` (time 200). A `set` of the
new key `c` finds the ring full and evicts `keys[0]`, which deletes the
newest entry `a` and keeps the oldest entry `b`. -/
theorem set_evicts_newest :
    staleRing.keys.length = 64 ∧ staleRing.keys.head? = some "a" ∧
    staleRing.data.length = 63 ∧
    staleRing.data.lookup "c" = none ∧
    staleRing.data.lookup "a" = some { result := "new", atTime := 200 } ∧
    staleRing.data.lookup "b" = some { result := "page", atTime := 101 } ∧
    (∀ e ∈ staleRing.data, 101 ≤ e.2.atTime) ∧
    (staleRing.set 300 "c" "x").data.lookup "a" = none ∧
    (staleRing.set 300 "c" "x").data.lookup "b" = some { result := "page", atTime := 101 } := by
  decide

theorem splitNewline_ne_nil (s : List Char) : splitNewline s ≠ [] := by
  cases s with
  | nil => simp [splitNewline]
  | cons c s =>
    unfold splitNewline
    split_ifs
    · simp
    · cases splitNewline s <;> simp

theorem splitNewline_no_newline (s : List Char) : ∀ l ∈ splitNewline s, '\n' ∉ l := by
  induction s with
  | nil => intro l hl; simp [splitNewline] at hl; subst hl; simp
  | cons c s ih =>
    intro l hl
    unfold splitNewline at hl
    split_ifs at hl with hc
    · simp only [List.mem_cons] at hl
      rcases hl with rfl | hl
      · simp
      · exact ih l hl
    · cases hs : splitNewline s with
      | nil => exact absurd hs (splitNewline_ne_nil s)
      | cons l0 ls =>
        rw [hs] at hl ih
        simp only [List.mem_cons] at hl
        rcases hl with rfl | hl
        · have h0 := ih l0 (List.mem_cons_self _ _)
          simp only [List.mem_cons, not_or]
          exact ⟨fun e => hc e.symm, h0⟩
        · exact ih l (List.mem_cons_of_mem _ hl)

theorem splitNewline_of_no_newline (l : List Char) (h : '\n' ∉ l) : splitNewline l = [l] := by
  induction l with
  | nil => rfl
  | cons c l ih =>
    simp only [List.mem_cons, not_or] at h
    unfold splitNewline
    rw [if_neg (fun e => h.1 e.symm), ih h.2]

theorem splitNewline_cons (c : Char) (s : List Char) :
    splitNewline (c :: s) =
      if c = '\n' then [] :: splitNewline s
      else match splitNewline s with
        | l :: ls => (c :: l) :: ls
        | [] => [[c]] := by
  rw [splitNewline]

theorem splitNewline_append (x z : List Char) :
    splitNewline (x ++ '\n' :: z) = splitNewline x ++ splitNewline z := by
  induction x with
  | nil => simp [splitNewline_cons, splitNewline]
  | cons c x ih =>
    simp only [List.cons_append]
    rw [splitNewline_cons c (x ++ '\n' :: z), splitNewline_cons c x, ih]
    split_ifs with hc
    · simp
    · cases hs : splitNewline x with
      | nil => exact absurd hs (splitNewline_ne_nil x)
      | cons l0 ls => simp

theorem intercalate_cons_cons (l l1 : List Char) (L1 : List (List Char)) :
    List.intercalate ['\n'] (l :: l1 :: L1)
      = l ++ '\n' :: List.intercalate ['\n'] (l1 :: L1) := by
  simp [List.intercalate, List.intersperse, List.flatten]

theorem splitNewline_intercalate (L : List (List Char)) (hne : L ≠ [])
    (h : ∀ l ∈ L, '\n' ∉ l) : splitNewline (List.intercalate ['\n'] L) = L := by
  induction L with
  | nil => exact absurd rfl hne
  | cons l L ih =>
    cases L with
    | nil =>
      have : List.intercalate ['\n'] [l] = l := by
        simp [List.intercalate, List.intersperse, List.flatten]
      rw [this]
      exact splitNewline_of_no_newline l (h l (List.mem_cons_self _ _))
    | cons l1 L1 =>
      have hrest := ih (by simp) (fun l0 hl0 => h l0 (List.mem_cons_of_mem _ hl0))
      rw [intercalate_cons_cons, splitNewline_append, hrest,
        splitNewline_of_no_newline l (h l (List.mem_cons_self _ _))]
      rfl

theorem trimSpace_head (l : List Char) : ∀ c ∈ (trimSpace l).head?, isSpace c = false := by
  intro c hc
  unfold trimSpace at hc
  have hpre : (List.rdropWhile isSpace (List.dropWhile isSpace l)) <+: List.dropWhile isSpace l :=
    List.rdropWhile_prefix _ _
  obtain ⟨t, ht⟩ := hpre
  cases hr : List.rdropWhile isSpace (List.dropWhile isSpace l) with
  | nil => rw [hr] at hc; simp at hc
  | cons a r =>
    rw [hr] at hc ht
    simp only [List.head?_cons, Option.mem_def, Option.some.injEq] at hc
    subst hc
    have h1 : (List.dropWhile isSpace l).head? = some a := by rw [← ht]; rfl
    have := List.head?_dropWhile_not isSpace l
    rw [h1] at this
    simpa using this

theorem trimSpace_getLast (l : List Char) :
    ∀ c ∈ (trimSpace l).getLast?, isSpace c = false := by
  intro c hc
  unfold trimSpace at hc
  cases hr : List.rdropWhile isSpace (List.dropWhile isSpace l) with
  | nil => rw [hr] at hc; simp at hc
  | cons a r =>
    have hne : List.rdropWhile isSpace (List.dropWhile isSpace l) ≠ [] := by rw [hr]; simp
    have := List.rdropWhile_last_not isSpace (List.dropWhile isSpace l) hne
    rw [List.getLast?_eq_getLast _ hne] at hc
    simp only [Option.mem_def, Option.some.injEq] at hc
    subst hc
    simpa using this

theorem trimSpace_subset (l : List Char) : ∀ c ∈ trimSpace l, c ∈ l := by
  intro c hc
  unfold trimSpace at hc
  exact (List.dropWhile_suffix _).subset ((List.rdropWhile_prefix _ _).subset hc)

theorem cleanLines_spec (lines : List (List Char)) (h : ∀ l ∈ lines, '\n' ∉ l) :
    ∀ l ∈ cleanLines lines, l ≠ [] ∧ '\n' ∉ l ∧
      (∀ c ∈ l.head?, isSpace c = false) ∧ (∀ c ∈ l.getLast?, isSpace c = false) := by
  intro l hl
  simp only [cleanLines, List.mem_filter, List.mem_map, decide_eq_true_eq] at hl
  obtain ⟨⟨l0, hl0, rfl⟩, hne⟩ := hl
  exact ⟨hne, fun hc => h l0 hl0 (trimSpace_subset l0 _ hc),
    trimSpace_head l0, trimSpace_getLast l0⟩

/-- The text made of lines that are not empty and hold no newline. -/
theorem intercalate_lines (L : List (List Char))
    (h : ∀ l ∈ L, l ≠ [] ∧ '\n' ∉ l) :
    ¬ ['\n', '\n'] <:+: List.intercalate ['\n'] L ∧
    (List.intercalate ['\n'] L).head? ≠ some '\n' ∧
    (List.intercalate ['\n'] L).getLast? ≠ some '\n' ∧
    (L ≠ [] → splitNewline (List.intercalate ['\n'] L) = L) := by
  by_cases hL : L = []
  · subst hL
    simp [List.intercalate, List.intersperse, List.flatten]
  · have hsplit := splitNewline_intercalate L hL (fun l hl => (h l hl).2)
    have hempty : [] ∉ splitNewline (List.intercalate ['\n'] L) := by
      rw [hsplit]; intro hmem; exact (h [] hmem).1 rfl
    refine ⟨?_, ?_, ?_, fun _ => hsplit⟩
    · rintro ⟨x, y, hxy⟩
      apply hempty
      have : List.intercalate ['\n'] L = x ++ '\n' :: ('\n' :: y) := by
        rw [← hxy]; simp
      rw [this, splitNewline_append]
      simp [splitNewline]
    · intro hh
      apply hempty
      cases ho : List.intercalate ['\n'] L with
      | nil => rw [ho] at hh; simp at hh
      | cons c s =>
        rw [ho] at hh
        simp only [List.head?_cons, Option.some.injEq] at hh
        subst hh
        simp [splitNewline]
    · intro hh
      apply hempty
      rw [List.getLast?_eq_some_iff] at hh
      obtain ⟨x, hx⟩ := hh
      have : List.intercalate ['\n'] L = x ++ '\n' :: [] := by rw [hx]
      rw [this, splitNewline_append]
      simp [splitNewline]

/-- C25: for every input the text `extractText` returns holds no two
consecutive newlines, neither starts nor ends with a newline, has no line
that starts or ends with white space, and is empty for the empty input. -/
theorem extractText_lines (htmlContent : String) :
    ¬ ['\n', '\n'] <:+: (extractText htmlContent).data ∧
    (extractText htmlContent).data.head? ≠ some '\n' ∧
    (extractText htmlContent).data.getLast? ≠ some '\n' ∧
    (∀ line ∈ splitNewline (extractText htmlContent).data,
      (∀ c ∈ line.head?, isSpace c = false) ∧ (∀ c ∈ line.getLast?, isSpace c = false)) ∧
    extractText "" = "" := by
  have hclean := cleanLines_spec
    (splitNewline (collapseNewlines (collapseBlanks (trimSpace
      (removeTags
        ((removeSpans "<style".data "</style>".data
          ((removeSpans "<script".data "</script>".data (htmlContent.data.length + 1)
            htmlContent.data).length + 1)
          (removeSpans "<script".data "</script>".data (htmlContent.data.length + 1)
            htmlContent.data)).length + 1)
        (removeSpans "<style".data "</style>".data
          ((removeSpans "<script".data "</script>".data (htmlContent.data.length + 1)
            htmlContent.data).length + 1)
          (removeSpans "<script".data "</script>".data (htmlContent.data.length + 1)
            htmlContent.data)))))))
    (splitNewline_no_newline _)
  obtain ⟨h1, h2, h3, h4⟩ := intercalate_lines _ (fun l hl => ⟨(hclean l hl).1, (hclean l hl).2.1⟩)
  refine ⟨h1, h2, h3, ?_, by decide⟩
  intro line hline
  simp only [extractText] at hline
  by_cases hL : cleanLines (splitNewline (collapseNewlines (collapseBlanks (trimSpace
      (removeTags
        ((removeSpans "<style".data "</style>".data
          ((removeSpans "<script".data "</script>".data (htmlContent.data.length + 1)
            htmlContent.data).length + 1)
          (removeSpans "<script".data "</script>".data (htmlContent.data.length + 1)
            htmlContent.data)).length + 1)
        (removeSpans "<style".data "</style>".data
          ((removeSpans "<script".data "</script>".data (htmlContent.data.length + 1)
            htmlContent.data).length + 1)
          (removeSpans "<script".data "</script>".data (htmlContent.data.length + 1)
            htmlContent.data))))))) = []
  · rw [hL] at hline
    simp [List.intercalate, List.intersperse, List.flatten, splitNewline] at hline
    subst hline
    simp
  · rw [h4 hL] at hline
    exact (hclean line hline).2.2

theorem skipSpaces_decomp (s : List Char) :
    s = s.takeWhile isSpace ++ skipSpaces s ∧ ∀ c ∈ s.takeWhile isSpace, isSpace c = true :=
  ⟨(List.takeWhile_append_dropWhile _ _).symm, fun _ hc => (List.mem_takeWhile_imp hc)⟩

theorem Expression.ne_nil {F : Type} {E : Arith F} {x : List Char} (h : Expression E x) :
    x ≠ [] := by
  induction h with
  | number num v h1 _ _ => exact h1
  | const name v h1 _ _ => exact h1
  | call name sp inner h1 _ _ _ _ _ => simp
  | paren inner _ _ => simp
  | sign c x _ _ _ => simp
  | binary x op y _ _ _ _ _ => simp
  | spaceBefore c x _ _ _ => simp
  | spaceAfter x c _ _ _ => simp

theorem Expression.spacesBefore {F : Type} {E : Arith F} (sp : List Char) {x : List Char}
    (hsp : ∀ c ∈ sp, isSpace c = true) (h : Expression E x) : Expression E (sp ++ x) := by
  induction sp with
  | nil => simpa using h
  | cons c sp ih =>
    exact Expression.spaceBefore c _ (hsp c (by simp)) (ih (fun d hd => hsp d (by simp [hd])))

theorem Expression.spacesAfter {F : Type} {E : Arith F} (sp : List Char) :
    ∀ {x : List Char}, (∀ c ∈ sp, isSpace c = true) → Expression E x → Expression E (x ++ sp) := by
  induction sp with
  | nil => intro x _ h; simpa using h
  | cons c sp ih =>
    intro x hsp h
    have h1 : Expression E (x ++ [c]) := Expression.spaceAfter x c (hsp c (by simp)) h
    have h2 := ih (fun d hd => hsp d (by simp [hd])) h1
    simpa using h2

theorem scanNumber_spec {F : Type} (E : Arith F) : ∀ (n : Nat) (s : List Char), s.length ≤ n →
    s = (scanNumber E s).1 ++ (scanNumber E s).2 ∧
    ∀ c ∈ (scanNumber E s).1, E.isDigit c = true ∨ c ∈ ['.', 'e', 'E', '+', '-'] := by
  intro n
  induction n with
  | zero =>
    intro s hs
    have : s = [] := List.length_eq_zero.mp (by omega)
    subst this
    simp [scanNumber]
  | succ n ih =>
    intro s hs
    match s with
    | [] => simp [scanNumber]
    | [c] =>
      unfold scanNumber
      split_ifs with h
      · refine ⟨by simp, ?_⟩
        intro d hd
        simp at hd
        subst hd
        rcases h with h | h | h | h <;> simp [h]
      · simp
    | c :: d :: s =>
      have h1 := ih (d :: s) (by simp at hs ⊢; omega)
      have h2 := ih s (by simp at hs ⊢; omega)
      unfold scanNumber
      split_ifs with h h'
      · refine ⟨by simp; exact h2.1, ?_⟩
        intro x hx
        simp only [List.mem_cons] at hx
        rcases hx with hx | hx | hx
        · subst hx; rcases h'.1 with h | h <;> simp [h]
        · subst hx; rcases h'.2 with h | h <;> simp [h]
        · exact h2.2 x hx
      · refine ⟨by simp; exact h1.1, ?_⟩
        intro x hx
        simp only [List.mem_cons] at hx
        rcases hx with hx | hx
        · subst hx; rcases h with h | h | h | h <;> simp [h]
        · exact h1.2 x hx
      · simp

theorem scanNumber_ne_nil {F : Type} (E : Arith F) (c : Char) (s : List Char)
    (h : E.isDigit c = true ∨ c = '.') : (scanNumber E (c :: s)).1 ≠ [] := by
  have h' : E.isDigit c = true ∨ c = '.' ∨ c = 'e' ∨ c = 'E' := by
    rcases h with h | h
    · exact Or.inl h
    · exact Or.inr (Or.inl h)
  cases s with
  | nil => unfold scanNumber; simp [h']
  | cons d s =>
    unfold scanNumber
    simp only [h', if_true]
    split_ifs <;> simp

theorem parseNumber_reads {F : Type} (E : Arith F) (c : Char) (s : List Char) (v : F)
    (r : List Char) (hc : E.isDigit c = true ∨ c = '.')
    (h : parseNumber E (c :: s) = .ok (v, r)) :
    ∃ k, c :: s = k ++ r ∧ Expression E k := by
  unfold parseNumber at h
  split at h
  · rename_i w hw
    simp only [Except.ok.injEq, Prod.mk.injEq] at h
    obtain ⟨hv, hr⟩ := h
    have hs := scanNumber_spec E _ (c :: s) (le_refl _)
    refine ⟨(scanNumber E (c :: s)).1, ?_, ?_⟩
    · rw [← hr]; exact hs.1
    · exact Expression.number _ w (scanNumber_ne_nil E c s hc) hs.2 hw
  · simp at h

theorem callFunction_ok_mem {F : Type} (E : Arith F) (name : List Char) (arg v : F)
    (h : callFunction E name arg = .ok v) : name ∈ functionNames := by
  by_contra hn
  simp only [functionNames, List.mem_cons, List.mem_singleton, not_or, List.not_mem_nil,
    not_false_eq_true, and_true] at hn
  obtain ⟨h1, h2, h3, h4, h5, h6, h7, h8, h9, h10, h11, h12, h13⟩ := hn
  unfold callFunction at h
  rw [if_neg h1, if_neg h2, if_neg h3, if_neg h4, if_neg h5, if_neg h6, if_neg h7, if_neg h8,
    if_neg (not_or.mpr ⟨h9, h10⟩), if_neg h11, if_neg h12, if_neg h13] at h
  exact absurd h (by simp)

theorem parseNamedToken_reads {F : Type} (E : Arith F) (expr : List Char → Step F)
    (hexpr : Reads E expr) (ch : Char) (rest : List Char) (hch : E.isLetter ch = true)
    (v : F) (r : List Char) (h : parseNamedToken E expr (ch :: rest) = .ok (v, r)) :
    ∃ k, ch :: rest = k ++ r ∧ Expression E k := by
  have hname : nameChar E ch = true := by simp [nameChar, hch]
  have hne : (ch :: rest).takeWhile (nameChar E) ≠ [] := by
    simp [List.takeWhile_cons, hname]
  have hall : ∀ c ∈ (ch :: rest).takeWhile (nameChar E), nameChar E c = true :=
    fun c hc => List.mem_takeWhile_imp hc
  have hsplit : ch :: rest
      = (ch :: rest).takeWhile (nameChar E) ++ (ch :: rest).dropWhile (nameChar E) :=
    (List.takeWhile_append_dropWhile _ _).symm
  unfold parseNamedToken at h
  simp only at h
  generalize (ch :: rest).takeWhile (nameChar E) = raw at h hne hall hsplit
  generalize (ch :: rest).dropWhile (nameChar E) = tail at h hsplit
  rw [hsplit]
  split at h
  · rename_i w hw
    simp only [Except.ok.injEq, Prod.mk.injEq] at h
    obtain ⟨_, hr⟩ := h
    exact ⟨raw, by rw [hr], Expression.const _ w hne hall hw⟩
  · split at h
    · simp at h
    · rename_i c r1 hsk
      split_ifs at h with hc
      split at h
      · simp at h
      · rename_i arg r2 harg
        split at h
        · simp at h
        · rename_i d r3 hsk2
          split_ifs at h with hd
          split at h
          · simp at h
          · rename_i w hw
            simp only [Except.ok.injEq, Prod.mk.injEq] at h
            obtain ⟨_, hr⟩ := h
            obtain ⟨k, hk, hkE⟩ := hexpr r1 arg r2 harg
            have hs1 := skipSpaces_decomp tail
            have hs2 := skipSpaces_decomp r2
            rw [hsk] at hs1
            rw [hsk2] at hs2
            generalize tail.takeWhile isSpace = sp1 at hs1
            generalize r2.takeWhile isSpace = sp2 at hs2
            refine ⟨raw ++ sp1 ++ '(' :: (k ++ sp2) ++ [')'], ?_, ?_⟩
            · rw [hs1.1, hc, hk, hs2.1, hd, hr]
              simp
            · exact Expression.call _ _ _ hne hall (callFunction_ok_mem E _ arg w hw) hs1.2
                (Expression.spacesAfter _ hs2.2 hkE)

theorem parsePrimary_reads {F : Type} (E : Arith F) (expr : List Char → Step F)
    (hexpr : Reads E expr) : Reads E (parsePrimary E expr) := by
  intro s v r h
  have hs := skipSpaces_decomp s
  unfold parsePrimary at h
  generalize s.takeWhile isSpace = sp at hs
  split at h
  · simp at h
  · rename_i ch rest hsk
    rw [hsk] at hs
    have key : ∃ k, ch :: rest = k ++ r ∧ Expression E k := by
      split_ifs at h with h1 h2 h3
      · split at h
        · simp at h
        · rename_i w r2 hw
          obtain ⟨k, hk, hkE⟩ := hexpr rest w r2 hw
          have hs2 := skipSpaces_decomp r2
          generalize r2.takeWhile isSpace = sp2 at hs2
          split at h
          · simp at h
          · rename_i d r3 hsk2
            rw [hsk2] at hs2
            split_ifs at h with hd
            simp only [Except.ok.injEq, Prod.mk.injEq] at h
            obtain ⟨_, hr⟩ := h
            refine ⟨'(' :: (k ++ sp2) ++ [')'], ?_,
              Expression.paren _ (Expression.spacesAfter _ hs2.2 hkE)⟩
            rw [h1, hk, hs2.1, hd, hr]
            simp
      · exact parseNamedToken_reads E expr hexpr ch rest h2 v r h
      · exact parseNumber_reads E ch rest v r h3 h
    obtain ⟨k, hk, hkE⟩ := key
    exact ⟨sp ++ k, by rw [hs.1, hk]; simp, Expression.spacesBefore sp hs.2 hkE⟩

theorem parseUnary_reads {F : Type} (E : Arith F) (expr : List Char → Step F)
    (hexpr : Reads E expr) : ∀ n, Reads E (parseUnary E expr n) := by
  intro n
  induction n with
  | zero => intro s v r h; simp [parseUnary] at h
  | succ n ih =>
    intro s v r h
    have hs := skipSpaces_decomp s
    unfold parseUnary at h
    generalize s.takeWhile isSpace = sp at hs
    split at h
    · simp [parsePrimary, skipSpaces] at h
    · rename_i ch rest hsk
      rw [hsk] at hs
      have key : ∃ k, ch :: rest = k ++ r ∧ Expression E k := by
        split_ifs at h with h1 h2
        · split at h
          · simp at h
          · rename_i w r2 hw
            simp only [Except.ok.injEq, Prod.mk.injEq] at h
            obtain ⟨_, hr⟩ := h
            obtain ⟨k, hk, hkE⟩ := ih rest w r2 hw
            exact ⟨ch :: k, by rw [hk, hr]; simp, Expression.sign ch k (Or.inl h1) hkE⟩
        · obtain ⟨k, hk, hkE⟩ := ih rest v r h
          exact ⟨ch :: k, by rw [hk]; simp, Expression.sign ch k (Or.inr h2) hkE⟩
        · exact parsePrimary_reads E expr hexpr _ v r h
      obtain ⟨k, hk, hkE⟩ := key
      exact ⟨sp ++ k, by rw [hs.1, hk]; simp, Expression.spacesBefore sp hs.2 hkE⟩

theorem parsePower_reads {F : Type} (E : Arith F) (expr : List Char → Step F)
    (hexpr : Reads E expr) : ∀ n, Reads E (parsePower E expr n) := by
  intro n
  induction n with
  | zero => intro s v r h; simp [parsePower] at h
  | succ n ih =>
    intro s v r h
    unfold parsePower at h
    split at h
    · simp at h
    · rename_i base r1 hbase
      obtain ⟨k, hk, hkE⟩ := parseUnary_reads E expr hexpr n s base r1 hbase
      have hs := skipSpaces_decomp r1
      generalize r1.takeWhile isSpace = sp at hs
      split at h
      · rename_i hsk
        rw [hsk] at hs
        simp only [Except.ok.injEq, Prod.mk.injEq] at h
        obtain ⟨_, hr⟩ := h
        exact ⟨k ++ sp, by rw [hk, hs.1, ← hr]; simp, Expression.spacesAfter sp hs.2 hkE⟩
      · rename_i ch rest hsk
        rw [hsk] at hs
        split_ifs at h with h1
        · split at h
          · simp at h
          · rename_i ex r2 hex
            simp only [Except.ok.injEq, Prod.mk.injEq] at h
            obtain ⟨_, hr⟩ := h
            obtain ⟨k2, hk2, hkE2⟩ := ih rest ex r2 hex
            refine ⟨(k ++ sp) ++ '^' :: k2, ?_, Expression.binary _ '^' _
              (by simp [binaryOperators]) (Expression.spacesAfter sp hs.2 hkE) hkE2⟩
            rw [hk, hs.1, h1, hk2, hr]
            simp
        · simp only [Except.ok.injEq, Prod.mk.injEq] at h
          obtain ⟨_, hr⟩ := h
          exact ⟨k ++ sp, by rw [hk, hs.1, ← hr]; simp, Expression.spacesAfter sp hs.2 hkE⟩

theorem termLoop_reads {F : Type} (E : Arith F) (power : List Char → Step F)
    (hpower : Reads E power) : ∀ (n : Nat) (left : F) (s : List Char) (v : F) (r : List Char),
    termLoop E power n left s = .ok (v, r) →
    ∃ k, s = k ++ r ∧ ∀ x, Expression E x → Expression E (x ++ k) := by
  intro n
  induction n with
  | zero => intro left s v r h; simp [termLoop] at h
  | succ n ih =>
    intro left s v r h
    have hs := skipSpaces_decomp s
    unfold termLoop at h
    generalize s.takeWhile isSpace = sp at hs
    split at h
    · rename_i hsk
      rw [hsk] at hs
      simp only [Except.ok.injEq, Prod.mk.injEq] at h
      obtain ⟨_, hr⟩ := h
      exact ⟨sp, by rw [hs.1, ← hr], fun x hx => Expression.spacesAfter sp hs.2 hx⟩
    · rename_i ch rest hsk
      rw [hsk] at hs
      by_cases h1 : ch = '*' ∨ ch = '/' ∨ ch = '%'
      · rw [if_pos h1] at h
        split at h
        · simp at h
        · rename_i right r1 hright
          obtain ⟨k, hk, hkE⟩ := hpower rest right r1 hright
          have hop : ch ∈ binaryOperators := by
            rcases h1 with h1 | h1 | h1 <;> simp [binaryOperators, h1]
          have key : ∃ left1, termLoop E power n left1 r1 = .ok (v, r) := by
            split_ifs at h
            exacts [⟨_, h⟩, ⟨_, h⟩, ⟨_, h⟩]
          obtain ⟨left1, hloop⟩ := key
          obtain ⟨k2, hk2, hkE2⟩ := ih left1 r1 v r hloop
          refine ⟨sp ++ ch :: k ++ k2, by rw [hs.1, hk, hk2]; simp, ?_⟩
          intro x hx
          have h3 := hkE2 _ (Expression.binary _ ch _ hop (Expression.spacesAfter sp hs.2 hx) hkE)
          simpa using h3
      · rw [if_neg h1] at h
        simp only [Except.ok.injEq, Prod.mk.injEq] at h
        obtain ⟨_, hr⟩ := h
        exact ⟨sp, by rw [hs.1, ← hr], fun x hx => Expression.spacesAfter sp hs.2 hx⟩

theorem parseTerm_reads {F : Type} (E : Arith F) (expr : List Char → Step F)
    (hexpr : Reads E expr) (n : Nat) : Reads E (parseTerm E expr n) := by
  intro s v r h
  unfold parseTerm at h
  split at h
  · simp at h
  · rename_i left r1 hleft
    obtain ⟨k, hk, hkE⟩ := parsePower_reads E expr hexpr n s left r1 hleft
    obtain ⟨k2, hk2, hkE2⟩ :=
      termLoop_reads E _ (parsePower_reads E expr hexpr n) n left r1 v r h
    exact ⟨k ++ k2, by rw [hk, hk2]; simp, hkE2 k hkE⟩

theorem exprLoop_reads {F : Type} (E : Arith F) (term : List Char → Step F)
    (hterm : Reads E term) : ∀ (n : Nat) (left : F) (s : List Char) (v : F) (r : List Char),
    exprLoop E term n left s = .ok (v, r) →
    ∃ k, s = k ++ r ∧ ∀ x, Expression E x → Expression E (x ++ k) := by
  intro n
  induction n with
  | zero => intro left s v r h; simp [exprLoop] at h
  | succ n ih =>
    intro left s v r h
    have hs := skipSpaces_decomp s
    unfold exprLoop at h
    generalize s.takeWhile isSpace = sp at hs
    split at h
    · rename_i hsk
      rw [hsk] at hs
      simp only [Except.ok.injEq, Prod.mk.injEq] at h
      obtain ⟨_, hr⟩ := h
      exact ⟨sp, by rw [hs.1, ← hr], fun x hx => Expression.spacesAfter sp hs.2 hx⟩
    · rename_i ch rest hsk
      rw [hsk] at hs
      by_cases h1 : ch = '+' ∨ ch = '-'
      · rw [if_pos h1] at h
        split at h
        · simp at h
        · rename_i right r1 hright
          obtain ⟨k, hk, hkE⟩ := hterm rest right r1 hright
          have hop : ch ∈ binaryOperators := by
            rcases h1 with h1 | h1 <;> simp [binaryOperators, h1]
          have key : ∃ left1, exprLoop E term n left1 r1 = .ok (v, r) := by
            split_ifs at h
            exacts [⟨_, h⟩, ⟨_, h⟩]
          obtain ⟨left1, hloop⟩ := key
          obtain ⟨k2, hk2, hkE2⟩ := ih left1 r1 v r hloop
          refine ⟨sp ++ ch :: k ++ k2, by rw [hs.1, hk, hk2]; simp, ?_⟩
          intro x hx
          have h3 := hkE2 _ (Expression.binary _ ch _ hop (Expression.spacesAfter sp hs.2 hx) hkE)
          simpa using h3
      · rw [if_neg h1] at h
        simp only [Except.ok.injEq, Prod.mk.injEq] at h
        obtain ⟨_, hr⟩ := h
        exact ⟨sp, by rw [hs.1, ← hr], fun x hx => Expression.spacesAfter sp hs.2 hx⟩

theorem parseExpr_reads {F : Type} (E : Arith F) : ∀ n, Reads E (parseExpr E n) := by
  intro n
  induction n with
  | zero => intro s v r h; simp [parseExpr] at h
  | succ n ih =>
    intro s v r h
    unfold parseExpr at h
    split at h
    · simp at h
    · rename_i left r1 hleft
      have hterm : Reads E (parseTerm E (fun t => parseExpr E n t) n) :=
        parseTerm_reads E _ ih n
      obtain ⟨k, hk, hkE⟩ := hterm s left r1 hleft
      obtain ⟨k2, hk2, hkE2⟩ := exprLoop_reads E _ hterm n left r1 v r h
      exact ⟨k ++ k2, by rw [hk, hk2]; simp, hkE2 k hkE⟩

theorem evalExpr_reads {F : Type} (E : Arith F) (s : String) (v : F)
    (h : evalExpr E s = .ok v) : Expression E s.data := by
  unfold evalExpr at h
  split at h
  · simp at h
  · rename_i result r hres
    obtain ⟨k, hk, hkE⟩ := parseExpr_reads E _ s.data result r hres
    have hs := skipSpaces_decomp r
    split at h
    · rename_i hsk
      rw [hsk] at hs
      rw [hk, hs.1]
      simpa using Expression.spacesAfter _ hs.2 hkE
    · simp at h

theorem Reads.length_lt {F : Type} {E : Arith F} {f : List Char → Step F} (hf : Reads E f)
    {s : List Char} {v : F} {r : List Char} (h : f s = .ok (v, r)) : r.length < s.length := by
  obtain ⟨k, hk, hkE⟩ := hf s v r h
  have := List.length_pos.mpr hkE.ne_nil
  rw [hk, List.length_append]
  omega

theorem skipSpaces_length_le (s : List Char) : (skipSpaces s).length ≤ s.length := by
  have h := (skipSpaces_decomp s).1
  have h2 := congrArg List.length h
  rw [List.length_append] at h2
  omega

theorem ite_ne_of_ne {α : Type} {c : Prop} [Decidable c] {a b x : α} (ha : a ≠ x)
    (hb : b ≠ x) : (if c then a else b) ≠ x := by
  split_ifs
  · exact ha
  · exact hb

theorem callFunction_fuel {F : Type} (E : Arith F) (name : List Char) (arg : F) :
    callFunction E name arg ≠ .error .outOfFuel := by
  unfold callFunction
  repeat' apply ite_ne_of_ne
  all_goals exact fun h => by cases h

theorem parseNumber_fuel {F : Type} (E : Arith F) (s : List Char) :
    parseNumber E s ≠ .error .outOfFuel := by
  unfold parseNumber
  split <;> simp

theorem parseNamedToken_fuel {F : Type} (E : Arith F) (expr : List Char → Step F)
    (s : List Char) (hexpr : ∀ t, t.length < s.length → expr t ≠ .error .outOfFuel) :
    parseNamedToken E expr s ≠ .error .outOfFuel := by
  have hd : (s.dropWhile (nameChar E)).length ≤ s.length := by
    have h2 := congrArg List.length (List.takeWhile_append_dropWhile (nameChar E) s)
    rw [List.length_append] at h2
    omega
  have hsk := skipSpaces_length_le (s.dropWhile (nameChar E))
  unfold parseNamedToken
  simp only
  split
  · simp
  · split
    · simp
    · rename_i c r1 hr1
      rw [hr1] at hsk
      simp only [List.length_cons] at hsk
      split_ifs
      · split
        · rename_i e he
          intro hc
          simp only [Except.error.injEq] at hc
          rw [hc] at he
          exact hexpr r1 (by omega) he
        · split
          · simp
          · split_ifs
            · split
              · rename_i e he
                intro hc
                simp only [Except.error.injEq] at hc
                rw [hc] at he
                exact callFunction_fuel E _ _ he
              · simp
            · simp
      · simp

theorem parsePrimary_fuel {F : Type} (E : Arith F) (expr : List Char → Step F)
    (s : List Char) (hexpr : ∀ t, t.length < s.length → expr t ≠ .error .outOfFuel) :
    parsePrimary E expr s ≠ .error .outOfFuel := by
  have hsk := skipSpaces_length_le s
  unfold parsePrimary
  split
  · simp
  · rename_i ch rest hr
    rw [hr] at hsk
    simp only [List.length_cons] at hsk
    split_ifs
    · split
      · rename_i e he
        intro hc
        simp only [Except.error.injEq] at hc
        rw [hc] at he
        exact hexpr rest (by omega) he
      · split
        · simp
        · split_ifs <;> simp
    · exact parseNamedToken_fuel E expr _
        (fun t ht => hexpr t (by simp only [List.length_cons] at ht; omega))
    · exact parseNumber_fuel E _
    · simp

theorem parseUnary_fuel {F : Type} (E : Arith F) (expr : List Char → Step F) :
    ∀ (n : Nat) (s : List Char), s.length < n →
      (∀ t, t.length < s.length → expr t ≠ .error .outOfFuel) →
      parseUnary E expr n s ≠ .error .outOfFuel := by
  intro n
  induction n with
  | zero => intro s hs; omega
  | succ n ih =>
    intro s hs hexpr
    have hsk := skipSpaces_length_le s
    unfold parseUnary
    split
    · exact parsePrimary_fuel E expr [] (fun t ht => by simp at ht)
    · rename_i ch rest hr
      rw [hr] at hsk
      simp only [List.length_cons] at hsk
      have hrec : parseUnary E expr n rest ≠ .error .outOfFuel :=
        ih rest (by omega) (fun t ht => hexpr t (by omega))
      split_ifs
      · split
        · rename_i e he
          intro hc
          simp only [Except.error.injEq] at hc
          rw [hc] at he
          exact hrec he
        · simp
      · exact hrec
      · exact parsePrimary_fuel E expr _
          (fun t ht => hexpr t (by simp only [List.length_cons] at ht; omega))

theorem parsePower_fuel {F : Type} (E : Arith F) (expr : List Char → Step F)
    (hreads : Reads E expr) :
    ∀ (n : Nat) (s : List Char), s.length + 1 < n →
      (∀ t, t.length < s.length → expr t ≠ .error .outOfFuel) →
      parsePower E expr n s ≠ .error .outOfFuel := by
  intro n
  induction n with
  | zero => intro s hs; omega
  | succ n ih =>
    intro s hs hexpr
    unfold parsePower
    split
    · rename_i e he
      intro hc
      simp only [Except.error.injEq] at hc
      rw [hc] at he
      exact parseUnary_fuel E expr n s (by omega) hexpr he
    · rename_i base r1 hbase
      have hlt := (parseUnary_reads E expr hreads n).length_lt hbase
      have hsk := skipSpaces_length_le r1
      split
      · simp
      · rename_i ch rest hr
        rw [hr] at hsk
        simp only [List.length_cons] at hsk
        split_ifs
        · split
          · rename_i e he
            intro hc
            simp only [Except.error.injEq] at hc
            rw [hc] at he
            exact ih rest (by omega) (fun t ht => hexpr t (by omega)) he
          · simp
        · simp

theorem termLoop_fuel {F : Type} (E : Arith F) (power : List Char → Step F)
    (hreads : Reads E power) :
    ∀ (n : Nat) (left : F) (s : List Char), s.length < n →
      (∀ t, t.length < s.length → power t ≠ .error .outOfFuel) →
      termLoop E power n left s ≠ .error .outOfFuel := by
  intro n
  induction n with
  | zero => intro left s hs; omega
  | succ n ih =>
    intro left s hs hpower
    have hsk := skipSpaces_length_le s
    unfold termLoop
    split
    · simp
    · rename_i ch rest hr
      rw [hr] at hsk
      simp only [List.length_cons] at hsk
      by_cases h1 : ch = '*' ∨ ch = '/' ∨ ch = '%'
      · rw [if_pos h1]
        split
        · rename_i e he
          intro hc
          simp only [Except.error.injEq] at hc
          rw [hc] at he
          exact hpower rest (by omega) he
        · rename_i right r1 hright
          have hlt := hreads.length_lt hright
          have hrec : ∀ l, termLoop E power n l r1 ≠ .error .outOfFuel :=
            fun l => ih l r1 (by omega) (fun t ht => hpower t (by omega))
          split_ifs
          · exact hrec _
          · simp
          · exact hrec _
          · simp
          · exact hrec _
      · rw [if_neg h1]
        simp

theorem parseTerm_fuel {F : Type} (E : Arith F) (expr : List Char → Step F)
    (hreads : Reads E expr) (n : Nat) (s : List Char) (hs : s.length + 1 < n)
    (hexpr : ∀ t, t.length < s.length → expr t ≠ .error .outOfFuel) :
    parseTerm E expr n s ≠ .error .outOfFuel := by
  unfold parseTerm
  split
  · rename_i e he
    intro hc
    simp only [Except.error.injEq] at hc
    rw [hc] at he
    exact parsePower_fuel E expr hreads n s hs hexpr he
  · rename_i left r1 hleft
    have hlt := (parsePower_reads E expr hreads n).length_lt hleft
    exact termLoop_fuel E _ (parsePower_reads E expr hreads n) n left r1 (by omega)
      (fun t ht => parsePower_fuel E expr hreads n t (by omega)
        (fun u hu => hexpr u (by omega)))

theorem exprLoop_fuel {F : Type} (E : Arith F) (term : List Char → Step F)
    (hreads : Reads E term) :
    ∀ (n : Nat) (left : F) (s : List Char), s.length < n →
      (∀ t, t.length < s.length → term t ≠ .error .outOfFuel) →
      exprLoop E term n left s ≠ .error .outOfFuel := by
  intro n
  induction n with
  | zero => intro left s hs; omega
  | succ n ih =>
    intro left s hs hterm
    have hsk := skipSpaces_length_le s
    unfold exprLoop
    split
    · simp
    · rename_i ch rest hr
      rw [hr] at hsk
      simp only [List.length_cons] at hsk
      by_cases h1 : ch = '+' ∨ ch = '-'
      · rw [if_pos h1]
        split
        · rename_i e he
          intro hc
          simp only [Except.error.injEq] at hc
          rw [hc] at he
          exact hterm rest (by omega) he
        · rename_i right r1 hright
          have hlt := hreads.length_lt hright
          have hrec : ∀ l, exprLoop E term n l r1 ≠ .error .outOfFuel :=
            fun l => ih l r1 (by omega) (fun t ht => hterm t (by omega))
          split_ifs
          · exact hrec _
          · exact hrec _
      · rw [if_neg h1]
        simp

theorem parseExpr_fuel {F : Type} (E : Arith F) :
    ∀ (n : Nat) (s : List Char), s.length + 2 < n → parseExpr E n s ≠ .error .outOfFuel := by
  intro n
  induction n with
  | zero => intro s hs; omega
  | succ n ih =>
    intro s hs
    have hreads : Reads E (fun t => parseExpr E n t) := parseExpr_reads E n
    have hterm : ∀ t, t.length ≤ s.length →
        parseTerm E (fun t => parseExpr E n t) n t ≠ .error .outOfFuel :=
      fun t ht => parseTerm_fuel E _ hreads n t (by omega) (fun u hu => ih u (by omega))
    unfold parseExpr
    split
    · rename_i e he
      intro hc
      simp only [Except.error.injEq] at hc
      rw [hc] at he
      exact hterm s (le_refl _) he
    · rename_i left r1 hleft
      have hlt := (parseTerm_reads E _ hreads n).length_lt hleft
      exact exprLoop_fuel E _ (parseTerm_reads E _ hreads n) n left r1 (by omega)
        (fun t ht => hterm t (by omega))

theorem evalExpr_fuel {F : Type} (E : Arith F) (s : String) :
    evalExpr E s ≠ .error .outOfFuel := by
  unfold evalExpr
  split
  · rename_i e he
    intro hc
    simp only [Except.error.injEq] at hc
    rw [hc] at he
    exact parseExpr_fuel E _ s.data (by omega) he
  · split <;> simp

theorem isSpace_not_paren (c : Char) (h : isSpace c = true) :
    c ∉ ['(', ')', '+', '-', '*', '/', '%', '^'] := by
  intro hc
  simp only [List.mem_cons, List.mem_singleton, List.not_mem_nil, or_false] at hc
  rcases hc with hc | hc | hc | hc | hc | hc | hc | hc <;>
    (subst hc; exact absurd h (by decide))

theorem Expression.balanced {F : Type} {E : Arith F} (hE : E.Regular) {x : List Char}
    (h : Expression E x) : x.count '(' = x.count ')' := by
  have hname : ∀ name : List Char, (∀ c ∈ name, nameChar E c = true) →
      name.count '(' = 0 ∧ name.count ')' = 0 := by
    intro name hall
    constructor <;>
    · rw [List.count_eq_zero]
      intro hm
      have h1 := hall _ hm
      simp only [nameChar, Bool.or_eq_true, decide_eq_true_eq] at h1
      rcases h1 with (h1 | h1) | h1
      · exact (hE.apart _ (Or.inl h1)).2 (by simp)
      · exact (hE.apart _ (Or.inr h1)).2 (by simp)
      · exact absurd h1 (by decide)
  have hspace : ∀ sp : List Char, (∀ c ∈ sp, isSpace c = true) →
      sp.count '(' = 0 ∧ sp.count ')' = 0 := by
    intro sp hall
    constructor <;>
    · rw [List.count_eq_zero]
      intro hm
      exact absurd (hall _ hm) (by decide)
  induction h with
  | number num v _ hchars _ =>
    have : num.count '(' = 0 ∧ num.count ')' = 0 := by
      constructor <;>
      · rw [List.count_eq_zero]
        intro hm
        rcases hchars _ hm with h1 | h1
        · exact (hE.apart _ (Or.inr h1)).2 (by simp)
        · exact absurd h1 (by decide)
    omega
  | const name v _ hall _ =>
    have := hname name hall
    omega
  | call name sp inner _ hall _ hsp _ ih =>
    have h1 := hname name hall
    have h2 := hspace sp hsp
    simp only [List.count_append, List.count_cons_self, List.count_cons, List.count_nil]
    simp
    omega
  | paren inner _ ih =>
    simp only [List.count_append, List.count_cons_self, List.count_cons, List.count_nil]
    simp
    omega
  | sign c x hc _ ih =>
    rcases hc with hc | hc <;> subst hc <;> simpa [List.count_cons] using ih
  | binary x op y hop _ _ ih1 ih2 =>
    simp only [binaryOperators, List.mem_cons, List.mem_singleton, List.not_mem_nil,
      or_false] at hop
    rcases hop with hop | hop | hop | hop | hop | hop <;> subst hop <;>
      simp [List.count_cons, ih1, ih2]
  | spaceBefore c x hc _ ih =>
    have := hspace [c] (by simpa using hc)
    simp only [List.count_cons, List.count_nil] at this
    simp only [List.count_cons]
    omega
  | spaceAfter x c hc _ ih =>
    have := hspace [c] (by simpa using hc)
    simp only [List.count_append]
    omega

theorem Expression.ends_visible {F : Type} {E : Arith F} (hE : E.Regular) {x : List Char}
    (h : Expression E x) :
    ∃ pre c sp, x = pre ++ c :: sp ∧ (∀ d ∈ sp, isSpace d = true) ∧ isSpace c = false ∧
      c ∉ binaryOperators ∧ c ≠ '(' := by
  have hlast : ∀ (l : List Char), l ≠ [] →
      (∀ c ∈ l, isSpace c = false ∧ c ∉ binaryOperators ∧ c ≠ '(') →
      ∃ pre c sp, l = pre ++ c :: sp ∧ (∀ d ∈ sp, isSpace d = true) ∧ isSpace c = false ∧
        c ∉ binaryOperators ∧ c ≠ '(' := by
    intro l hl hall
    refine ⟨l.dropLast, l.getLast hl, [], ?_, by simp, hall _ (List.getLast_mem hl)⟩
    simpa using (List.dropLast_append_getLast hl).symm
  have hapart : ∀ c, E.isLetter c = true ∨ E.isDigit c = true →
      isSpace c = false ∧ c ∉ binaryOperators ∧ c ≠ '(' := by
    intro c hc
    have h1 := hE.apart c hc
    refine ⟨h1.1, ?_, ?_⟩
    · intro hm
      apply h1.2
      simp only [binaryOperators, List.mem_cons, List.mem_singleton, List.not_mem_nil,
        or_false] at hm
      rcases hm with hm | hm | hm | hm | hm | hm <;> simp [hm]
    · intro hm
      exact h1.2 (by simp [hm])
  induction h with
  | number num v hne hchars hv =>
    have hsign := hE.no_sign_end num v hv
    refine ⟨num.dropLast, num.getLast hne, [], ?_, by simp, ?_⟩
    · simpa using (List.dropLast_append_getLast hne).symm
    · have hlastq : num.getLast? = some (num.getLast hne) := List.getLast?_eq_getLast _ hne
      rw [hlastq] at hsign
      rcases hchars _ (List.getLast_mem hne) with h1 | h1
      · exact hapart _ (Or.inr h1)
      · simp only [List.mem_cons, List.mem_singleton, List.not_mem_nil, or_false] at h1
        rcases h1 with h1 | h1 | h1 | h1 | h1
        · rw [h1]; decide
        · rw [h1]; decide
        · rw [h1]; decide
        · exact absurd (by rw [h1]) hsign.1
        · exact absurd (by rw [h1]) hsign.2
  | const name v hne hall _ =>
    apply hlast name hne
    intro c hc
    have h1 := hall c hc
    simp only [nameChar, Bool.or_eq_true, decide_eq_true_eq] at h1
    rcases h1 with (h1 | h1) | h1
    · exact hapart _ (Or.inl h1)
    · exact hapart _ (Or.inr h1)
    · rw [h1]; decide
  | call name sp inner _ _ _ _ _ _ =>
    exact ⟨name ++ sp ++ '(' :: inner, ')', [], by simp, by simp, by decide⟩
  | paren inner _ _ =>
    exact ⟨'(' :: inner, ')', [], by simp, by simp, by decide⟩
  | sign ch x _ _ ih =>
    obtain ⟨pre, c, sp, hx, hsp, hc⟩ := ih
    exact ⟨ch :: pre, c, sp, by rw [hx]; simp, hsp, hc⟩
  | binary x op y _ _ _ _ ih =>
    obtain ⟨pre, c, sp, hx, hsp, hc⟩ := ih
    exact ⟨x ++ op :: pre, c, sp, by rw [hx]; simp, hsp, hc⟩
  | spaceBefore ch x _ _ ih =>
    obtain ⟨pre, c, sp, hx, hsp, hc⟩ := ih
    exact ⟨ch :: pre, c, sp, by rw [hx]; simp, hsp, hc⟩
  | spaceAfter x ch hch _ ih =>
    obtain ⟨pre, c, sp, hx, hsp, hc⟩ := ih
    refine ⟨pre, c, sp ++ [ch], by rw [hx]; simp, ?_, hc⟩
    intro d hd
    simp only [List.mem_append, List.mem_singleton] at hd
    rcases hd with hd | hd
    · exact hsp d hd
    · rw [hd]; exact hch

theorem first_visible_unique : ∀ (A B X Y : List Char) (c op : Char),
    (∀ a ∈ A, isSpace a = true) → (∀ b ∈ B, isSpace b = true) → isSpace c = false →
    isSpace op = false → A ++ c :: X = B ++ op :: Y → c = op := by
  intro A
  induction A with
  | nil =>
    intro B X Y c op _ hB hc _ h
    cases B with
    | nil => simp at h; exact h.1
    | cons b B =>
      simp at h
      have := hB b (by simp)
      rw [← h.1, hc] at this
      exact absurd this (by simp)
  | cons a A ih =>
    intro B X Y c op hA hB hc hop h
    cases B with
    | nil =>
      simp at h
      have := hA a (by simp)
      rw [h.1, hop] at this
      exact absurd this (by simp)
    | cons b B =>
      simp at h
      exact ih B X Y c op (fun x hx => hA x (by simp [hx])) (fun x hx => hB x (by simp [hx]))
        hc hop h.2

theorem last_visible_unique (pre t sp sp' : List Char) (c op : Char)
    (hsp : ∀ a ∈ sp, isSpace a = true) (hsp' : ∀ b ∈ sp', isSpace b = true)
    (hc : isSpace c = false) (hop : isSpace op = false)
    (h : pre ++ c :: sp = t ++ op :: sp') : c = op := by
  have h2 := congrArg List.reverse h
  simp only [List.reverse_append, List.reverse_cons, List.append_assoc,
    List.singleton_append] at h2
  exact first_visible_unique sp.reverse sp'.reverse pre.reverse t.reverse c op
    (fun a ha => hsp a (List.mem_reverse.mp ha)) (fun b hb => hsp' b (List.mem_reverse.mp hb))
    hc hop h2

theorem scanNumber_unguarded {F : Type} (E : Arith F) : ∀ (n : Nat) (s : List Char),
    s.length ≤ n → scanNumber (unguarded E) s = scanNumber E s := by
  intro n
  induction n with
  | zero =>
    intro s hs
    have : s = [] := List.length_eq_zero.mp (by omega)
    subst this
    simp [scanNumber]
  | succ n ih =>
    intro s hs
    match s with
    | [] => simp [scanNumber]
    | [c] => unfold scanNumber; rfl
    | c :: d :: s =>
      have h1 := ih (d :: s) (by simp at hs ⊢; omega)
      have h2 := ih s (by simp at hs ⊢; omega)
      unfold scanNumber
      rw [h1, h2]
      rfl

theorem parseNumber_lifts {F : Type} (E : Arith F) :
    Lifts (parseNumber E) (parseNumber (unguarded E)) := by
  intro s v r h
  unfold parseNumber at h ⊢
  rw [scanNumber_unguarded E _ s (le_refl _)]
  split at h
  · rename_i w hw
    have : (unguarded E).parseFloat (scanNumber E s).1 = some (some w) := by
      show (E.parseFloat (scanNumber E s).1).map some = some (some w)
      rw [hw]; rfl
    rw [this]
    simp only [Except.ok.injEq, Prod.mk.injEq] at h ⊢
    exact ⟨by rw [h.1], h.2⟩
  · simp at h

theorem constant_unguarded {F : Type} (E : Arith F) (name : List Char) :
    constant (unguarded E) name = (constant E name).map some := by
  unfold constant
  by_cases h1 : name = "pi".data
  · rw [if_pos h1, if_pos h1]; rfl
  · rw [if_neg h1, if_neg h1]
    by_cases h2 : name = "e".data
    · rw [if_pos h2, if_pos h2]; rfl
    · rw [if_neg h2, if_neg h2]
      by_cases h3 : name = "phi".data
      · rw [if_pos h3, if_pos h3]; rfl
      · rw [if_neg h3, if_neg h3]; rfl

theorem guard_lifts {F : Type} (g : Bool) (e : CalcError) (a v : F)
    (h : (if g = true then (Except.error e : Except CalcError F) else .ok a) = .ok v) :
    (if false = true then (Except.error e : Except CalcError (Option F))
      else .ok (if g = true then none else some a)) = .ok (some v) := by
  cases g with
  | true => simp at h
  | false => simp at h ⊢; exact h

theorem callFunction_lifts {F : Type} (E : Arith F) (name : List Char) (arg v : F)
    (h : callFunction E name arg = .ok v) :
    callFunction (unguarded E) name (some arg) = .ok (some v) := by
  have hplain : ∀ (a : F), (Except.ok a : Except CalcError F) = .ok v →
      (Except.ok (some a) : Except CalcError (Option F)) = .ok (some v) := by
    intro a ha
    simp only [Except.ok.injEq] at ha
    rw [ha]
  unfold callFunction at h ⊢
  by_cases h1 : name = "sqrt".data
  · rw [if_pos h1] at h ⊢; exact guard_lifts _ _ _ _ h
  rw [if_neg h1] at h ⊢
  by_cases h2 : name = "abs".data
  · rw [if_pos h2] at h ⊢; exact hplain _ h
  rw [if_neg h2] at h ⊢
  by_cases h3 : name = "floor".data
  · rw [if_pos h3] at h ⊢; exact hplain _ h
  rw [if_neg h3] at h ⊢
  by_cases h4 : name = "ceil".data
  · rw [if_pos h4] at h ⊢; exact hplain _ h
  rw [if_neg h4] at h ⊢
  by_cases h5 : name = "round".data
  · rw [if_pos h5] at h ⊢; exact hplain _ h
  rw [if_neg h5] at h ⊢
  by_cases h6 : name = "sin".data
  · rw [if_pos h6] at h ⊢; exact hplain _ h
  rw [if_neg h6] at h ⊢
  by_cases h7 : name = "cos".data
  · rw [if_pos h7] at h ⊢; exact hplain _ h
  rw [if_neg h7] at h ⊢
  by_cases h8 : name = "tan".data
  · rw [if_pos h8] at h ⊢; exact hplain _ h
  rw [if_neg h8] at h ⊢
  by_cases h9 : name = "log".data ∨ name = "ln".data
  · rw [if_pos h9] at h ⊢; exact guard_lifts _ _ _ _ h
  rw [if_neg h9] at h ⊢
  by_cases h10 : name = "log2".data
  · rw [if_pos h10] at h ⊢; exact guard_lifts _ _ _ _ h
  rw [if_neg h10] at h ⊢
  by_cases h11 : name = "log10".data
  · rw [if_pos h11] at h ⊢; exact guard_lifts _ _ _ _ h
  rw [if_neg h11] at h ⊢
  by_cases h12 : name = "exp".data
  · rw [if_pos h12] at h ⊢; exact hplain _ h
  rw [if_neg h12] at h
  simp at h

theorem parseNamedToken_lifts {F : Type} (E : Arith F) (expr : List Char → Step F)
    (expr' : List Char → Step (Option F)) (hl : Lifts expr expr') :
    Lifts (parseNamedToken E expr) (parseNamedToken (unguarded E) expr') := by
  intro s v r h
  unfold parseNamedToken at h ⊢
  simp only at h ⊢
  have hn : nameChar (unguarded E) = nameChar E := rfl
  have ht : (unguarded E).toLower = E.toLower := rfl
  rw [hn, ht, constant_unguarded]
  split at h
  · rename_i w hw
    rw [hw]
    simp only [Option.map_some', Except.ok.injEq, Prod.mk.injEq] at h ⊢
    exact ⟨by rw [h.1], h.2⟩
  · rename_i hw
    rw [hw]
    simp only [Option.map_none']
    split at h
    · simp at h
    · rename_i c r1 hsk
      try rw [hsk]
      try simp only
      by_cases hc : c = '('
      · rw [if_pos hc] at h ⊢
        split at h
        · simp at h
        · rename_i arg r2 harg
          rw [hl r1 arg r2 harg]
          try simp only
          split at h
          · simp at h
          · rename_i d r3 hsk2
            try rw [hsk2]
            try simp only
            by_cases hd : d = ')'
            · rw [if_pos hd] at h ⊢
              split at h
              · simp at h
              · rename_i w hw2
                rw [callFunction_lifts E _ arg w hw2]
                simp only [Except.ok.injEq, Prod.mk.injEq] at h ⊢
                exact ⟨by rw [h.1], h.2⟩
            · rw [if_neg hd] at h; simp at h
      · rw [if_neg hc] at h; simp at h

theorem parsePrimary_lifts {F : Type} (E : Arith F) (expr : List Char → Step F)
    (expr' : List Char → Step (Option F)) (hl : Lifts expr expr') :
    Lifts (parsePrimary E expr) (parsePrimary (unguarded E) expr') := by
  intro s v r h
  unfold parsePrimary at h ⊢
  split at h
  · simp at h
  · rename_i ch rest hsk
    try rw [hsk]
    try simp only
    by_cases h1 : ch = '('
    · rw [if_pos h1] at h ⊢
      split at h
      · simp at h
      · rename_i w r2 hw
        rw [hl rest w r2 hw]
        try simp only
        split at h
        · simp at h
        · rename_i d r3 hsk2
          try rw [hsk2]
          try simp only
          by_cases hd : d = ')'
          · rw [if_pos hd] at h ⊢
            simp only [Except.ok.injEq, Prod.mk.injEq] at h ⊢
            exact ⟨by rw [h.1], h.2⟩
          · rw [if_neg hd] at h; simp at h
    · rw [if_neg h1] at h ⊢
      have hlet : (unguarded E).isLetter = E.isLetter := rfl
      have hdig : (unguarded E).isDigit = E.isDigit := rfl
      rw [hlet, hdig]
      by_cases h2 : E.isLetter ch = true
      · rw [if_pos h2] at h ⊢
        exact parseNamedToken_lifts E expr expr' hl _ v r h
      · rw [if_neg h2] at h ⊢
        by_cases h3 : E.isDigit ch = true ∨ ch = '.'
        · rw [if_pos h3] at h ⊢
          exact parseNumber_lifts E _ v r h
        · rw [if_neg h3] at h; simp at h

theorem parseUnary_lifts {F : Type} (E : Arith F) (expr : List Char → Step F)
    (expr' : List Char → Step (Option F)) (hl : Lifts expr expr') :
    ∀ n, Lifts (parseUnary E expr n) (parseUnary (unguarded E) expr' n) := by
  intro n
  induction n with
  | zero => intro s v r h; simp [parseUnary] at h
  | succ n ih =>
    intro s v r h
    unfold parseUnary at h ⊢
    split at h
    · rename_i hsk
      try rw [hsk]
      exact parsePrimary_lifts E expr expr' hl [] v r h
    · rename_i ch rest hsk
      try rw [hsk]
      try simp only
      by_cases h1 : ch = '-'
      · rw [if_pos h1] at h ⊢
        split at h
        · simp at h
        · rename_i w r2 hw
          rw [ih rest w r2 hw]
          simp only [Except.ok.injEq, Prod.mk.injEq] at h ⊢
          exact ⟨by rw [← h.1]; rfl, h.2⟩
      · rw [if_neg h1] at h ⊢
        by_cases h2 : ch = '+'
        · rw [if_pos h2] at h ⊢
          exact ih rest v r h
        · rw [if_neg h2] at h ⊢
          exact parsePrimary_lifts E expr expr' hl _ v r h

theorem parsePower_lifts {F : Type} (E : Arith F) (expr : List Char → Step F)
    (expr' : List Char → Step (Option F)) (hl : Lifts expr expr') :
    ∀ n, Lifts (parsePower E expr n) (parsePower (unguarded E) expr' n) := by
  intro n
  induction n with
  | zero => intro s v r h; simp [parsePower] at h
  | succ n ih =>
    intro s v r h
    unfold parsePower at h ⊢
    split at h
    · simp at h
    · rename_i base r1 hbase
      rw [parseUnary_lifts E expr expr' hl n s base r1 hbase]
      try simp only
      split at h
      · rename_i hsk
        try rw [hsk]
        simp only [Except.ok.injEq, Prod.mk.injEq] at h ⊢
        exact ⟨by rw [h.1], h.2⟩
      · rename_i ch rest hsk
        try rw [hsk]
        try simp only
        by_cases h1 : ch = '^'
        · rw [if_pos h1] at h ⊢
          split at h
          · simp at h
          · rename_i ex r2 hex
            rw [ih rest ex r2 hex]
            simp only [Except.ok.injEq, Prod.mk.injEq] at h ⊢
            exact ⟨by rw [← h.1]; rfl, h.2⟩
        · rw [if_neg h1] at h ⊢
          simp only [Except.ok.injEq, Prod.mk.injEq] at h ⊢
          exact ⟨by rw [h.1], h.2⟩

theorem termLoop_lifts {F : Type} (E : Arith F) (power : List Char → Step F)
    (power' : List Char → Step (Option F)) (hl : Lifts power power') :
    ∀ (n : Nat) (left : F) (s : List Char) (v : F) (r : List Char),
      termLoop E power n left s = .ok (v, r) →
      termLoop (unguarded E) power' n (some left) s = .ok (some v, r) := by
  intro n
  induction n with
  | zero => intro left s v r h; simp [termLoop] at h
  | succ n ih =>
    intro left s v r h
    unfold termLoop at h ⊢
    split at h
    · rename_i hsk
      try rw [hsk]
      simp only [Except.ok.injEq, Prod.mk.injEq] at h ⊢
      exact ⟨by rw [h.1], h.2⟩
    · rename_i ch rest hsk
      try rw [hsk]
      try simp only
      by_cases h1 : ch = '*' ∨ ch = '/' ∨ ch = '%'
      · rw [if_pos h1] at h ⊢
        split at h
        · simp at h
        · rename_i right r1 hright
          rw [hl rest right r1 hright]
          try simp only
          have hz : (unguarded E).isZero (some right) = false := rfl
          rw [hz]
          by_cases h2 : ch = '*'
          · rw [if_pos h2] at h ⊢
            exact ih _ r1 v r h
          · rw [if_neg h2] at h ⊢
            by_cases h3 : ch = '/'
            · rw [if_pos h3] at h ⊢
              by_cases h4 : E.isZero right = true
              · rw [if_pos h4] at h; simp at h
              · rw [if_neg h4] at h
                have hd : (unguarded E).div (some left) (some right)
                    = some (E.div left right) := by
                  show (if E.isZero right = true then none else some (E.div left right)) = _
                  rw [if_neg h4]
                rw [hd]
                simpa using ih _ r1 v r h
            · rw [if_neg h3] at h ⊢
              by_cases h4 : E.isZero right = true
              · rw [if_pos h4] at h; simp at h
              · rw [if_neg h4] at h
                have hd : (unguarded E).mod (some left) (some right)
                    = some (E.mod left right) := by
                  show (if E.isZero right = true then none else some (E.mod left right)) = _
                  rw [if_neg h4]
                rw [hd]
                simpa using ih _ r1 v r h
      · rw [if_neg h1] at h ⊢
        simp only [Except.ok.injEq, Prod.mk.injEq] at h ⊢
        exact ⟨by rw [h.1], h.2⟩

theorem parseTerm_lifts {F : Type} (E : Arith F) (expr : List Char → Step F)
    (expr' : List Char → Step (Option F)) (hl : Lifts expr expr') (n : Nat) :
    Lifts (parseTerm E expr n) (parseTerm (unguarded E) expr' n) := by
  intro s v r h
  unfold parseTerm at h ⊢
  split at h
  · simp at h
  · rename_i left r1 hleft
    rw [parsePower_lifts E expr expr' hl n s left r1 hleft]
    exact termLoop_lifts E _ _ (parsePower_lifts E expr expr' hl n) n left r1 v r h

theorem exprLoop_lifts {F : Type} (E : Arith F) (term : List Char → Step F)
    (term' : List Char → Step (Option F)) (hl : Lifts term term') :
    ∀ (n : Nat) (left : F) (s : List Char) (v : F) (r : List Char),
      exprLoop E term n left s = .ok (v, r) →
      exprLoop (unguarded E) term' n (some left) s = .ok (some v, r) := by
  intro n
  induction n with
  | zero => intro left s v r h; simp [exprLoop] at h
  | succ n ih =>
    intro left s v r h
    unfold exprLoop at h ⊢
    split at h
    · rename_i hsk
      try rw [hsk]
      simp only [Except.ok.injEq, Prod.mk.injEq] at h ⊢
      exact ⟨by rw [h.1], h.2⟩
    · rename_i ch rest hsk
      try rw [hsk]
      try simp only
      by_cases h1 : ch = '+' ∨ ch = '-'
      · rw [if_pos h1] at h ⊢
        split at h
        · simp at h
        · rename_i right r1 hright
          rw [hl rest right r1 hright]
          try simp only
          by_cases h2 : ch = '+'
          · rw [if_pos h2] at h ⊢
            exact ih _ r1 v r h
          · rw [if_neg h2] at h ⊢
            exact ih _ r1 v r h
      · rw [if_neg h1] at h ⊢
        simp only [Except.ok.injEq, Prod.mk.injEq] at h ⊢
        exact ⟨by rw [h.1], h.2⟩

theorem parseExpr_lifts {F : Type} (E : Arith F) :
    ∀ n, Lifts (parseExpr E n) (parseExpr (unguarded E) n) := by
  intro n
  induction n with
  | zero => intro s v r h; simp [parseExpr] at h
  | succ n ih =>
    intro s v r h
    unfold parseExpr at h ⊢
    have hterm : Lifts (parseTerm E (fun t => parseExpr E n t) n)
        (parseTerm (unguarded E) (fun t => parseExpr (unguarded E) n t) n) :=
      parseTerm_lifts E _ _ ih n
    split at h
    · simp at h
    · rename_i left r1 hleft
      rw [hterm s left r1 hleft]
      exact exprLoop_lifts E _ _ hterm n left r1 v r h

theorem evalExpr_lifts {F : Type} (E : Arith F) (s : String) (v : F)
    (h : evalExpr E s = .ok v) : evalExpr (unguarded E) s = .ok (some v) := by
  unfold evalExpr at h ⊢
  split at h
  · simp at h
  · rename_i result r hres
    rw [parseExpr_lifts E _ s.data result r hres]
    try simp only
    split at h
    · rename_i hsk
      try rw [hsk]
      simp only [Except.ok.injEq] at h ⊢
      rw [h]
    · simp at h

theorem ascii_apart (c : Char) (h : asciiLetter c = true ∨ asciiDigit c = true) :
    isSpace c = false ∧ c ∉ ['(', ')', '+', '-', '*', '/', '%', '^'] := by
  have hb : (48 ≤ c.toNat ∧ c.toNat ≤ 57) ∨ (97 ≤ c.toNat ∧ c.toNat ≤ 122) ∨
      (65 ≤ c.toNat ∧ c.toNat ≤ 90) := by
    simp only [asciiLetter, asciiDigit, decide_eq_true_eq] at h
    omega
  constructor
  · by_contra hsp
    simp only [Bool.not_eq_false] at hsp
    simp only [isSpace, Bool.or_eq_true, decide_eq_true_eq, Bool.and_eq_true] at hsp
    rcases hsp with ((((((((((((((hc | hc) | hc) | hc) | hc) | hc) | hc) | hc) | hc) | hc)
      | hc) | hc) | hc) | hc) | hc)
    all_goals first
      | (subst hc; revert hb; decide)
      | omega
  · intro hc
    simp only [List.mem_cons, List.mem_singleton, List.not_mem_nil, or_false] at hc
    rcases hc with hc | hc | hc | hc | hc | hc | hc | hc <;>
      (subst hc; revert hb; decide)

theorem wholeArith_regular : wholeArith.Regular where
  apart := ascii_apart
  dot_not_letter := by decide
  digit_not_letter := by
    intro c h
    simp only [wholeArith, asciiLetter, asciiDigit, decide_eq_true_eq,
      decide_eq_false_iff_not] at h ⊢
    omega
  no_sign_end := by
    intro num v h
    have h1 : ∃ w, wholeValue num = some w := by
      cases hw : wholeValue num with
      | none =>
        have : wholeArith.parseFloat num = none := by
          show (wholeValue num).map Int.ofNat = none
          rw [hw]; rfl
        rw [this] at h
        exact absurd h (by simp)
      | some w => exact ⟨w, rfl⟩
    obtain ⟨w, hw⟩ := h1
    unfold wholeValue at hw
    split_ifs at hw with hc
    obtain ⟨hne, hall⟩ := hc
    have hd := List.all_eq_true.mp hall _ (List.getLast_mem hne)
    rw [List.getLast?_eq_getLast _ hne]
    constructor <;>
    · intro hq
      simp only [Option.some.injEq] at hq
      rw [hq] at hd
      exact absurd hd (by decide)

theorem scanNumber_stop {F : Type} (E : Arith F) (rest : List Char) (h : Stops E rest) :
    scanNumber E rest = ([], rest) := by
  rcases h with h | ⟨t, r, h, hd, ht⟩
  · subst h; simp [scanNumber]
  · subst h
    simp only [List.mem_cons, List.mem_singleton, List.not_mem_nil, or_false, not_or] at ht
    have hno : ¬ (E.isDigit t = true ∨ t = '.' ∨ t = 'e' ∨ t = 'E') := by
      rw [hd]; simp [ht.1, ht.2.1, ht.2.2.1]
    cases r with
    | nil => unfold scanNumber; rw [if_neg hno]
    | cons d r => unfold scanNumber; rw [if_neg hno]

theorem scanNumber_literal {F : Type} (E : Arith F) (rest : List Char) (hrest : Stops E rest) :
    ∀ (n : Nat) (lit : List Char), lit.length ≤ n → scanNumber E lit = (lit, []) →
      scanNumber E (lit ++ rest) = (lit, rest) := by
  intro n
  induction n with
  | zero =>
    intro lit hl _
    have : lit = [] := List.length_eq_zero.mp (by omega)
    subst this
    simpa using scanNumber_stop E rest hrest
  | succ n ih =>
    intro lit hl h
    match lit with
    | [] => simpa using scanNumber_stop E rest hrest
    | [c] =>
      unfold scanNumber at h
      by_cases hc : E.isDigit c = true ∨ c = '.' ∨ c = 'e' ∨ c = 'E'
      · rcases hrest with hr | ⟨t, r, hr, hd, ht⟩
        · subst hr
          unfold scanNumber
          simp [hc]
        · subst hr
          have h2 := scanNumber_stop E (t :: r) (Or.inr ⟨t, r, rfl, hd, ht⟩)
          simp only [List.mem_cons, List.mem_singleton, List.not_mem_nil, or_false,
            not_or] at ht
          have hsign : ¬ ((c = 'e' ∨ c = 'E') ∧ (t = '+' ∨ t = '-')) := by
            rintro ⟨_, h3 | h3⟩
            · exact ht.2.2.2.1 h3
            · exact ht.2.2.2.2 h3
          show scanNumber E (c :: t :: r) = _
          unfold scanNumber
          rw [if_pos hc, if_neg hsign, h2]
      · rw [if_neg hc] at h
        simp at h
    | c :: d :: s =>
      unfold scanNumber at h
      by_cases hc : E.isDigit c = true ∨ c = '.' ∨ c = 'e' ∨ c = 'E'
      · rw [if_pos hc] at h
        show scanNumber E (c :: d :: (s ++ rest)) = _
        unfold scanNumber
        rw [if_pos hc]
        by_cases hs : (c = 'e' ∨ c = 'E') ∧ (d = '+' ∨ d = '-')
        · rw [if_pos hs] at h ⊢
          simp only [Prod.mk.injEq, List.cons.injEq, true_and] at h
          have h3 : scanNumber E s = (s, []) := Prod.ext h.1 h.2
          rw [ih s (by simp at hl; omega) h3]
        · rw [if_neg hs] at h ⊢
          simp only [Prod.mk.injEq, List.cons.injEq, true_and] at h
          have h3 : scanNumber E (d :: s) = (d :: s, []) := Prod.ext h.1 h.2
          have h4 := ih (d :: s) (by simp at hl ⊢; omega) h3
          simp only [List.cons_append] at h4
          rw [h4]
      · rw [if_neg hc] at h
        simp at h

theorem skipSpaces_nil : skipSpaces [] = [] := rfl

theorem skipSpaces_cons_space (c : Char) (s : List Char) (h : isSpace c = true) :
    skipSpaces (c :: s) = skipSpaces s := by
  simp [skipSpaces, List.dropWhile_cons, h]

theorem skipSpaces_cons_visible (c : Char) (s : List Char) (h : isSpace c = false) :
    skipSpaces (c :: s) = c :: s := by
  simp [skipSpaces, List.dropWhile_cons, h]

theorem IsLiteral.head {F : Type} {E : Arith F} (hE : E.Regular) {lit : List Char} {v : F}
    (h : IsLiteral E lit v) :
    ∃ c cs, lit = c :: cs ∧ (E.isDigit c = true ∨ c = '.') ∧ isSpace c = false ∧
      E.isLetter c = false ∧ c ≠ '(' ∧ c ≠ '-' ∧ c ≠ '+' := by
  obtain ⟨⟨c, cs, hl, hc⟩, _, _⟩ := h
  refine ⟨c, cs, hl, hc, ?_⟩
  rcases hc with hc | hc
  · have h1 := hE.apart c (Or.inr hc)
    refine ⟨h1.1, hE.digit_not_letter c hc, ?_, ?_, ?_⟩ <;>
    · intro hq
      exact h1.2 (by simp [hq])
  · subst hc
    exact ⟨by decide, hE.dot_not_letter, by decide, by decide, by decide⟩

theorem parseUnary_literal {F : Type} (E : Arith F) (hE : E.Regular)
    (expr : List Char → Step F) (n : Nat) (s lit rest : List Char) (v : F)
    (hlit : IsLiteral E lit v) (hrest : Stops E rest) (hs : skipSpaces s = lit ++ rest) :
    parseUnary E expr (n + 1) s = .ok (v, rest) := by
  obtain ⟨c, cs, hl, hc, hsp, hlet, h1, h2, h3⟩ := hlit.head hE
  have hscan := scanNumber_literal E rest hrest _ lit (le_refl _) hlit.2.1
  subst hl
  have hs2 : skipSpaces (c :: (cs ++ rest)) = c :: (cs ++ rest) :=
    skipSpaces_cons_visible c _ hsp
  unfold parseUnary
  rw [hs]
  simp only [List.cons_append]
  rw [if_neg h2, if_neg h3]
  unfold parsePrimary
  rw [hs2]
  simp only
  rw [if_neg h1, if_neg (by rw [hlet]; simp), if_pos hc]
  unfold parseNumber
  simp only [List.cons_append] at hscan
  rw [hscan]
  simp only
  rw [hlit.2.2]

theorem parseUnary_neg {F : Type} (E : Arith F) (expr : List Char → Step F) (n : Nat)
    (s rest r : List Char) (v : F) (hs : skipSpaces s = '-' :: rest)
    (h : parseUnary E expr n rest = .ok (v, r)) :
    parseUnary E expr (n + 1) s = .ok (E.neg v, r) := by
  unfold parseUnary
  rw [hs]
  simp only [if_true]
  rw [h]

theorem parsePower_stop {F : Type} (E : Arith F) (expr : List Char → Step F) (n : Nat)
    (s r : List Char) (v : F) (h : parseUnary E expr n s = .ok (v, r))
    (hnext : (skipSpaces r).head? ≠ some '^') :
    parsePower E expr (n + 1) s = .ok (v, skipSpaces r) := by
  unfold parsePower
  rw [h]
  simp only
  cases hr : skipSpaces r with
  | nil => rfl
  | cons ch rest =>
    rw [hr] at hnext
    simp only [List.head?_cons, ne_eq, Option.some.injEq] at hnext
    simp only
    rw [if_neg hnext]

theorem parsePower_pow {F : Type} (E : Arith F) (expr : List Char → Step F) (n : Nat)
    (s r rest r1 : List Char) (base exp : F) (h : parseUnary E expr n s = .ok (base, r))
    (hr : skipSpaces r = '^' :: rest) (hexp : parsePower E expr n rest = .ok (exp, r1)) :
    parsePower E expr (n + 1) s = .ok (E.pow base exp, r1) := by
  unfold parsePower
  rw [h]
  simp only
  rw [hr]
  simp only [if_true]
  rw [hexp]

theorem termLoop_stop {F : Type} (E : Arith F) (power : List Char → Step F) (n : Nat)
    (left : F) (s : List Char)
    (h : ∀ ch ∈ (skipSpaces s).head?, ch ≠ '*' ∧ ch ≠ '/' ∧ ch ≠ '%') :
    termLoop E power (n + 1) left s = .ok (left, skipSpaces s) := by
  unfold termLoop
  cases hr : skipSpaces s with
  | nil => rfl
  | cons ch rest =>
    rw [hr] at h
    have h1 := h ch (by simp)
    simp only
    rw [if_neg (by simp [h1.1, h1.2.1, h1.2.2])]

theorem termLoop_mul {F : Type} (E : Arith F) (power : List Char → Step F) (n : Nat)
    (left right : F) (s rest r : List Char) (hs : skipSpaces s = '*' :: rest)
    (h : power rest = .ok (right, r)) :
    termLoop E power (n + 1) left s = termLoop E power n (E.mul left right) r := by
  rw [termLoop, hs]
  simp [h]

theorem termLoop_div {F : Type} (E : Arith F) (power : List Char → Step F) (n : Nat)
    (left right : F) (s rest r : List Char) (hs : skipSpaces s = '/' :: rest)
    (h : power rest = .ok (right, r)) (hz : E.isZero right = false) :
    termLoop E power (n + 1) left s = termLoop E power n (E.div left right) r := by
  rw [termLoop, hs]
  simp [h, hz]

theorem exprLoop_stop {F : Type} (E : Arith F) (term : List Char → Step F) (n : Nat)
    (left : F) (s : List Char)
    (h : ∀ ch ∈ (skipSpaces s).head?, ch ≠ '+' ∧ ch ≠ '-') :
    exprLoop E term (n + 1) left s = .ok (left, skipSpaces s) := by
  unfold exprLoop
  cases hr : skipSpaces s with
  | nil => rfl
  | cons ch rest =>
    rw [hr] at h
    have h1 := h ch (by simp)
    simp only
    rw [if_neg (by simp [h1.1, h1.2])]

theorem exprLoop_add {F : Type} (E : Arith F) (term : List Char → Step F) (n : Nat)
    (left right : F) (s rest r : List Char) (hs : skipSpaces s = '+' :: rest)
    (h : term rest = .ok (right, r)) :
    exprLoop E term (n + 1) left s = exprLoop E term n (E.add left right) r := by
  rw [exprLoop, hs]
  simp [h]

theorem parseTerm_of {F : Type} (E : Arith F) (expr : List Char → Step F) (n : Nat)
    (s r : List Char) (left : F) (h : parsePower E expr n s = .ok (left, r)) :
    parseTerm E expr n s = termLoop E (parsePower E expr n) n left r := by
  unfold parseTerm
  rw [h]

theorem parseExpr_of {F : Type} (E : Arith F) (n : Nat) (s r : List Char) (left : F)
    (h : parseTerm E (fun t => parseExpr E n t) n s = .ok (left, r)) :
    parseExpr E (n + 1) s
      = exprLoop E (parseTerm E (fun t => parseExpr E n t) n) n left r := by
  rw [parseExpr]
  rw [h]

theorem parseUnary_paren {F : Type} (E : Arith F) (expr : List Char → Step F) (n : Nat)
    (s rest r r1 : List Char) (v : F) (hs : skipSpaces s = '(' :: rest)
    (h : expr rest = .ok (v, r)) (hr : skipSpaces r = ')' :: r1) :
    parseUnary E expr (n + 1) s = .ok (v, r1) := by
  have h1 : ¬ ('(' = '-') := by decide
  have h2 : ¬ ('(' = '+') := by decide
  have h3 : skipSpaces ('(' :: rest) = '(' :: rest := skipSpaces_cons_visible _ _ (by decide)
  unfold parseUnary
  rw [hs]
  simp only
  rw [if_neg h1, if_neg h2]
  unfold parsePrimary
  rw [h3]
  simp only [if_true]
  rw [h]
  simp only
  rw [hr]
  simp only [if_true]

theorem evalExpr_of {F : Type} (E : Arith F) (s : String) (n : Nat) (v : F)
    (hn : s.data.length + 3 = n) (h : parseExpr E n s.data = .ok (v, [])) :
    evalExpr E s = .ok v := by
  unfold evalExpr
  rw [hn, h]
  rfl

theorem stops_nil {F : Type} (E : Arith F) : Stops E [] := Or.inl rfl

theorem stops_space {F : Type} (E : Arith F) (hE : E.Regular) (r : List Char) :
    Stops E (' ' :: r) := by
  refine Or.inr ⟨' ', r, rfl, ?_, by decide⟩
  by_contra h
  simp only [Bool.not_eq_false] at h
  exact absurd (hE.apart ' ' (Or.inr h)).1 (by decide)

theorem stops_close {F : Type} (E : Arith F) (hE : E.Regular) (r : List Char) :
    Stops E (')' :: r) := by
  refine Or.inr ⟨')', r, rfl, ?_, by decide⟩
  by_contra h
  simp only [Bool.not_eq_false] at h
  exact absurd (hE.apart ')' (Or.inr h)).2 (by simp)

theorem skipSpaces_literal {F : Type} (E : Arith F) (hE : E.Regular) (lit rest : List Char)
    (v : F) (hlit : IsLiteral E lit v) : skipSpaces (lit ++ rest) = lit ++ rest := by
  obtain ⟨c, cs, hl, _, hsp, _⟩ := hlit.head hE
  subst hl
  exact skipSpaces_cons_visible c _ hsp

theorem literal_rules {F : Type} (E : Arith F) (hE : E.Regular) (lit : List Char) (v : F)
    (hlit : IsLiteral E lit v) :
    (∀ (expr : List Char → Step F) (n : Nat) (rest : List Char), Stops E rest →
      parseUnary E expr (n + 1) (lit ++ rest) = .ok (v, rest)) ∧
    (∀ (expr : List Char → Step F) (n : Nat) (rest : List Char), Stops E rest →
      parseUnary E expr (n + 1) (' ' :: (lit ++ rest)) = .ok (v, rest)) ∧
    (∀ (expr : List Char → Step F) (n : Nat), parseUnary E expr (n + 1) lit = .ok (v, [])) ∧
    (∀ (expr : List Char → Step F) (n : Nat),
      parseUnary E expr (n + 1) (' ' :: lit) = .ok (v, [])) := by
  have hsp : ∀ s, skipSpaces (' ' :: s) = skipSpaces s :=
    fun s => skipSpaces_cons_space ' ' s (by decide)
  refine ⟨?_, ?_, ?_, ?_⟩
  · intro expr n rest hrest
    exact parseUnary_literal E hE expr n _ lit rest v hlit hrest
      (skipSpaces_literal E hE lit rest v hlit)
  · intro expr n rest hrest
    exact parseUnary_literal E hE expr n _ lit rest v hlit hrest
      (by rw [hsp]; exact skipSpaces_literal E hE lit rest v hlit)
  · intro expr n
    have := parseUnary_literal E hE expr n (lit ++ []) lit [] v hlit (stops_nil E)
      (skipSpaces_literal E hE lit [] v hlit)
    simpa using this
  · intro expr n
    have := parseUnary_literal E hE expr n (' ' :: (lit ++ [])) lit [] v hlit (stops_nil E)
      (by rw [hsp]; exact skipSpaces_literal E hE lit [] v hlit)
    simpa using this

theorem skipSpaces_space_visible (op : Char) (s : List Char) (h : isSpace op = false) :
    skipSpaces (' ' :: op :: s) = op :: s := by
  rw [skipSpaces_cons_space _ _ (by decide), skipSpaces_cons_visible _ _ h]

theorem parsePower_stop_at {F : Type} (E : Arith F) (expr : List Char → Step F) (n : Nat)
    (s r r1 : List Char) (v : F) (h : parseUnary E expr n s = .ok (v, r))
    (hr : skipSpaces r = r1) (hnext : r1.head? ≠ some '^') :
    parsePower E expr (n + 1) s = .ok (v, r1) := by
  subst hr
  exact parsePower_stop E expr n s r v h hnext

theorem parseTerm_stop_at {F : Type} (E : Arith F) (expr : List Char → Step F) (n : Nat)
    (s r : List Char) (v : F) (h : parsePower E expr (n + 1) s = .ok (v, r))
    (hr : skipSpaces r = r) (hnext : ∀ ch ∈ r.head?, ch ≠ '*' ∧ ch ≠ '/' ∧ ch ≠ '%') :
    parseTerm E expr (n + 1) s = .ok (v, r) := by
  rw [parseTerm_of E expr (n + 1) s r v h, termLoop_stop E _ n v r (by rw [hr]; exact hnext), hr]

theorem sum_product {F : Type} (E : Arith F) (hE : E.Regular) (a b c : List Char)
    (va vb vc : F) (ha : IsLiteral E a va) (hb : IsLiteral E b vb) (hc : IsLiteral E c vc)
    (n : Nat) :
    parseExpr E (n + 6) (a ++ ' ' :: '+' :: ' ' :: (b ++ ' ' :: '*' :: ' ' :: c))
      = .ok (E.add va (E.mul vb vc), []) := by
  obtain ⟨a1, -, -, -⟩ := literal_rules E hE a va ha
  obtain ⟨-, b2, -, -⟩ := literal_rules E hE b vb hb
  obtain ⟨-, -, -, c4⟩ := literal_rules E hE c vc hc
  have pa : parsePower E (fun t => parseExpr E (n + 5) t) (n + 5)
      (a ++ ' ' :: '+' :: ' ' :: (b ++ ' ' :: '*' :: ' ' :: c))
      = .ok (va, '+' :: ' ' :: (b ++ ' ' :: '*' :: ' ' :: c)) :=
    parsePower_stop_at E _ (n + 4) _ _ _ va (a1 _ (n + 3) _ (stops_space E hE _))
      (skipSpaces_space_visible '+' _ (by decide)) (by simp)
  have ta := parseTerm_stop_at E _ (n + 4) _ _ va pa
    (skipSpaces_cons_visible _ _ (by decide)) (by simp)
  have pb : parsePower E (fun t => parseExpr E (n + 5) t) (n + 5)
      (' ' :: (b ++ ' ' :: '*' :: ' ' :: c)) = .ok (vb, '*' :: ' ' :: c) :=
    parsePower_stop_at E _ (n + 4) _ _ _ vb (b2 _ (n + 3) _ (stops_space E hE _))
      (skipSpaces_space_visible '*' _ (by decide)) (by simp)
  have pc : parsePower E (fun t => parseExpr E (n + 5) t) (n + 5) (' ' :: c)
      = .ok (vc, []) :=
    parsePower_stop_at E _ (n + 4) _ _ _ vc (c4 _ (n + 3)) skipSpaces_nil (by simp)
  have tb : parseTerm E (fun t => parseExpr E (n + 5) t) (n + 5)
      (' ' :: (b ++ ' ' :: '*' :: ' ' :: c)) = .ok (E.mul vb vc, []) := by
    rw [parseTerm_of E _ (n + 5) _ _ vb pb,
      termLoop_mul E _ (n + 4) vb vc _ _ _ (skipSpaces_cons_visible _ _ (by decide)) pc,
      termLoop_stop E _ (n + 3) _ [] (by simp [skipSpaces_nil])]
    rfl
  rw [parseExpr_of E (n + 5) _ _ va ta,
    exprLoop_add E _ (n + 4) va _ _ _ _ (skipSpaces_cons_visible _ _ (by decide)) tb,
    exprLoop_stop E _ (n + 3) _ [] (by simp [skipSpaces_nil])]
  rfl

theorem sum_before_close {F : Type} (E : Arith F) (hE : E.Regular) (a b r : List Char)
    (va vb : F) (ha : IsLiteral E a va) (hb : IsLiteral E b vb) (n : Nat) :
    parseExpr E (n + 6) (a ++ ' ' :: '+' :: ' ' :: (b ++ ')' :: r))
      = .ok (E.add va vb, ')' :: r) := by
  obtain ⟨a1, -, -, -⟩ := literal_rules E hE a va ha
  obtain ⟨-, b2, -, -⟩ := literal_rules E hE b vb hb
  have pa : parsePower E (fun t => parseExpr E (n + 5) t) (n + 5)
      (a ++ ' ' :: '+' :: ' ' :: (b ++ ')' :: r))
      = .ok (va, '+' :: ' ' :: (b ++ ')' :: r)) :=
    parsePower_stop_at E _ (n + 4) _ _ _ va (a1 _ (n + 3) _ (stops_space E hE _))
      (skipSpaces_space_visible '+' _ (by decide)) (by simp)
  have ta := parseTerm_stop_at E _ (n + 4) _ _ va pa
    (skipSpaces_cons_visible _ _ (by decide)) (by simp)
  have pb : parsePower E (fun t => parseExpr E (n + 5) t) (n + 5)
      (' ' :: (b ++ ')' :: r)) = .ok (vb, ')' :: r) :=
    parsePower_stop_at E _ (n + 4) _ _ _ vb (b2 _ (n + 3) _ (stops_close E hE _))
      (skipSpaces_cons_visible _ _ (by decide)) (by simp)
  have tb := parseTerm_stop_at E _ (n + 4) _ _ vb pb
    (skipSpaces_cons_visible _ _ (by decide)) (by simp)
  rw [parseExpr_of E (n + 5) _ _ va ta,
    exprLoop_add E _ (n + 4) va _ _ _ _ (skipSpaces_cons_visible _ _ (by decide)) tb,
    exprLoop_stop E _ (n + 3) _ _
      (by rw [skipSpaces_cons_visible _ _ (by decide)]; simp),
    skipSpaces_cons_visible _ _ (by decide)]

theorem group_product {F : Type} (E : Arith F) (hE : E.Regular) (a b c : List Char)
    (va vb vc : F) (ha : IsLiteral E a va) (hb : IsLiteral E b vb) (hc : IsLiteral E c vc)
    (n : Nat) :
    parseExpr E (n + 7) ('(' :: (a ++ ' ' :: '+' :: ' ' :: (b ++ ')' :: ' ' :: '*' :: ' ' :: c)))
      = .ok (E.mul (E.add va vb) vc, []) := by
  obtain ⟨-, -, -, c4⟩ := literal_rules E hE c vc hc
  have inner := sum_before_close E hE a b (' ' :: '*' :: ' ' :: c) va vb ha hb n
  have ug : parseUnary E (fun t => parseExpr E (n + 6) t) (n + 5)
      ('(' :: (a ++ ' ' :: '+' :: ' ' :: (b ++ ')' :: ' ' :: '*' :: ' ' :: c)))
      = .ok (E.add va vb, ' ' :: '*' :: ' ' :: c) :=
    parseUnary_paren E _ (n + 4) _ _ _ _ _ (skipSpaces_cons_visible _ _ (by decide)) inner
      (skipSpaces_cons_visible _ _ (by decide))
  have pg : parsePower E (fun t => parseExpr E (n + 6) t) (n + 6)
      ('(' :: (a ++ ' ' :: '+' :: ' ' :: (b ++ ')' :: ' ' :: '*' :: ' ' :: c)))
      = .ok (E.add va vb, '*' :: ' ' :: c) :=
    parsePower_stop_at E _ (n + 5) _ _ _ _ ug
      (skipSpaces_space_visible '*' _ (by decide)) (by simp)
  have pc : parsePower E (fun t => parseExpr E (n + 6) t) (n + 6) (' ' :: c)
      = .ok (vc, []) :=
    parsePower_stop_at E _ (n + 5) _ _ _ vc (c4 _ (n + 4)) skipSpaces_nil (by simp)
  have tg : parseTerm E (fun t => parseExpr E (n + 6) t) (n + 6)
      ('(' :: (a ++ ' ' :: '+' :: ' ' :: (b ++ ')' :: ' ' :: '*' :: ' ' :: c)))
      = .ok (E.mul (E.add va vb) vc, []) := by
    rw [parseTerm_of E _ (n + 6) _ _ _ pg,
      termLoop_mul E _ (n + 5) _ vc _ _ _ (skipSpaces_cons_visible _ _ (by decide)) pc,
      termLoop_stop E _ (n + 4) _ [] (by simp [skipSpaces_nil])]
    rfl
  rw [parseExpr_of E (n + 6) _ _ _ tg,
    exprLoop_stop E _ (n + 5) _ [] (by simp [skipSpaces_nil])]
  rfl

theorem quotient_chain {F : Type} (E : Arith F) (hE : E.Regular) (a b c : List Char)
    (va vb vc : F) (ha : IsLiteral E a va) (hb : IsLiteral E b vb) (hc : IsLiteral E c vc)
    (hzb : E.isZero vb = false) (hzc : E.isZero vc = false) (n : Nat) :
    parseExpr E (n + 6) (a ++ ' ' :: '/' :: ' ' :: (b ++ ' ' :: '/' :: ' ' :: c))
      = .ok (E.div (E.div va vb) vc, []) := by
  obtain ⟨a1, -, -, -⟩ := literal_rules E hE a va ha
  obtain ⟨-, b2, -, -⟩ := literal_rules E hE b vb hb
  obtain ⟨-, -, -, c4⟩ := literal_rules E hE c vc hc
  have pa : parsePower E (fun t => parseExpr E (n + 5) t) (n + 5)
      (a ++ ' ' :: '/' :: ' ' :: (b ++ ' ' :: '/' :: ' ' :: c))
      = .ok (va, '/' :: ' ' :: (b ++ ' ' :: '/' :: ' ' :: c)) :=
    parsePower_stop_at E _ (n + 4) _ _ _ va (a1 _ (n + 3) _ (stops_space E hE _))
      (skipSpaces_space_visible '/' _ (by decide)) (by simp)
  have pb : parsePower E (fun t => parseExpr E (n + 5) t) (n + 5)
      (' ' :: (b ++ ' ' :: '/' :: ' ' :: c)) = .ok (vb, '/' :: ' ' :: c) :=
    parsePower_stop_at E _ (n + 4) _ _ _ vb (b2 _ (n + 3) _ (stops_space E hE _))
      (skipSpaces_space_visible '/' _ (by decide)) (by simp)
  have pc : parsePower E (fun t => parseExpr E (n + 5) t) (n + 5) (' ' :: c)
      = .ok (vc, []) :=
    parsePower_stop_at E _ (n + 4) _ _ _ vc (c4 _ (n + 3)) skipSpaces_nil (by simp)
  have ta : parseTerm E (fun t => parseExpr E (n + 5) t) (n + 5)
      (a ++ ' ' :: '/' :: ' ' :: (b ++ ' ' :: '/' :: ' ' :: c))
      = .ok (E.div (E.div va vb) vc, []) := by
    rw [parseTerm_of E _ (n + 5) _ _ va pa,
      termLoop_div E _ (n + 4) va vb _ _ _ (skipSpaces_cons_visible _ _ (by decide)) pb hzb,
      termLoop_div E _ (n + 3) _ vc _ _ _ (skipSpaces_cons_visible _ _ (by decide)) pc hzc,
      termLoop_stop E _ (n + 2) _ [] (by simp [skipSpaces_nil])]
    rfl
  rw [parseExpr_of E (n + 5) _ _ _ ta,
    exprLoop_stop E _ (n + 4) _ [] (by simp [skipSpaces_nil])]
  rfl

theorem power_chain {F : Type} (E : Arith F) (hE : E.Regular) (a b c : List Char)
    (va vb vc : F) (ha : IsLiteral E a va) (hb : IsLiteral E b vb) (hc : IsLiteral E c vc)
    (n : Nat) :
    parseExpr E (n + 6) (a ++ ' ' :: '^' :: ' ' :: (b ++ ' ' :: '^' :: ' ' :: c))
      = .ok (E.pow va (E.pow vb vc), []) := by
  obtain ⟨a1, -, -, -⟩ := literal_rules E hE a va ha
  obtain ⟨-, b2, -, -⟩ := literal_rules E hE b vb hb
  obtain ⟨-, -, -, c4⟩ := literal_rules E hE c vc hc
  have pc : parsePower E (fun t => parseExpr E (n + 5) t) (n + 3) (' ' :: c)
      = .ok (vc, []) :=
    parsePower_stop_at E _ (n + 2) _ _ _ vc (c4 _ (n + 1)) skipSpaces_nil (by simp)
  have pb : parsePower E (fun t => parseExpr E (n + 5) t) (n + 4)
      (' ' :: (b ++ ' ' :: '^' :: ' ' :: c)) = .ok (E.pow vb vc, []) :=
    parsePower_pow E _ (n + 3) _ _ _ _ vb vc (b2 _ (n + 2) _ (stops_space E hE _))
      (skipSpaces_space_visible '^' _ (by decide)) pc
  have pa : parsePower E (fun t => parseExpr E (n + 5) t) (n + 5)
      (a ++ ' ' :: '^' :: ' ' :: (b ++ ' ' :: '^' :: ' ' :: c))
      = .ok (E.pow va (E.pow vb vc), []) :=
    parsePower_pow E _ (n + 4) _ _ _ _ va _ (a1 _ (n + 3) _ (stops_space E hE _))
      (skipSpaces_space_visible '^' _ (by decide)) pb
  have ta := parseTerm_stop_at E _ (n + 4) _ _ _ pa skipSpaces_nil (by simp)
  rw [parseExpr_of E (n + 5) _ _ _ ta,
    exprLoop_stop E _ (n + 4) _ [] (by simp [skipSpaces_nil])]
  rfl

theorem negated_power {F : Type} (E : Arith F) (hE : E.Regular) (a b : List Char)
    (va vb : F) (ha : IsLiteral E a va) (hb : IsLiteral E b vb) (n : Nat) :
    parseExpr E (n + 6) ('-' :: (a ++ ' ' :: '^' :: ' ' :: b))
      = .ok (E.pow (E.neg va) vb, []) := by
  obtain ⟨a1, -, -, -⟩ := literal_rules E hE a va ha
  obtain ⟨-, -, -, b4⟩ := literal_rules E hE b vb hb
  have un : parseUnary E (fun t => parseExpr E (n + 5) t) (n + 4)
      ('-' :: (a ++ ' ' :: '^' :: ' ' :: b)) = .ok (E.neg va, ' ' :: '^' :: ' ' :: b) :=
    parseUnary_neg E _ (n + 3) _ _ _ va (skipSpaces_cons_visible _ _ (by decide))
      (a1 _ (n + 2) _ (stops_space E hE _))
  have pb : parsePower E (fun t => parseExpr E (n + 5) t) (n + 4) (' ' :: b)
      = .ok (vb, []) :=
    parsePower_stop_at E _ (n + 3) _ _ _ vb (b4 _ (n + 2)) skipSpaces_nil (by simp)
  have pa : parsePower E (fun t => parseExpr E (n + 5) t) (n + 5)
      ('-' :: (a ++ ' ' :: '^' :: ' ' :: b)) = .ok (E.pow (E.neg va) vb, []) :=
    parsePower_pow E _ (n + 4) _ _ _ _ _ vb un
      (skipSpaces_space_visible '^' _ (by decide)) pb
  have ta := parseTerm_stop_at E _ (n + 4) _ _ _ pa skipSpaces_nil (by simp)
  rw [parseExpr_of E (n + 5) _ _ _ ta,
    exprLoop_stop E _ (n + 4) _ [] (by simp [skipSpaces_nil])]
  rfl

theorem parseNamedToken_stable {F : Type} (E : Arith F) (expr expr' : List Char → Step F)
    (h : ∀ t, expr t ≠ .error .outOfFuel → expr' t = expr t) (s : List Char)
    (hne : parseNamedToken E expr s ≠ .error .outOfFuel) :
    parseNamedToken E expr' s = parseNamedToken E expr s := by
  unfold parseNamedToken at hne ⊢
  simp only at hne ⊢
  split at hne
  · rfl
  · split at hne
    · rfl
    · rename_i c r1 hsk
      by_cases hc : c = '('
      · rw [if_pos hc] at hne ⊢
        rw [if_pos hc]
        have hx : expr r1 ≠ .error .outOfFuel := by
          intro hx
          rw [hx] at hne
          exact hne rfl
        rw [h r1 hx]
      · rw [if_neg hc, if_neg hc]

theorem parsePrimary_stable {F : Type} (E : Arith F) (expr expr' : List Char → Step F)
    (h : ∀ t, expr t ≠ .error .outOfFuel → expr' t = expr t) (s : List Char)
    (hne : parsePrimary E expr s ≠ .error .outOfFuel) :
    parsePrimary E expr' s = parsePrimary E expr s := by
  unfold parsePrimary at hne ⊢
  split at hne
  · rfl
  · rename_i ch rest hsk
    by_cases h1 : ch = '('
    · rw [if_pos h1] at hne ⊢
      rw [if_pos h1]
      have hx : expr rest ≠ .error .outOfFuel := by
        intro hx
        rw [hx] at hne
        exact hne rfl
      rw [h rest hx]
    · rw [if_neg h1] at hne ⊢
      rw [if_neg h1]
      by_cases h2 : E.isLetter ch = true
      · rw [if_pos h2] at hne ⊢
        rw [if_pos h2]
        exact parseNamedToken_stable E expr expr' h _ hne
      · rw [if_neg h2, if_neg h2]

theorem parseUnary_stable {F : Type} (E : Arith F) (expr expr' : List Char → Step F)
    (h : ∀ t, expr t ≠ .error .outOfFuel → expr' t = expr t) :
    ∀ (n n' : Nat), n ≤ n' → ∀ s, parseUnary E expr n s ≠ .error .outOfFuel →
      parseUnary E expr' n' s = parseUnary E expr n s := by
  intro n
  induction n with
  | zero => intro n' _ s hne; exact absurd rfl hne
  | succ n ih =>
    intro n' hn s hne
    obtain ⟨m, rfl⟩ : ∃ m, n' = m + 1 := ⟨n' - 1, by omega⟩
    unfold parseUnary at hne ⊢
    split at hne
    · exact parsePrimary_stable E expr expr' h _ hne
    · rename_i ch rest hsk
      by_cases h1 : ch = '-'
      · rw [if_pos h1] at hne ⊢
        rw [if_pos h1]
        have hx : parseUnary E expr n rest ≠ .error .outOfFuel := by
          intro hx
          rw [hx] at hne
          exact hne rfl
        rw [ih m (by omega) rest hx]
      · rw [if_neg h1] at hne ⊢
        rw [if_neg h1]
        by_cases h2 : ch = '+'
        · rw [if_pos h2] at hne ⊢
          rw [if_pos h2]
          exact ih m (by omega) rest hne
        · rw [if_neg h2] at hne ⊢
          rw [if_neg h2]
          exact parsePrimary_stable E expr expr' h _ hne

theorem parsePower_stable {F : Type} (E : Arith F) (expr expr' : List Char → Step F)
    (h : ∀ t, expr t ≠ .error .outOfFuel → expr' t = expr t) :
    ∀ (n n' : Nat), n ≤ n' → ∀ s, parsePower E expr n s ≠ .error .outOfFuel →
      parsePower E expr' n' s = parsePower E expr n s := by
  intro n
  induction n with
  | zero => intro n' _ s hne; exact absurd rfl hne
  | succ n ih =>
    intro n' hn s hne
    obtain ⟨m, rfl⟩ : ∃ m, n' = m + 1 := ⟨n' - 1, by omega⟩
    unfold parsePower at hne ⊢
    have hx : parseUnary E expr n s ≠ .error .outOfFuel := by
      intro hx
      rw [hx] at hne
      exact hne rfl
    rw [parseUnary_stable E expr expr' h n m (by omega) s hx]
    split at hne
    · rfl
    · rename_i base r hbase
      split at hne
      · rfl
      · rename_i ch rest hsk
        by_cases h1 : ch = '^'
        · rw [if_pos h1] at hne ⊢
          rw [if_pos h1]
          have hy : parsePower E expr n rest ≠ .error .outOfFuel := by
            intro hy
            rw [hy] at hne
            exact hne rfl
          rw [ih m (by omega) rest hy]
        · rw [if_neg h1, if_neg h1]

theorem termLoop_stable {F : Type} (E : Arith F) (power power' : List Char → Step F)
    (h : ∀ t, power t ≠ .error .outOfFuel → power' t = power t) :
    ∀ (n n' : Nat), n ≤ n' → ∀ (left : F) (s : List Char),
      termLoop E power n left s ≠ .error .outOfFuel →
      termLoop E power' n' left s = termLoop E power n left s := by
  intro n
  induction n with
  | zero => intro n' _ left s hne; exact absurd rfl hne
  | succ n ih =>
    intro n' hn left s hne
    obtain ⟨m, rfl⟩ : ∃ m, n' = m + 1 := ⟨n' - 1, by omega⟩
    unfold termLoop at hne ⊢
    split at hne
    · rfl
    · rename_i ch rest hsk
      by_cases h1 : ch = '*' ∨ ch = '/' ∨ ch = '%'
      · rw [if_pos h1] at hne ⊢
        rw [if_pos h1]
        have hx : power rest ≠ .error .outOfFuel := by
          intro hx
          rw [hx] at hne
          exact hne rfl
        rw [h rest hx]
        split at hne
        · rfl
        · rename_i right r hright
          by_cases h2 : ch = '*'
          · rw [if_pos h2] at hne ⊢
            rw [if_pos h2]
            exact ih m (by omega) _ r hne
          · rw [if_neg h2] at hne ⊢
            rw [if_neg h2]
            by_cases h3 : ch = '/'
            · rw [if_pos h3] at hne ⊢
              rw [if_pos h3]
              by_cases h4 : E.isZero right = true
              · rw [if_pos h4, if_pos h4]
              · rw [if_neg h4] at hne ⊢
                rw [if_neg h4]
                exact ih m (by omega) _ r hne
            · rw [if_neg h3] at hne ⊢
              rw [if_neg h3]
              by_cases h4 : E.isZero right = true
              · rw [if_pos h4, if_pos h4]
              · rw [if_neg h4] at hne ⊢
                rw [if_neg h4]
                exact ih m (by omega) _ r hne
      · rw [if_neg h1, if_neg h1]

theorem parseTerm_stable {F : Type} (E : Arith F) (expr expr' : List Char → Step F)
    (h : ∀ t, expr t ≠ .error .outOfFuel → expr' t = expr t) (n n' : Nat) (hn : n ≤ n')
    (s : List Char) (hne : parseTerm E expr n s ≠ .error .outOfFuel) :
    parseTerm E expr' n' s = parseTerm E expr n s := by
  unfold parseTerm at hne ⊢
  have hx : parsePower E expr n s ≠ .error .outOfFuel := by
    intro hx
    rw [hx] at hne
    exact hne rfl
  rw [parsePower_stable E expr expr' h n n' hn s hx]
  split at hne
  · rfl
  · rename_i left r hleft
    exact termLoop_stable E _ _ (parsePower_stable E expr expr' h n n' hn) n n' hn left r hne

theorem exprLoop_stable {F : Type} (E : Arith F) (term term' : List Char → Step F)
    (h : ∀ t, term t ≠ .error .outOfFuel → term' t = term t) :
    ∀ (n n' : Nat), n ≤ n' → ∀ (left : F) (s : List Char),
      exprLoop E term n left s ≠ .error .outOfFuel →
      exprLoop E term' n' left s = exprLoop E term n left s := by
  intro n
  induction n with
  | zero => intro n' _ left s hne; exact absurd rfl hne
  | succ n ih =>
    intro n' hn left s hne
    obtain ⟨m, rfl⟩ : ∃ m, n' = m + 1 := ⟨n' - 1, by omega⟩
    unfold exprLoop at hne ⊢
    split at hne
    · rfl
    · rename_i ch rest hsk
      by_cases h1 : ch = '+' ∨ ch = '-'
      · rw [if_pos h1] at hne ⊢
        rw [if_pos h1]
        have hx : term rest ≠ .error .outOfFuel := by
          intro hx
          rw [hx] at hne
          exact hne rfl
        rw [h rest hx]
        split at hne
        · rfl
        · rename_i right r hright
          by_cases h2 : ch = '+'
          · rw [if_pos h2] at hne ⊢
            rw [if_pos h2]
            exact ih m (by omega) _ r hne
          · rw [if_neg h2] at hne ⊢
            rw [if_neg h2]
            exact ih m (by omega) _ r hne
      · rw [if_neg h1, if_neg h1]

theorem parseExpr_stable {F : Type} (E : Arith F) :
    ∀ (n n' : Nat), n ≤ n' → ∀ s, parseExpr E n s ≠ .error .outOfFuel →
      parseExpr E n' s = parseExpr E n s := by
  intro n
  induction n with
  | zero => intro n' _ s hne; exact absurd rfl hne
  | succ n ih =>
    intro n' hn s hne
    obtain ⟨m, rfl⟩ : ∃ m, n' = m + 1 := ⟨n' - 1, by omega⟩
    have hexpr : ∀ t, (fun u => parseExpr E n u) t ≠ .error .outOfFuel →
        (fun u => parseExpr E m u) t = (fun u => parseExpr E n u) t :=
      fun t ht => ih m (by omega) t ht
    have hterm : ∀ t, parseTerm E (fun u => parseExpr E n u) n t ≠ .error .outOfFuel →
        parseTerm E (fun u => parseExpr E m u) m t = parseTerm E (fun u => parseExpr E n u) n t :=
      fun t ht => parseTerm_stable E _ _ hexpr n m (by omega) t ht
    unfold parseExpr at hne ⊢
    have hx : parseTerm E (fun u => parseExpr E n u) n s ≠ .error .outOfFuel := by
      intro hx
      rw [hx] at hne
      exact hne rfl
    rw [hterm s hx]
    split at hne
    · rfl
    · rename_i left r hleft
      exact exprLoop_stable E _ _ hterm n m (by omega) left r hne

theorem constant_some_mem {F : Type} (E : Arith F) (name : List Char) (v : F)
    (h : constant E name = some v) : name ∈ ["pi".data, "e".data, "phi".data] := by
  by_contra hn
  simp only [List.mem_cons, List.mem_singleton, not_or, List.not_mem_nil,
    not_false_eq_true, and_true] at hn
  unfold constant at h
  rw [if_neg hn.1, if_neg hn.2.1, if_neg hn.2.2] at h
  exact absurd h (by simp)

theorem parseNamedToken_known {F : Type} (E : Arith F) (expr : List Char → Step F)
    (s : List Char) (v : F) (r : List Char) (h : parseNamedToken E expr s = .ok (v, r)) :
    (s.takeWhile (nameChar E)).map E.toLower
      ∈ ["pi".data, "e".data, "phi".data] ++ functionNames := by
  rw [List.mem_append]
  unfold parseNamedToken at h
  simp only at h
  split at h
  · rename_i w hw
    exact Or.inl (constant_some_mem E _ w hw)
  · split at h
    · simp at h
    · rename_i c r1 hsk
      by_cases hc : c = '('
      · rw [if_pos hc] at h
        split at h
        · simp at h
        · split at h
          · simp at h
          · rename_i d r3 hsk2
            by_cases hd : d = ')'
            · rw [if_pos hd] at h
              split at h
              · simp at h
              · rename_i w hw
                exact Or.inr (callFunction_ok_mem E _ _ w hw)
            · rw [if_neg hd] at h; simp at h
      · rw [if_neg hc] at h; simp at h

theorem parseExpr_starts_unknown {F : Type} (E : Arith F) (hE : E.Regular)
    (n : Nat) (s : List Char) (ch : Char) (rest : List Char)
    (hs : skipSpaces s = ch :: rest) (hch : E.isLetter ch = true)
    (hname : ((ch :: rest).takeWhile (nameChar E)).map E.toLower
      ∉ ["pi".data, "e".data, "phi".data] ++ functionNames)
    (v : F) (r : List Char) : parseExpr E n s ≠ .ok (v, r) := by
  have hap := hE.apart ch (Or.inl hch)
  have h1 : ¬ ch = '-' := fun hq => hap.2 (by simp [hq])
  have h2 : ¬ ch = '+' := fun hq => hap.2 (by simp [hq])
  have h3 : ¬ ch = '(' := fun hq => hap.2 (by simp [hq])
  have hprim : ∀ expr : List Char → Step F, ∀ w q, parsePrimary E expr (ch :: rest) ≠ .ok (w, q) := by
    intro expr w q hq
    unfold parsePrimary at hq
    rw [skipSpaces_cons_visible ch rest hap.1] at hq
    simp only at hq
    rw [if_neg h3, if_pos hch] at hq
    exact hname (parseNamedToken_known E expr _ w q hq)
  have hun : ∀ (expr : List Char → Step F) m w q, parseUnary E expr m s ≠ .ok (w, q) := by
    intro expr m w q hq
    cases m with
    | zero => simp [parseUnary] at hq
    | succ m =>
      rw [parseUnary, hs] at hq
      simp only at hq
      rw [if_neg h1, if_neg h2] at hq
      exact hprim expr w q hq
  have hpow : ∀ (expr : List Char → Step F) m w q, parsePower E expr m s ≠ .ok (w, q) := by
    intro expr m w q hq
    cases m with
    | zero => simp [parsePower] at hq
    | succ m =>
      rw [parsePower] at hq
      split at hq
      · simp at hq
      · rename_i base r1 hbase
        exact hun expr m base r1 hbase
  intro hq
  cases n with
  | zero => simp [parseExpr] at hq
  | succ n =>
    rw [parseExpr] at hq
    split at hq
    · simp at hq
    · rename_i left r1 hleft
      unfold parseTerm at hleft
      split at hleft
      · simp at hleft
      · rename_i l2 r2 hl2
        exact hpow _ n l2 r2 hl2

theorem evalExpr_error_of_not_ok {F : Type} (E : Arith F) (s : String)
    (h : ∀ v, evalExpr E s ≠ .ok v) : ∃ e, evalExpr E s = .error e ∧ e ≠ .outOfFuel := by
  cases hres : evalExpr E s with
  | error e =>
    refine ⟨e, rfl, ?_⟩
    intro he
    rw [he] at hres
    exact evalExpr_fuel E s hres
  | ok v => exact absurd hres (h v)

theorem evalExpr_ok_parseExpr {F : Type} (E : Arith F) (s : String) (v : F)
    (h : evalExpr E s = .ok v) :
    ∃ r, parseExpr E (s.data.length + 3) s.data = .ok (v, r) := by
  unfold evalExpr at h
  split at h
  · simp at h
  · rename_i result r hres
    split at h
    · simp only [Except.ok.injEq] at h
      exact ⟨r, by rw [← h]; exact hres⟩
    · simp at h

theorem evalExpr_of_text {F : Type} (E : Arith F) (l : List Char) (v : F) (k : Nat)
    (hk : k ≤ l.length + 3) (h : ∀ n, parseExpr E (n + k) l = .ok (v, [])) :
    evalExpr E ⟨l⟩ = .ok v :=
  evalExpr_of E ⟨l⟩ (l.length + 3 - k + k) v (by simp only []; omega) (h _)

/-- C30: a unary sign binds tighter than `^`: for all numeric literals `a`
and `b` (a literal has no sign, so its value is never negative),
`evalExpr("-a ^ b")` is `math.Pow(-a, b)`; whenever that differs from
`-math.Pow(a, b)`, the result is not the latter. -/
theorem unary_sign_binds_tighter {F : Type} (E : Arith F) (hE : E.Regular)
    (a b : List Char) (va vb : F) (ha : IsLiteral E a va) (hb : IsLiteral E b vb) :
    evalExpr E ⟨"-".data ++ a ++ " ^ ".data ++ b⟩ = .ok (E.pow (E.neg va) vb) ∧
    (E.pow (E.neg va) vb ≠ E.neg (E.pow va vb) →
      evalExpr E ⟨"-".data ++ a ++ " ^ ".data ++ b⟩ ≠ .ok (E.neg (E.pow va vb))) := by
  have h1 : evalExpr E ⟨"-".data ++ a ++ " ^ ".data ++ b⟩ = .ok (E.pow (E.neg va) vb) := by
    have e : "-".data ++ a ++ " ^ ".data ++ b = '-' :: (a ++ ' ' :: '^' :: ' ' :: b) := by
      simp
    rw [e]
    exact evalExpr_of_text E _ _ 6 (by simp; omega)
      (fun n => negated_power E hE a b va vb ha hb n)
  refine ⟨h1, ?_⟩
  intro hne hq
  rw [h1] at hq
  simp only [Except.ok.injEq] at hq
  exact hne hq

theorem unary_sign_binds_tighter_witness :
    evalExpr wholeArith "-2 ^ 2" = .ok 4 ∧ wholeArith.neg (wholeArith.pow 2 2) = -4 :=
  ⟨(unary_sign_binds_tighter wholeArith wholeArith_regular "2".data "2".data 2 2
      ⟨⟨'2', [], rfl, Or.inl rfl⟩, rfl, rfl⟩ ⟨⟨'2', [], rfl, Or.inl rfl⟩, rfl, rfl⟩).1,
    by decide⟩

/-- C22: precedence and associativity: for all numeric literals `a`, `b`, `c`
with values `va`, `vb`, `vc`, `evalExpr("a + b * c")` is `va + vb * vc`,
`evalExpr("(a + b) * c")` is `(va + vb) * vc`, `evalExpr("a / b / c")` is
`(va / vb) / vc` when `vb` and `vc` are not zero, and `evalExpr("a ^ b ^ c")`
is `math.Pow(va, math.Pow(vb, vc))`. -/
theorem evalExpr_precedence {F : Type} (E : Arith F) (hE : E.Regular)
    (a b c : List Char) (va vb vc : F)
    (ha : IsLiteral E a va) (hb : IsLiteral E b vb) (hc : IsLiteral E c vc) :
    evalExpr E ⟨a ++ " + ".data ++ b ++ " * ".data ++ c⟩ = .ok (E.add va (E.mul vb vc)) ∧
    evalExpr E ⟨"(".data ++ a ++ " + ".data ++ b ++ ") * ".data ++ c⟩
      = .ok (E.mul (E.add va vb) vc) ∧
    (E.isZero vb = false → E.isZero vc = false →
      evalExpr E ⟨a ++ " / ".data ++ b ++ " / ".data ++ c⟩
        = .ok (E.div (E.div va vb) vc)) ∧
    evalExpr E ⟨a ++ " ^ ".data ++ b ++ " ^ ".data ++ c⟩
      = .ok (E.pow va (E.pow vb vc)) := by
  refine ⟨?_, ?_, ?_, ?_⟩
  · have e : a ++ " + ".data ++ b ++ " * ".data ++ c
        = a ++ ' ' :: '+' :: ' ' :: (b ++ ' ' :: '*' :: ' ' :: c) := by simp
    rw [e]
    exact evalExpr_of_text E _ _ 6 (by simp; omega)
      (fun n => sum_product E hE a b c va vb vc ha hb hc n)
  · have e : "(".data ++ a ++ " + ".data ++ b ++ ") * ".data ++ c
        = '(' :: (a ++ ' ' :: '+' :: ' ' :: (b ++ ')' :: ' ' :: '*' :: ' ' :: c)) := by simp
    rw [e]
    exact evalExpr_of_text E _ _ 7 (by simp; omega)
      (fun n => group_product E hE a b c va vb vc ha hb hc n)
  · intro hzb hzc
    have e : a ++ " / ".data ++ b ++ " / ".data ++ c
        = a ++ ' ' :: '/' :: ' ' :: (b ++ ' ' :: '/' :: ' ' :: c) := by simp
    rw [e]
    exact evalExpr_of_text E _ _ 6 (by simp; omega)
      (fun n => quotient_chain E hE a b c va vb vc ha hb hc hzb hzc n)
  · have e : a ++ " ^ ".data ++ b ++ " ^ ".data ++ c
        = a ++ ' ' :: '^' :: ' ' :: (b ++ ' ' :: '^' :: ' ' :: c) := by simp
    rw [e]
    exact evalExpr_of_text E _ _ 6 (by simp; omega)
      (fun n => power_chain E hE a b c va vb vc ha hb hc n)

theorem evalExpr_precedence_witness :
    evalExpr wholeArith "2 + 3 * 4" = .ok 14 ∧
    evalExpr wholeArith "(2 + 3) * 4" = .ok 20 ∧
    evalExpr wholeArith "100 / 5 / 2" = .ok 10 ∧
    evalExpr wholeArith "2 ^ 3 ^ 2" = .ok 512 :=
  have h := evalExpr_precedence wholeArith wholeArith_regular "2".data "3".data "4".data 2 3 4
    ⟨⟨'2', [], rfl, Or.inl rfl⟩, rfl, rfl⟩ ⟨⟨'3', [], rfl, Or.inl rfl⟩, rfl, rfl⟩
    ⟨⟨'4', [], rfl, Or.inl rfl⟩, rfl, rfl⟩
  ⟨h.1, h.2.1,
    (evalExpr_precedence wholeArith wholeArith_regular "100".data "5".data "2".data 100 5 2
      ⟨⟨'1', ['0', '0'], rfl, Or.inl rfl⟩, rfl, rfl⟩ ⟨⟨'5', [], rfl, Or.inl rfl⟩, rfl, rfl⟩
      ⟨⟨'2', [], rfl, Or.inl rfl⟩, rfl, rfl⟩).2.2.1 rfl rfl,
    (evalExpr_precedence wholeArith wholeArith_regular "2".data "3".data "2".data 2 3 2
      ⟨⟨'2', [], rfl, Or.inl rfl⟩, rfl, rfl⟩ ⟨⟨'3', [], rfl, Or.inl rfl⟩, rfl, rfl⟩
      ⟨⟨'2', [], rfl, Or.inl rfl⟩, rfl, rfl⟩).2.2.2⟩

theorem Reads.suffix {F : Type} {E : Arith F} {f : List Char → Step F} (hf : Reads E f)
    (s : List Char) (v : F) (r : List Char) (h : f s = .ok (v, r)) :
    ∃ k, k ≠ [] ∧ s = k ++ r := by
  obtain ⟨k, hk, hkE⟩ := hf s v r h
  exact ⟨k, hkE.ne_nil, hk⟩

theorem skipSpaces_cons_length {s rest : List Char} {ch : Char}
    (h : skipSpaces s = ch :: rest) : rest.length < s.length := by
  have := skipSpaces_length_le s
  rw [h] at this
  simp only [List.length_cons] at this
  omega

/-- C29: `evalExpr` terminates on every input. The model never runs out of
its budget of nested calls (the length of the input plus three), and a larger
budget gives the same result. `skipSpaces` and the scan of `parseNumber`
(the one place that advances by two) leave a suffix of their input, and a
method that returns a value leaves a proper suffix of the input it was given,
so the position never decreases and never exceeds the length of the input.
Each recursive call (`parseUnary` after a
sign, `parsePower` after `^`, `parseExpr` inside parentheses or for the
argument of a function) is made on a strictly shorter input. -/
theorem evalExpr_terminates {F : Type} (E : Arith F) :
    (∀ s : String, evalExpr E s ≠ .error .outOfFuel) ∧
    (∀ (s : String) (n : Nat), s.data.length + 3 ≤ n →
      parseExpr E n s.data = parseExpr E (s.data.length + 3) s.data) ∧
    (∀ s : List Char, ∃ sp, s = sp ++ skipSpaces s) ∧
    (∀ s : List Char, s = (scanNumber E s).1 ++ (scanNumber E s).2) ∧
    (∀ n t v r, parseExpr E n t = .ok (v, r) → ∃ k, k ≠ [] ∧ t = k ++ r) ∧
    (∀ m n t v r, parseTerm E (fun u => parseExpr E m u) n t = .ok (v, r) →
      ∃ k, k ≠ [] ∧ t = k ++ r) ∧
    (∀ m n t v r, parsePower E (fun u => parseExpr E m u) n t = .ok (v, r) →
      ∃ k, k ≠ [] ∧ t = k ++ r) ∧
    (∀ m n t v r, parseUnary E (fun u => parseExpr E m u) n t = .ok (v, r) →
      ∃ k, k ≠ [] ∧ t = k ++ r) ∧
    (∀ m t v r, parsePrimary E (fun u => parseExpr E m u) t = .ok (v, r) →
      ∃ k, k ≠ [] ∧ t = k ++ r) ∧
    (∀ (expr : List Char → Step F) (n : Nat) (s : List Char) (ch : Char) (rest : List Char),
      skipSpaces s = ch :: rest → ch = '-' ∨ ch = '+' →
      rest.length < s.length ∧
      parseUnary E expr (n + 1) s =
        if ch = '-' then
          match parseUnary E expr n rest with
          | .error e => .error e
          | .ok (v, r) => .ok (E.neg v, r)
        else parseUnary E expr n rest) ∧
    (∀ (m n : Nat) (s : List Char) (base : F) (r rest : List Char),
      parseUnary E (fun u => parseExpr E m u) n s = .ok (base, r) →
      skipSpaces r = '^' :: rest →
      rest.length < s.length ∧
      parsePower E (fun u => parseExpr E m u) (n + 1) s =
        match parsePower E (fun u => parseExpr E m u) n rest with
        | .error e => .error e
        | .ok (exp, r1) => .ok (E.pow base exp, r1)) ∧
    (∀ (expr : List Char → Step F) (s rest : List Char), skipSpaces s = '(' :: rest →
      rest.length < s.length ∧
      parsePrimary E expr s =
        match expr rest with
        | .error e => .error e
        | .ok (v, r) =>
          match skipSpaces r with
          | [] => .error .expectedClosing
          | d :: r1 => if d = ')' then .ok (v, r1) else .error .expectedClosing) ∧
    (∀ (expr : List Char → Step F) (s r1 : List Char),
      constant E ((s.takeWhile (nameChar E)).map E.toLower) = none →
      skipSpaces (s.dropWhile (nameChar E)) = '(' :: r1 →
      r1.length < s.length ∧
      parseNamedToken E expr s =
        match expr r1 with
        | .error e => .error e
        | .ok (arg, r2) =>
          match skipSpaces r2 with
          | [] => .error (.expectedClosingAfter ((s.takeWhile (nameChar E)).map E.toLower))
          | d :: r3 =>
            if d = ')' then
              match callFunction E ((s.takeWhile (nameChar E)).map E.toLower) arg with
              | .error e => .error e
              | .ok v => .ok (v, r3)
            else .error (.expectedClosingAfter ((s.takeWhile (nameChar E)).map E.toLower))) := by
  refine ⟨evalExpr_fuel E, ?_, fun s => ⟨_, (skipSpaces_decomp s).1⟩,
    fun s => (scanNumber_spec E _ s (le_refl _)).1, ?_, ?_, ?_, ?_, ?_, ?_, ?_, ?_, ?_⟩
  · intro s n hn
    exact parseExpr_stable E _ n hn s.data (parseExpr_fuel E _ s.data (by omega))
  · intro n
    exact (parseExpr_reads E n).suffix
  · intro m n
    exact (parseTerm_reads E _ (parseExpr_reads E m) n).suffix
  · intro m n
    exact (parsePower_reads E _ (parseExpr_reads E m) n).suffix
  · intro m n
    exact (parseUnary_reads E _ (parseExpr_reads E m) n).suffix
  · intro m
    exact (parsePrimary_reads E _ (parseExpr_reads E m)).suffix
  · intro expr n s ch rest hs hch
    refine ⟨skipSpaces_cons_length hs, ?_⟩
    rw [parseUnary, hs]
    simp only
    rcases hch with hch | hch
    · subst hch; simp
    · subst hch; simp
  · intro m n s base r rest hbase hr
    have h1 := (parseUnary_reads E _ (parseExpr_reads E m) n).length_lt hbase
    have h2 := skipSpaces_cons_length hr
    refine ⟨by omega, ?_⟩
    rw [parsePower, hbase]
    simp only
    rw [hr]
    simp
  · intro expr s rest hs
    refine ⟨skipSpaces_cons_length hs, ?_⟩
    rw [parsePrimary, hs]
    simp
  · intro expr s r1 hconst hs
    have h1 := skipSpaces_cons_length hs
    have h2 : (s.dropWhile (nameChar E)).length ≤ s.length := by
      have h3 := congrArg List.length (List.takeWhile_append_dropWhile (nameChar E) s)
      rw [List.length_append] at h3
      omega
    refine ⟨by omega, ?_⟩
    rw [parseNamedToken, hconst, hs]
    simp

/-- C23: `evalExpr` returns an error, never a number, (1) where a guard
fires: `parseTerm` returns "division by zero" or "modulo by zero" when the
right operand of `/` or `%` is zero, and the functions return their error for
`sqrt` of a negative argument and for `log`, `ln`, `log2`, `log10` of an
argument `<= 0`; (2) for every text in which such an application occurs
anywhere: whenever `evalExpr` returns a number, the evaluation over partial
values without guards returns the same number, so a text whose partial value
is undefined gives an error; (3) for every text that ends after a binary
operator; (4) for every text with an unclosed `(`; (5) for an unknown name:
`parseNamedToken` never returns a value for a name that is neither a constant
nor a function, a text that starts with such a name gives an error, and every
text evaluated without error is a text of `Expression`, whose names are the
known ones. -/
theorem evalExpr_errors {F : Type} (E : Arith F) (hE : E.Regular) :
    (∀ (power : List Char → Step F) (n : Nat) (left right : F) (s rest r : List Char),
      power rest = .ok (right, r) → E.isZero right = true →
      (skipSpaces s = '/' :: rest →
        termLoop E power (n + 1) left s = .error .divisionByZero) ∧
      (skipSpaces s = '%' :: rest →
        termLoop E power (n + 1) left s = .error .moduloByZero)) ∧
    (∀ arg, E.isNeg arg = true → callFunction E "sqrt".data arg = .error .sqrtNegative) ∧
    (∀ arg, E.notPos arg = true →
      callFunction E "log".data arg = .error .logNonPositive ∧
      callFunction E "ln".data arg = .error .logNonPositive ∧
      callFunction E "log2".data arg = .error .log2NonPositive ∧
      callFunction E "log10".data arg = .error .log10NonPositive) ∧
    (∀ (s : String) (v : F), evalExpr E s = .ok v →
      evalExpr (unguarded E) s = .ok (some v)) ∧
    (∀ s : String, evalExpr (unguarded E) s = .ok none →
      ∃ e, evalExpr E s = .error e ∧ e ≠ .outOfFuel) ∧
    (∀ (s : String) (t : List Char) (op : Char) (sp : List Char),
      s.data = t ++ op :: sp → op ∈ binaryOperators → (∀ c ∈ sp, isSpace c = true) →
      ∃ e, evalExpr E s = .error e ∧ e ≠ .outOfFuel) ∧
    (∀ s : String, s.data.count ')' < s.data.count '(' →
      ∃ e, evalExpr E s = .error e ∧ e ≠ .outOfFuel) ∧
    (∀ (expr : List Char → Step F) (t : List Char),
      (t.takeWhile (nameChar E)).map E.toLower
        ∉ ["pi".data, "e".data, "phi".data] ++ functionNames →
      ∀ v r, parseNamedToken E expr t ≠ .ok (v, r)) ∧
    (∀ (s : String) (ch : Char) (rest : List Char),
      skipSpaces s.data = ch :: rest → E.isLetter ch = true →
      ((ch :: rest).takeWhile (nameChar E)).map E.toLower
        ∉ ["pi".data, "e".data, "phi".data] ++ functionNames →
      ∃ e, evalExpr E s = .error e ∧ e ≠ .outOfFuel) ∧
    (∀ (s : String) (v : F), evalExpr E s = .ok v → Expression E s.data) := by
  refine ⟨?_, ?_, ?_, evalExpr_lifts E, ?_, ?_, ?_, ?_, ?_, evalExpr_reads E⟩
  · intro power n left right s rest r hp hz
    constructor
    · intro hs
      rw [termLoop, hs]
      simp [hp, hz]
    · intro hs
      rw [termLoop, hs]
      simp [hp, hz]
  · intro arg h
    simp [callFunction, h]
  · intro arg h
    refine ⟨?_, ?_, ?_, ?_⟩ <;> simp [callFunction, h]
  · intro s h
    apply evalExpr_error_of_not_ok
    intro v hv
    rw [evalExpr_lifts E s v hv] at h
    simp at h
  · intro s t op sp hs hop hsp
    apply evalExpr_error_of_not_ok
    intro v hv
    obtain ⟨pre, c, sp', hx, hsp', hc, hcop, _⟩ := (evalExpr_reads E s v hv).ends_visible hE
    have hopv : isSpace op = false := by
      by_contra hq
      simp only [Bool.not_eq_false] at hq
      apply isSpace_not_paren op hq
      simp only [binaryOperators, List.mem_cons, List.mem_singleton, List.not_mem_nil,
        or_false] at hop
      rcases hop with hop | hop | hop | hop | hop | hop <;> simp [hop]
    have := last_visible_unique pre t sp' sp c op hsp' hsp hc hopv (by rw [← hx, hs])
    rw [this] at hcop
    exact hcop hop
  · intro s hlt
    apply evalExpr_error_of_not_ok
    intro v hv
    have := (evalExpr_reads E s v hv).balanced hE
    omega
  · intro expr t hname v r h
    exact hname (parseNamedToken_known E expr t v r h)
  · intro s ch rest hs hch hname
    apply evalExpr_error_of_not_ok
    intro v hv
    obtain ⟨r, hr⟩ := evalExpr_ok_parseExpr E s v hv
    exact parseExpr_starts_unknown E hE _ s.data ch rest hs hch hname v r hr

theorem evalExpr_errors_witness :
    (∃ e, evalExpr wholeArith "1 +" = .error e ∧ e ≠ .outOfFuel) ∧
    (∃ e, evalExpr wholeArith "(1 + 2" = .error e ∧ e ≠ .outOfFuel) ∧
    (∃ e, evalExpr wholeArith "2 + 1 / 0" = .error e ∧ e ≠ .outOfFuel) ∧
    (∃ e, evalExpr wholeArith "foo" = .error e ∧ e ≠ .outOfFuel) ∧
    evalExpr wholeArith "1 / 0" = .error .divisionByZero ∧
    evalExpr wholeArith "5 % 0" = .error .moduloByZero ∧
    evalExpr wholeArith "sqrt(-1)" = .error .sqrtNegative ∧
    evalExpr wholeArith "log(0)" = .error .logNonPositive ∧
    evalExpr wholeArith "1 +" = .error .unexpectedEnd ∧
    evalExpr wholeArith "(1 + 2" = .error .expectedClosing ∧
    evalExpr wholeArith "foo" = .error (.unknownIdentifier "foo".data) ∧
    evalExpr wholeArith "unknown(3)" = .error (.unknownFunction "unknown".data) :=
  have h := evalExpr_errors wholeArith wholeArith_regular
  ⟨h.2.2.2.2.2.1 "1 +" "1 ".data '+' [] rfl (by decide) (by simp),
    h.2.2.2.2.2.2.1 "(1 + 2" (by decide),
    h.2.2.2.2.1 "2 + 1 / 0" rfl,
    h.2.2.2.2.2.2.2.2.1 "foo" 'f' "oo".data rfl rfl (by decide),
    rfl, rfl, rfl, rfl, rfl, rfl, rfl, rfl⟩

/-- C24 fails on the code: `2 ^ 64` evaluates without error to the whole
number 18446744073709551616 (`math.Pow(2, 64)` is exact), which passes the
test `result == math.Trunc(result) && !math.IsInf(result, 0)`; `Execute` then
prints `int64(result)`, which is not that number: on amd64 the answer is
`2 ^ 64 = -9223372036854775808`. A small whole value is printed as the claim
says (`2 ^ 8 = 256`), and for every arithmetic the integer branch prints the
digits of `int64(result)`. -/
theorem Execute_large_integer :
    evalExpr wholeArith "2 ^ 64" = .ok 18446744073709551616 ∧
    Execute wholeArith (some "2 ^ 64")
      = { ForLLM := "2 ^ 64 = -9223372036854775808",
          ForUser := "2 ^ 64 = -9223372036854775808", IsError := false, Silent := false } ∧
    Execute wholeArith (some "2 ^ 8")
      = { ForLLM := "2 ^ 8 = 256", ForUser := "2 ^ 8 = 256", IsError := false,
          Silent := false } ∧
    (∀ (F : Type) (E : Arith F) (expr : String) (v : F), trimSpace expr.data ≠ [] →
      evalExpr E ⟨trimSpace expr.data⟩ = .ok v →
      E.eq v (E.trunc v) = true → E.isInf v = false →
      Execute E (some expr)
        = { ForLLM := expr ++ " = " ++ FormatInt (E.toInt64 v),
            ForUser := expr ++ " = " ++ FormatInt (E.toInt64 v), IsError := false,
            Silent := false }) := by
  refine ⟨rfl, by decide, by decide, ?_⟩
  intro F E expr v hne hv heq hinf
  simp [Execute, hne, hv, heq, hinf]

end tools

namespace agent

open providers

theorem quarters_sum (l : List Char) :
    (l.map charQuarters).sum
      = (l.filter (fun c => c.toNat < 128)).length
        + 6 * (l.filter (fun c => ¬ c.toNat < 128)).length := by
  induction l with
  | nil => rfl
  | cons c l ih =>
    by_cases hc : c.toNat < 128
    · rw [List.filter_cons_of_pos (by simpa using hc), List.filter_cons_of_neg (by simpa using hc)]
      simp only [List.map_cons, List.sum_cons, ih, charQuarters, hc, if_true, List.length_cons]
      omega
    · rw [List.filter_cons_of_neg (by simpa using hc), List.filter_cons_of_pos (by simpa using hc)]
      simp only [List.map_cons, List.sum_cons, ih, charQuarters, hc, if_false, List.length_cons]
      omega

theorem textQuarters_eq (s : String) : textQuarters s = asciiCount s + 6 * wideCount s :=
  quarters_sum s.data

/-- C15: `estimateTokens` returns 0 for the empty list, and for a single
message without tool calls whose content has `N` ASCII characters and `M`
other characters it returns the integer part of `4 + 0.25 N + 1.5 M`. -/
theorem estimateTokens_single (m : Message) (hm : m.ToolCalls = []) :
    estimateTokens [] = 0 ∧
    estimateTokens [m]
      = ⌊(4 : ℚ) + 0.25 * (asciiCount m.Content : ℚ) + 1.5 * (wideCount m.Content : ℚ)⌋₊ := by
  constructor
  · rfl
  · have h1 : estimateTokens [m] = (16 + asciiCount m.Content + 6 * wideCount m.Content) / 4 := by
      simp [estimateTokens, messageQuarters, hm, textQuarters_eq, Nat.add_assoc]
    have h2 : (4 : ℚ) + 0.25 * (asciiCount m.Content : ℚ) + 1.5 * (wideCount m.Content : ℚ)
        = ((16 + asciiCount m.Content + 6 * wideCount m.Content : ℕ) : ℚ) / ((4 : ℕ) : ℚ) := by
      push_cast
      norm_num
      ring
    rw [h1, h2, Nat.floor_div_eq_div]

/-- C15, on the messages of `TestAgentLoop_EstimateTokens`: `Hello World!`
gives 7. -/
theorem estimateTokens_single_witness :
    estimateTokens [{ Role := "", Content := "Hello World!", ToolCalls := [], ToolCallID := "" }]
      = ⌊(4 : ℚ) + 0.25 * ((12 : ℕ) : ℚ) + 1.5 * ((0 : ℕ) : ℚ)⌋₊ :=
  (estimateTokens_single
    { Role := "", Content := "Hello World!", ToolCalls := [], ToolCallID := "" } rfl).2

/-- C16, amended: the untruncated count is additive across messages, and the
estimate of `a ++ b` is the sum of the estimates of `a` and `b` or one more;
it is the sum when one of the two counts is a whole number of tokens. -/
theorem estimateTokens_append (a b : List Message) :
    (((a ++ b).map messageQuarters).sum
      = (a.map messageQuarters).sum + (b.map messageQuarters).sum) ∧
    estimateTokens a + estimateTokens b ≤ estimateTokens (a ++ b) ∧
    estimateTokens (a ++ b) ≤ estimateTokens a + estimateTokens b + 1 ∧
    ((a.map messageQuarters).sum % 4 = 0 ∨ (b.map messageQuarters).sum % 4 = 0 →
      estimateTokens (a ++ b) = estimateTokens a + estimateTokens b) := by
  have hsum : ((a ++ b).map messageQuarters).sum
      = (a.map messageQuarters).sum + (b.map messageQuarters).sum := by
    rw [List.map_append, List.sum_append]
  unfold estimateTokens
  rw [hsum]
  refine ⟨rfl, ?_, ?_, ?_⟩
  · omega
  · omega
  · intro h; omega

/-- C16, on the messages of the case `Multiple messages` of
`TestAgentLoop_EstimateTokens`: two messages of 5 tokens each give 10. -/
theorem estimateTokens_append_witness :
    estimateTokens
      ([{ Role := "", Content := "test", ToolCalls := [], ToolCallID := "" }] ++
       [{ Role := "", Content := "test", ToolCalls := [], ToolCallID := "" }])
      = estimateTokens [{ Role := "", Content := "test", ToolCalls := [], ToolCallID := "" }]
        + estimateTokens [{ Role := "", Content := "test", ToolCalls := [], ToolCallID := "" }] :=
  (estimateTokens_append
    [{ Role := "", Content := "test", ToolCalls := [], ToolCallID := "" }]
    [{ Role := "", Content := "test", ToolCalls := [], ToolCallID := "" }]).2.2.2
    (Or.inl (by decide))

/-- C16 as stated fails: a message of two ASCII characters is estimated at 4
tokens (4.5 truncated), two of them at 9 (9.0), not at 8. -/
theorem estimateTokens_append_counterexample :
    estimateTokens [shortMessage] = 4 ∧
    estimateTokens ([shortMessage] ++ [shortMessage]) = 9 ∧
    estimateTokens ([shortMessage] ++ [shortMessage])
      ≠ estimateTokens [shortMessage] + estimateTokens [shortMessage] := by
  decide

theorem callModel_ok {σ : Type} (al : Loop σ) (now : Int) (key : String)
    (defs : List ToolDefinition) (st : TurnState σ) (resp : LLMResponse)
    (h : (al.chat st.provider (compose al (session.GetHistory st.sm key) st.pending) defs).1
      = ChatOutcome.ok resp) :
    callModel al now key defs st =
      (ChatOutcome.ok resp,
       { st with
         provider := (al.chat st.provider
           (compose al (session.GetHistory st.sm key) st.pending) defs).2,
         calls := st.calls ++ [{ toolDefs := defs, outcome := ChatOutcome.ok resp }] }) := by
  unfold callModel
  simp only [h]

/-- The calls of the loop when the backend asks for a tool whenever tool
definitions are offered. -/
theorem runLoop_always_tools {σ : Type} (al : Loop σ) (now : Int) (key : String)
    (hdefs : al.toolDefs ≠ [])
    (htool : ∀ s msgs defs, defs ≠ [] →
      ∃ resp, (al.chat s msgs defs).1 = ChatOutcome.ok resp ∧ resp.ToolCalls ≠ [])
    (hdirect : ∀ s msgs, ∃ resp, (al.chat s msgs []).1 = ChatOutcome.ok resp ∧ resp.ToolCalls = [])
    (left : Nat) :
    ∀ st : TurnState σ, ∃ toolCalls resp,
      (runLoop al now key left st).2.calls
        = st.calls ++ toolCalls ++ [{ toolDefs := [], outcome := ChatOutcome.ok resp }] ∧
      toolCalls.length = left + 1 ∧
      (∀ c ∈ toolCalls, c.toolDefs = al.toolDefs ∧
        ∃ r, c.outcome = ChatOutcome.ok r ∧ r.ToolCalls ≠ []) ∧
      resp.ToolCalls = [] ∧
      (runLoop al now key left st).1 = Except.ok resp.Content := by
  induction left with
  | zero =>
    intro st
    obtain ⟨r1, hr1, hne1⟩ := htool st.provider
      (compose al (session.GetHistory st.sm key) st.pending) al.toolDefs hdefs
    unfold runLoop
    rw [callModel_ok al now key al.toolDefs st r1 hr1]
    simp only [hne1, if_false]
    obtain ⟨r2, hr2, hd2⟩ := hdirect
      (executeTools al r1 { st with
        provider := (al.chat st.provider
          (compose al (session.GetHistory st.sm key) st.pending) al.toolDefs).2,
        calls := st.calls ++ [{ toolDefs := al.toolDefs, outcome := ChatOutcome.ok r1 }] }).provider
      (compose al
        (session.GetHistory (executeTools al r1 { st with
          provider := (al.chat st.provider
            (compose al (session.GetHistory st.sm key) st.pending) al.toolDefs).2,
          calls := st.calls ++ [{ toolDefs := al.toolDefs, outcome := ChatOutcome.ok r1 }] }).sm key)
        (executeTools al r1 { st with
          provider := (al.chat st.provider
            (compose al (session.GetHistory st.sm key) st.pending) al.toolDefs).2,
          calls := st.calls ++ [{ toolDefs := al.toolDefs, outcome := ChatOutcome.ok r1 }] }).pending)
    refine ⟨[{ toolDefs := al.toolDefs, outcome := ChatOutcome.ok r1 }], r2, ?_, rfl, ?_, hd2, ?_⟩
    · unfold synthesis
      rw [callModel_ok al now key [] _ r2 hr2]
      simp [executeTools]
    · intro c hc
      simp only [List.mem_singleton] at hc
      subst hc
      exact ⟨rfl, r1, rfl, hne1⟩
    · unfold synthesis
      rw [callModel_ok al now key [] _ r2 hr2]
  | succ left ih =>
    intro st
    obtain ⟨r1, hr1, hne1⟩ := htool st.provider
      (compose al (session.GetHistory st.sm key) st.pending) al.toolDefs hdefs
    unfold runLoop
    rw [callModel_ok al now key al.toolDefs st r1 hr1]
    simp only [hne1, if_false]
    obtain ⟨toolCalls, resp, h1, h2, h3, h4, h5⟩ := ih
      (executeTools al r1 { st with
        provider := (al.chat st.provider
          (compose al (session.GetHistory st.sm key) st.pending) al.toolDefs).2,
        calls := st.calls ++ [{ toolDefs := al.toolDefs, outcome := ChatOutcome.ok r1 }] })
    refine ⟨{ toolDefs := al.toolDefs, outcome := ChatOutcome.ok r1 } :: toolCalls, resp,
      ?_, by simp [h2], ?_, h4, h5⟩
    · rw [h1]; simp [executeTools]
    · intro c hc
      simp only [List.mem_cons] at hc
      rcases hc with rfl | hc
      · exact ⟨rfl, r1, rfl, hne1⟩
      · exact h3 c hc

/-- C13: with an iteration budget `K >= 1`, tool definitions to offer, and a
backend that requests a tool on every call that offers tool definitions and
answers directly when none are offered, a turn makes exactly `K` calls that
offer the tool definitions and come back with tool calls, followed by exactly
one call with an empty list of tool definitions, and the reply of the turn is
the content of that last call. -/
theorem synthesis_after_budget {σ : Type} (al : Loop σ) (now : Int)
    (sm : session.SessionManager) (provider : σ) (key content : String)
    (hK : 1 ≤ al.MaxToolIterations) (hdefs : al.toolDefs ≠ [])
    (hinj : al.isInjection content = false)
    (htool : ∀ s msgs defs, defs ≠ [] →
      ∃ resp, (al.chat s msgs defs).1 = ChatOutcome.ok resp ∧ resp.ToolCalls ≠ [])
    (hdirect : ∀ s msgs, ∃ resp, (al.chat s msgs []).1 = ChatOutcome.ok resp ∧ resp.ToolCalls = []) :
    ∃ toolCalls resp,
      (processMessage al now sm provider key content).calls
        = toolCalls ++ [{ toolDefs := [], outcome := ChatOutcome.ok resp }] ∧
      toolCalls.length = al.MaxToolIterations ∧
      (∀ c ∈ toolCalls, c.toolDefs = al.toolDefs ∧
        ∃ r, c.outcome = ChatOutcome.ok r ∧ r.ToolCalls ≠ []) ∧
      resp.ToolCalls = [] ∧
      (processMessage al now sm provider key content).reply = Except.ok resp.Content := by
  obtain ⟨toolCalls, resp, h1, h2, h3, h4, h5⟩ :=
    runLoop_always_tools al now key hdefs htool hdirect (al.MaxToolIterations - 1)
      { provider := provider, calls := [], sm := sm,
        pending := [{ Role := "user", Content := content, ToolCalls := [], ToolCallID := "" }],
        lastTool := none }
  refine ⟨toolCalls, resp, ?_, by omega, h3, h4, ?_⟩
  · unfold processMessage
    simp only [hinj, Bool.false_eq_true, if_false, h5]
    simpa using h1
  · unfold processMessage
    simp only [hinj, Bool.false_eq_true, if_false, h5]

theorem alwaysToolCallProvider_tools (text : String) (s : Nat) (msgs : List Message)
    (defs : List ToolDefinition) (h : defs ≠ []) :
    ∃ resp, (alwaysToolCallProvider text s msgs defs).1 = ChatOutcome.ok resp ∧
      resp.ToolCalls ≠ [] := by
  have hl : defs.length ≠ 0 := fun e => h (List.length_eq_zero.mp e)
  simp [alwaysToolCallProvider, hl]

theorem alwaysToolCallProvider_direct (text : String) (s : Nat) (msgs : List Message) :
    ∃ resp, (alwaysToolCallProvider text s msgs []).1 = ChatOutcome.ok resp ∧
      resp.ToolCalls = [] := by
  simp [alwaysToolCallProvider]

/-- C13, on the loop and the provider of
`TestAgentLoop_GracefulDegradationAtIterLimit`, with the budget 3. -/
theorem synthesis_after_budget_witness :
    ∃ toolCalls resp,
      (processMessage (degradationLoop 3) 0
        (session.NewSessionManager session.recordCodec "" [] 0).1 0
        "test-session-synth" "current gold price today").calls
        = toolCalls ++ [{ toolDefs := [], outcome := ChatOutcome.ok resp }] ∧
      toolCalls.length = (degradationLoop 3).MaxToolIterations ∧
      (∀ c ∈ toolCalls, c.toolDefs = (degradationLoop 3).toolDefs ∧
        ∃ r, c.outcome = ChatOutcome.ok r ∧ r.ToolCalls ≠ []) ∧
      resp.ToolCalls = [] ∧
      (processMessage (degradationLoop 3) 0
        (session.NewSessionManager session.recordCodec "" [] 0).1 0
        "test-session-synth" "current gold price today").reply = Except.ok resp.Content :=
  synthesis_after_budget (degradationLoop 3) 0
    (session.NewSessionManager session.recordCodec "" [] 0).1 0
    "test-session-synth" "current gold price today" (by decide) (by decide) rfl
    (fun s msgs defs h => alwaysToolCallProvider_tools _ s msgs defs h)
    (fun s msgs => alwaysToolCallProvider_direct _ s msgs)

theorem GetHistory_AddFullMessage (sm : session.SessionManager) (now : Int) (key : String)
    (m : Message) :
    session.GetHistory (session.AddFullMessage sm now key m) key
      = session.GetHistory sm key ++ [m] := by
  cases h : sm.sessions key <;>
    simp [session.GetHistory, session.AddFullMessage, session.SessionManager.put, h]

theorem GetHistory_commit (now : Int) (key : String) (ms : List Message) :
    ∀ sm : session.SessionManager,
      session.GetHistory (commit sm now key ms) key = session.GetHistory sm key ++ ms := by
  induction ms with
  | nil => intro sm; simp [commit]
  | cons m ms ih =>
    intro sm
    simp only [commit]
    rw [ih, GetHistory_AddFullMessage]
    simp

theorem GetHistory_SetHistory (sm : session.SessionManager) (now : Int) (key : String)
    (msgs : List Message) :
    session.GetHistory (session.SetHistory sm now key msgs) key
      = match sm.sessions key with
        | none => []
        | some _ => msgs := by
  cases h : sm.sessions key <;>
    simp [session.GetHistory, session.SetHistory, session.SessionManager.put, h]

theorem dropMiddle_spec : DropsMiddle dropMiddle := by
  intro l
  refine ⟨l.take ((l.length - min (l.length / 2) (l.length - 2) + 1) / 2),
    (l.drop ((l.length - min (l.length / 2) (l.length - 2) + 1) / 2)).take
      (min (l.length / 2) (l.length - 2)),
    l.drop ((l.length - min (l.length / 2) (l.length - 2) + 1) / 2
      + min (l.length / 2) (l.length - 2)), ?_, ?_, ?_, ?_⟩
  · rw [List.append_assoc, ← List.drop_drop, List.take_append_drop, List.take_append_drop]
  · rfl
  · intro hm
    have hpos : 0 < ((l.drop ((l.length - min (l.length / 2) (l.length - 2) + 1) / 2)).take
        (min (l.length / 2) (l.length - 2))).length := List.length_pos.mpr hm
    simp only [List.length_take, List.length_drop] at hpos
    constructor
    · apply List.ne_nil_of_length_pos
      simp only [List.length_take]
      omega
    · apply List.ne_nil_of_length_pos
      simp only [List.length_drop]
      omega
  · simp only [List.length_take, List.length_drop]
    omega

/-- C14, amended: when the first backend call of a turn fails with a
context-overflow error and the second call answers directly, the turn
succeeds with that answer, exactly two backend calls are made, and the stored
history after the turn is the compressed history of the session followed by
the user turn and the reply. For a session of at least three messages, of
which the compression pass drops the middle half, it has strictly fewer
messages than the original length plus 2; a session of fewer than three
messages has nothing between its earliest and its most recent message, and
the history then has exactly the original length plus 2. -/
theorem overflow_retry {σ : Type} (al : Loop σ) (now : Int) (sm : session.SessionManager)
    (s0 s1 s2 : σ) (key content : String) (resp : LLMResponse)
    (hcomp : DropsMiddle al.compress)
    (hinj : al.isInjection content = false)
    (hfail : ∀ msgs defs, al.chat s0 msgs defs = (ChatOutcome.failed ChatError.contextOverflow, s1))
    (hok : ∀ msgs defs, al.chat s1 msgs defs = (ChatOutcome.ok resp, s2))
    (hdirect : resp.ToolCalls = []) :
    (processMessage al now sm s0 key content).reply = Except.ok resp.Content ∧
    (processMessage al now sm s0 key content).calls.length = 2 ∧
    session.GetHistory (processMessage al now sm s0 key content).sm key
      = al.compress (session.GetHistory sm key)
        ++ [{ Role := "user", Content := content, ToolCalls := [], ToolCallID := "" },
            { Role := "assistant", Content := resp.Content, ToolCalls := [], ToolCallID := "" }] ∧
    (3 ≤ (session.GetHistory sm key).length →
      (session.GetHistory (processMessage al now sm s0 key content).sm key).length
        < (session.GetHistory sm key).length + 2) ∧
    ((session.GetHistory sm key).length < 3 →
      (session.GetHistory (processMessage al now sm s0 key content).sm key).length
        = (session.GetHistory sm key).length + 2) := by
  have hcall : ∀ defs (st : TurnState σ), st.provider = s0 → st.calls = [] →
      callModel al now key defs st =
        (ChatOutcome.ok resp,
         { st with provider := s2,
                   sm := session.SetHistory st.sm now key
                     (al.compress (session.GetHistory st.sm key)),
                   calls := [{ toolDefs := defs,
                               outcome := ChatOutcome.failed ChatError.contextOverflow },
                             { toolDefs := defs, outcome := ChatOutcome.ok resp }] }) := by
    intro defs st hp hc
    unfold callModel
    simp only [hp, hfail, hok, hc, List.nil_append, List.singleton_append]
  have hloop : ∀ n (st : TurnState σ), st.provider = s0 → st.calls = [] → st.lastTool = none →
      runLoop al now key n st =
        (Except.ok resp.Content,
         { st with provider := s2,
                   sm := session.SetHistory st.sm now key
                     (al.compress (session.GetHistory st.sm key)),
                   calls := [{ toolDefs := al.toolDefs,
                               outcome := ChatOutcome.failed ChatError.contextOverflow },
                             { toolDefs := al.toolDefs, outcome := ChatOutcome.ok resp }],
                   pending := st.pending ++ [assistantMessage resp] }) := by
    intro n st hp hc hl
    cases n <;>
      (unfold runLoop
       rw [hcall al.toolDefs st hp hc]
       simp only [hdirect, if_true, respond, hl])
  have hrun := hloop (al.MaxToolIterations - 1)
    { provider := s0, calls := [], sm := sm,
      pending := [{ Role := "user", Content := content, ToolCalls := [], ToolCallID := "" }],
      lastTool := none } rfl rfl rfl
  have hnil : al.compress [] = [] := by
    obtain ⟨a, m, b, hl, hc, _, _⟩ := hcomp []
    have h1 : a = [] ∧ m = [] ∧ b = [] := by
      have h2 := congrArg List.length hl
      simp only [List.length_nil, List.length_append] at h2
      exact ⟨List.length_eq_zero.mp (by omega), List.length_eq_zero.mp (by omega),
        List.length_eq_zero.mp (by omega)⟩
    rw [hc, h1.1, h1.2.2]
    rfl
  have hhist : session.GetHistory (processMessage al now sm s0 key content).sm key
      = al.compress (session.GetHistory sm key)
        ++ [{ Role := "user", Content := content, ToolCalls := [], ToolCallID := "" },
            { Role := "assistant", Content := resp.Content, ToolCalls := [], ToolCallID := "" }] := by
    unfold processMessage
    simp only [hinj, Bool.false_eq_true, if_false, hrun]
    rw [GetHistory_commit, GetHistory_SetHistory]
    cases h : sm.sessions key <;>
      simp [session.GetHistory, h, assistantMessage, hdirect, hnil]
  obtain ⟨a, m, b, hl, hc, hmid, hhalf⟩ := hcomp (session.GetHistory sm key)
  have hlen : (session.GetHistory sm key).length = a.length + m.length + b.length := by
    have h2 := congrArg List.length hl
    simpa only [List.length_append] using h2
  have hclen : (al.compress (session.GetHistory sm key)).length = a.length + b.length := by
    rw [hc, List.length_append]
  refine ⟨?_, ?_, hhist, ?_, ?_⟩
  · unfold processMessage
    simp only [hinj, Bool.false_eq_true, if_false, hrun]
  · unfold processMessage
    simp only [hinj, Bool.false_eq_true, if_false, hrun]
    rfl
  · intro h3
    rw [hhist]
    simp only [List.length_append, List.length_cons, List.length_nil, hclen]
    omega
  · intro h3
    have hm : m = [] := by
      by_contra hne
      obtain ⟨ha, hb⟩ := hmid hne
      have h1 := List.length_pos.mpr ha
      have h2 := List.length_pos.mpr hb
      have h4 := List.length_pos.mpr hne
      omega
    rw [hhist]
    simp only [List.length_append, List.length_cons, List.length_nil, hclen]
    rw [hlen, hm]
    simp

/-- C14, on the loop of `TestAgentLoop_ContextExhaustionRetry` and a session
that holds the six messages of the test: five messages are left. -/
theorem overflow_retry_witness :
    (session.GetHistory (processMessage retryLoop 0 fullManager 0 "test-session-context"
        "Trigger message").sm "test-session-context").length
      < (session.GetHistory fullManager "test-session-context").length + 2 :=
  (overflow_retry retryLoop 0 fullManager 0 1 2 "test-session-context" "Trigger message"
    { Content := "Recovered from context error", ToolCalls := [] } dropMiddle_spec rfl
    (fun _ _ => rfl) (fun _ _ => rfl) rfl).2.2.2.1 (by decide)

/-- C14 as stated fails: on a new manager, where the key has no messages (the
state `TestAgentLoop_ContextExhaustionRetry` runs in, its `SetHistory` having
stored nothing), the turn succeeds after two calls and the history then has
2 messages, which is the original length plus 2 and not fewer; likewise on a
session that exists and is empty. -/
theorem overflow_retry_counterexample :
    (session.GetHistory (session.NewSessionManager session.recordCodec "" [] 0).1
      "test-session-context").length = 0 ∧
    (processMessage retryLoop 0 (session.NewSessionManager session.recordCodec "" [] 0).1 0
      "test-session-context" "Trigger message").reply = Except.ok "Recovered from context error" ∧
    (processMessage retryLoop 0 (session.NewSessionManager session.recordCodec "" [] 0).1 0
      "test-session-context" "Trigger message").calls.length = 2 ∧
    (session.GetHistory (processMessage retryLoop 0
      (session.NewSessionManager session.recordCodec "" [] 0).1 0
      "test-session-context" "Trigger message").sm "test-session-context").length = 2 ∧
    (session.GetHistory (processMessage retryLoop 0
      (session.GetOrCreate (session.NewSessionManager session.recordCodec "" [] 0).1 0
        "test-session-context").2 0
      "test-session-context" "Trigger message").sm "test-session-context").length = 2 ∧
    ¬ (2 < 0 + 2) :=
  ⟨by decide, rfl, by decide, by decide, by decide, by decide⟩

end agent
